import Mathlib

/-!
Area-calculator: clustering, convex hull and cluster analytics.

A shallow embedding of `src/dbscan.js`, `src/convexhull.js` and the analytics
loop of `src/script.js`, followed by the properties established about them.

Conventions of the embedding.

* Coordinates live in an arbitrary linearly ordered commutative ring `K`
  (the integers and the rationals are instances); this is exact arithmetic.
  The source computes in doubles: where rounding matters, `cross` is read as
  `crossDouble`, each operation rounded to 53 significant bits, and the hull
  is run with it through `convexHullWith`.
* `haversine` is floating-point trigonometry in the source; `dbscan` and the
  analytics take it as a parameter `hav`. The function itself is embedded over
  the functions of `Math` it calls (`JsMath`), and the properties of it are
  stated with these read as the real functions.
* The label array of `dbscan` is a `List (Option Int)`: `none` is the source's
  `undefined`, `some (-1)` is noise and `some c` with `0 ≤ c` a cluster id.
* `dbscan` is run as a machine: one `step` is one iteration of the main `for`
  loop (lines 40-49) or one iteration of the `for` loop of `expandCluster`
  (lines 28-37).
-/

namespace AreaCalculator

/-- A parsed CSV row: `{ lat, lon, time }`. -/
structure Point (K : Type) where
  lat : K
  lon : K
  time : Int
deriving DecidableEq

section Dbscan

variable {K : Type} [LinearOrderedCommRing K]

/-- Read of `labels[p]`; an index outside the array reads as `undefined`. -/
def labelAt (labels : List (Option Int)) (p : Nat) : Option Int :=
  labels.getD p none

/-- The test `haversine(data[i].lat, data[i].lon, data[j].lat, data[j].lon) <= eps`
of `regionQuery` (dbscan.js lines 20-21). -/
def near (hav : K → K → K → K → K) (data : List (Point K)) (eps : K) (i j : Nat) : Bool :=
  match data[i]?, data[j]? with
  | some p, some q => decide (hav p.lat p.lon q.lat q.lon ≤ eps)
  | _, _ => false

/-- Embedding of `regionQuery(i)` (dbscan.js lines 17-24): the indices `j`, in
ascending order, with `haversine(data[i], data[j]) <= eps`. -/
def regionQuery (hav : K → K → K → K → K) (data : List (Point K)) (eps : K) (i : Nat) :
    List Nat :=
  (List.range data.length).filter (fun j => near hav data eps i j)

/-- An activation of `expandCluster`: the local `neighbors` array and the loop
counter `j` (dbscan.js lines 26-38). -/
structure Frame where
  neighbors : List Nat
  j : Nat
deriving DecidableEq

/-- The variables of a run of `dbscan`: `labels`, `clusterId`, the counter `i`
of the main loop, and the activation of `expandCluster` when one is running. -/
structure DState where
  labels : List (Option Int)
  clusterId : Int
  i : Nat
  frame : Option Frame
deriving DecidableEq

/-- State at dbscan.js line 40, before the first test of the main loop
(lines 14-15): every label `undefined`, `clusterId = 0`. -/
def initState (n : Nat) : DState :=
  { labels := List.replicate n none, clusterId := 0, i := 0, frame := none }

/-- One iteration of a loop of `dbscan`; `none` when the main loop has ended.

Outside `expandCluster` (lines 40-49): a labelled `i` is skipped; an
unlabelled `i` with fewer than `minPts` neighbours is labelled `-1`;
otherwise `expandCluster(i, neighbors)` is entered, whose first statement
(line 27) labels `i` with `clusterId`.

Inside `expandCluster` (lines 28-37): the entry `neighbors[j]` is labelled
when it is `undefined`, and its own neighbours are appended when they are at
least `minPts`; when `j` reaches `neighbors.length` the call returns,
`clusterId++` (line 47) and `i++`. -/
def step (hav : K → K → K → K → K) (data : List (Point K)) (eps : K) (minPts : Int)
    (s : DState) : Option DState :=
  match s.frame with
  | none =>
    if s.i < data.length then
      if (labelAt s.labels s.i).isSome then
        some { s with i := s.i + 1 }
      else
        let neighbors := regionQuery hav data eps s.i
        if (neighbors.length : Int) < minPts then
          some { s with labels := s.labels.set s.i (some (-1)), i := s.i + 1 }
        else
          some { s with labels := s.labels.set s.i (some s.clusterId),
                        frame := some { neighbors := neighbors, j := 0 } }
    else none
  | some f =>
    if f.j < f.neighbors.length then
      let idx := f.neighbors.getD f.j 0
      if (labelAt s.labels idx).isSome then
        some { s with frame := some { f with j := f.j + 1 } }
      else
        let newNeighbors := regionQuery hav data eps idx
        if minPts ≤ (newNeighbors.length : Int) then
          some { s with labels := s.labels.set idx (some s.clusterId),
                        frame := some { neighbors := f.neighbors ++ newNeighbors,
                                        j := f.j + 1 } }
        else
          some { s with labels := s.labels.set idx (some s.clusterId),
                        frame := some { f with j := f.j + 1 } }
    else
      some { s with clusterId := s.clusterId + 1, i := s.i + 1, frame := none }

/-- The state after `k` loop iterations from `s` (the final state, when the
run ends earlier). -/
def run (hav : K → K → K → K → K) (data : List (Point K)) (eps : K) (minPts : Int) :
    Nat → DState → DState
  | 0, s => s
  | k + 1, s =>
    match step hav data eps minPts s with
    | none => s
    | some s' => run hav data eps minPts k s'

/-- A number of loop iterations no run on `n` points exceeds. -/
def dbscanFuel (n : Nat) : Nat := n * (n + 2) + 2 * n + 1

/-- Embedding of `dbscan(data, eps, minPts)` (dbscan.js lines 13-52): the
`labels` array when the main loop has ended. -/
def dbscan (hav : K → K → K → K → K) (data : List (Point K)) (eps : K) (minPts : Int) :
    List (Option Int) :=
  (run hav data eps minPts (dbscanFuel data.length) (initState data.length)).labels

end Dbscan

/-- A distance for examples: points on one meridian, `|lat2 - lat1|`. -/
def lineDist (lat1 _ lat2 _ : Int) : Int := |lat2 - lat1|

/-- The point of latitude `x` on the example meridian. -/
def onLine (x : Int) : Point Int := { lat := x, lon := 0, time := 0 }

section DbscanSpec

variable {K : Type} [LinearOrderedCommRing K]

/-- The point `i` is a core point: its neighbourhood, itself included when
`haversine` puts it there, has at least `minPts` points. -/
def isCore (hav : K → K → K → K → K) (data : List (Point K)) (eps : K) (minPts : Int)
    (i : Nat) : Prop :=
  minPts ≤ ((regionQuery hav data eps i).length : Int)

instance (hav : K → K → K → K → K) (data : List (Point K)) (eps : K) (minPts : Int)
    (i : Nat) : Decidable (isCore hav data eps minPts i) := by
  unfold isCore; infer_instance

/-- The transitions of `step`, one constructor per branch of the source. -/
inductive Step (hav : K → K → K → K → K) (data : List (Point K)) (eps : K) (minPts : Int) :
    DState → DState → Prop
  /-- Line 41: `labels[i] !== undefined`, `continue`. -/
  | skip (s : DState) (hf : s.frame = none) (hi : s.i < data.length)
      (hl : labelAt s.labels s.i ≠ none) :
      Step hav data eps minPts s { s with i := s.i + 1 }
  /-- Lines 43-44: fewer than `minPts` neighbours, `labels[i] = -1`. -/
  | noise (s : DState) (hf : s.frame = none) (hi : s.i < data.length)
      (hl : labelAt s.labels s.i = none)
      (hc : ¬ isCore hav data eps minPts s.i) :
      Step hav data eps minPts s
        { s with labels := s.labels.set s.i (some (-1)), i := s.i + 1 }
  /-- Lines 46 and 27: `expandCluster(i, neighbors)` is entered, `labels[i] = clusterId`. -/
  | enter (s : DState) (hf : s.frame = none) (hi : s.i < data.length)
      (hl : labelAt s.labels s.i = none)
      (hc : isCore hav data eps minPts s.i) :
      Step hav data eps minPts s
        { s with labels := s.labels.set s.i (some s.clusterId),
                 frame := some { neighbors := regionQuery hav data eps s.i, j := 0 } }
  /-- Line 30 fails: `neighbors[j]` has a label already. -/
  | visit (s : DState) (f : Frame) (hf : s.frame = some f) (hj : f.j < f.neighbors.length)
      (hl : labelAt s.labels (f.neighbors.getD f.j 0) ≠ none) :
      Step hav data eps minPts s { s with frame := some { f with j := f.j + 1 } }
  /-- Lines 31-35: `neighbors[j]` is labelled `clusterId`; its neighbours are
  appended when it is a core point. -/
  | claim (s : DState) (f : Frame) (hf : s.frame = some f) (hj : f.j < f.neighbors.length)
      (hl : labelAt s.labels (f.neighbors.getD f.j 0) = none) :
      Step hav data eps minPts s
        { s with labels := s.labels.set (f.neighbors.getD f.j 0) (some s.clusterId),
                 frame := some
                   { neighbors := f.neighbors ++
                       (if isCore hav data eps minPts (f.neighbors.getD f.j 0)
                        then regionQuery hav data eps (f.neighbors.getD f.j 0) else []),
                     j := f.j + 1 } }
  /-- Line 28 fails: `expandCluster` returns, `clusterId++` (line 47), `i++`. -/
  | leave (s : DState) (f : Frame) (hf : s.frame = some f) (hj : ¬ f.j < f.neighbors.length) :
      Step hav data eps minPts s
        { s with clusterId := s.clusterId + 1, i := s.i + 1, frame := none }

/-- The labels `l'` keep every label of `l`. -/
def Extends (l l' : List (Option Int)) : Prop :=
  l.length = l'.length ∧ ∀ p v, labelAt l p = some v → labelAt l' p = some v

end DbscanSpec

section DbscanInvariants

variable {K : Type} [LinearOrderedCommRing K]

/-- The index `s` is the lowest one labelled `c`. -/
def IsFirst (labels : List (Option Int)) (c : Int) (s : Nat) : Prop :=
  labelAt labels s = some c ∧ ∀ q, q < s → labelAt labels q ≠ some c

/-- The point `x` carries the id of a cluster opened before cluster `c`: a
label `l` with `0 <= l < c`. -/
def hasEarlierId (labels : List (Option Int)) (c : Int) (x : Nat) : Bool :=
  match labelAt labels x with
  | some l => decide (0 ≤ l ∧ l < c)
  | none => false

/-- Facts that hold of every state of a run: the label array has the input's
length, the points before `i` are labelled, the labels in use are `-1` and the
cluster ids opened so far, a noise label sits on a non-core point only, and
while `expandCluster` runs `i` is the lowest index of the cluster being built. -/
structure WF (hav : K → K → K → K → K) (data : List (Point K)) (eps : K) (minPts : Int)
    (s : DState) : Prop where
  len : s.labels.length = data.length
  cid : 0 ≤ s.clusterId
  below : ∀ p, p < s.i → labelAt s.labels p ≠ none
  range : ∀ p l, labelAt s.labels p = some l →
    l = -1 ∨ (0 ≤ l ∧ l < s.clusterId) ∨ (s.frame ≠ none ∧ l = s.clusterId)
  noise : ∀ p, labelAt s.labels p = some (-1) → ¬ isCore hav data eps minPts p
  fr : ∀ f, s.frame = some f →
    s.i < data.length ∧ IsFirst s.labels s.clusterId s.i ∧ ∀ x ∈ f.neighbors, x < data.length

/-- The number of `undefined` entries. -/
def unlabelled (labels : List (Option Int)) : Nat := labels.count none

/-- A bound on the loop iterations left: it drops at each one. -/
def measure (n : Nat) (s : DState) : Nat :=
  unlabelled s.labels * (n + 2) + 2 * (n - s.i) +
    (match s.frame with
     | none => 0
     | some f => f.neighbors.length - f.j + 1)

end DbscanInvariants

section DbscanClusterInvariants

variable {K : Type} [LinearOrderedCommRing K]

/-- Discovery order of the clusters opened so far: each closed cluster id has
a lowest member before `i`, and the lowest members ascend with the ids. -/
structure Seeds (s : DState) : Prop where
  closed : ∀ c : Int, 0 ≤ c → c < s.clusterId → ∃ t, t < s.i ∧ IsFirst s.labels c t
  order : ∀ c : Int, 0 ≤ c → c + 1 < s.clusterId →
    ∃ t t', IsFirst s.labels c t ∧ IsFirst s.labels (c + 1) t' ∧ t < t'

/-- A chain `t = q0, ..., qm = p` of points labelled `c`, every one but the
last a core point, each `q(k+1)` in the neighbourhood of `q(k)`. -/
def DensityChain (hav : K → K → K → K → K) (data : List (Point K)) (eps : K) (minPts : Int)
    (labels : List (Option Int)) (c : Int) (t p : Nat) : Prop :=
  ∃ ch : List Nat, ch.head? = some t ∧ ch.getLast? = some p ∧
    (∀ q ∈ ch, labelAt labels q = some c) ∧
    (∀ q ∈ ch.dropLast, isCore hav data eps minPts q) ∧
    List.Chain' (fun a b => near hav data eps a b = true) ch

/-- Every labelled point hangs on a chain from the lowest member of its
cluster, and every entry of the work list of `expandCluster` is a neighbour
of a core point of the cluster being built. -/
structure Chains (hav : K → K → K → K → K) (data : List (Point K)) (eps : K) (minPts : Int)
    (s : DState) : Prop where
  chain : ∀ p c, 0 ≤ c → labelAt s.labels p = some c →
    ∃ t, IsFirst s.labels c t ∧ DensityChain hav data eps minPts s.labels c t p
  front : ∀ f, s.frame = some f → ∀ x ∈ f.neighbors,
    ∃ q, labelAt s.labels q = some s.clusterId ∧ isCore hav data eps minPts q ∧
      near hav data eps q x = true

/-- The neighbourhood of the seed of each cluster is labelled by the time the
cluster is closed, with the cluster's id or a label given earlier. -/
structure Hoods (hav : K → K → K → K → K) (data : List (Point K)) (eps : K) (minPts : Int)
    (s : DState) : Prop where
  closed : ∀ c : Int, 0 ≤ c → c < s.clusterId →
    ∃ t, IsFirst s.labels c t ∧ isCore hav data eps minPts t ∧
      ∀ x ∈ regionQuery hav data eps t, ∃ l, labelAt s.labels x = some l ∧ l ≤ c
  fr : ∀ f, s.frame = some f →
    isCore hav data eps minPts s.i ∧
    (∃ rest, f.neighbors = regionQuery hav data eps s.i ++ rest) ∧
    ∀ m, m < f.j → labelAt s.labels (f.neighbors.getD m 0) ≠ none

end DbscanClusterInvariants

/-- Three points one unit apart on the example meridian, in order. -/
def threeInLine : List (Point Int) := [onLine 0, onLine 1, onLine 2]

/-- Two groups on the example meridian that share the border point at
latitude `1`: the first group comes first in the input. -/
def twoGroups : List (Point Int) :=
  [onLine 0, onLine (-1), onLine (-1), onLine 1, onLine 2, onLine 3, onLine 3]

section ConvexHull

variable {K : Type} [LinearOrderedCommRing K]

/-- The comparator of `points.sort` (convexhull.js line 2) puts `a` no later
than `b`: `a.lon - b.lon || a.lat - b.lat` is not positive. -/
def lexLE (a b : Point K) : Prop :=
  a.lon < b.lon ∨ (a.lon = b.lon ∧ a.lat ≤ b.lat)

instance : DecidableRel (@lexLE K _) := fun a b => by
  unfold lexLE; infer_instance

/-- Embedding of `points.sort(...)` (convexhull.js line 2): `Array.prototype.sort`
is a stable sort, here insertion sort, which is stable. -/
def sortPoints (points : List (Point K)) : List (Point K) :=
  points.insertionSort lexLE

/-- Embedding of `cross` (convexhull.js line 3) with the subtractions and
products carried out exactly, in the ring `K`. The source computes them in
IEEE-754 doubles, so that this is the value the code obtains wherever the three
subtractions and the two products are exact in doubles (integer coordinates of
moderate size, for one); `crossDouble` below is the same expression with each
operation rounded as the doubles round it. -/
def cross (o a b : Point K) : K :=
  (a.lon - o.lon) * (b.lat - o.lat) - (a.lat - o.lat) * (b.lon - o.lon)

/-- The `while` loop of convexhull.js lines 6-8 (and 14-16) on a chain held
top first: the top is popped while the chain has two entries and
`cross(second, top, p) <= 0`. -/
def popWhile (p : Point K) : List (Point K) → List (Point K)
  | b :: a :: rest =>
    if cross a b p ≤ 0 then popWhile p (a :: rest) else b :: a :: rest
  | st => st

/-- One pass of convexhull.js lines 5-10 (and 12-18) over `pts`, the chain
held top first: for each point, pop, then push. -/
def chainRev (pts : List (Point K)) : List (Point K) :=
  pts.foldl (fun st p => p :: popWhile p st) []

/-- The array `lower` after the loop of lines 5-10, in array order. -/
def lowerChain (sorted : List (Point K)) : List (Point K) :=
  (chainRev sorted).reverse

/-- The array `upper` after the loop of lines 12-18, in array order: the
same pass over the sorted points from the last to the first. -/
def upperChain (sorted : List (Point K)) : List (Point K) :=
  (chainRev sorted.reverse).reverse

/-- Embedding of `convexHull(points)` (convexhull.js lines 1-22) with its
effect on the argument: the first component is the array `points` after the
call (sorted in place by line 2), the second the returned hull
`lower.concat(upper)` after `upper.pop()` and `lower.pop()`; `pop` on an empty
array leaves it empty. -/
def convexHullRun (points : List (Point K)) : List (Point K) × List (Point K) :=
  let sorted := sortPoints points
  (sorted, (lowerChain sorted).dropLast ++ (upperChain sorted).dropLast)

/-- The value returned by `convexHull(points)`. -/
def convexHull (points : List (Point K)) : List (Point K) :=
  (convexHullRun points).2

/-- The `while` loop of convexhull.js lines 6-8 (and 14-16) as `popWhile`, the
value of `cross(second, top, p)` being what `crs` computes. -/
def popWhileWith (crs : Point K → Point K → Point K → K) (p : Point K) :
    List (Point K) → List (Point K)
  | b :: a :: rest =>
    if crs a b p ≤ 0 then popWhileWith crs p (a :: rest) else b :: a :: rest
  | st => st

/-- One pass of convexhull.js lines 5-10 (and 12-18) as `chainRev`, with `crs`
for `cross`. -/
def chainRevWith (crs : Point K → Point K → Point K → K) (pts : List (Point K)) :
    List (Point K) :=
  pts.foldl (fun st p => p :: popWhileWith crs p st) []

/-- The value returned by `convexHull(points)` (convexhull.js lines 1-22) when
the calls of `cross` evaluate as `crs` does: sort, lower pass, upper pass over
the sorted points from the last to the first, both chains without their last
entry, concatenated. The sort is the one of `convexHull`: its comparator uses
only the sign of a difference of two coordinates, which is the same in doubles
as in exact arithmetic. -/
def convexHullWith (crs : Point K → Point K → Point K → K) (points : List (Point K)) :
    List (Point K) :=
  let sorted := sortPoints points
  (chainRevWith crs sorted).reverse.dropLast ++
    (chainRevWith crs sorted.reverse).reverse.dropLast

end ConvexHull

/-- The number of low bits that a natural number has beyond 53 significant
bits: how often `n` is halved before it is below `2 ^ 53`. -/
def excessBits : Nat → Nat → Nat
  | 0, _ => 0
  | fuel + 1, n => if n < 2 ^ 53 then 0 else 1 + excessBits fuel (n / 2)

/-- Rounding of the result of one arithmetic operation on doubles (IEEE-754
binary64, round to nearest, ties to even), as JavaScript does after each `-`
and `*`. Doubles are held as integer multiples of a fixed power of two and `x`
is the exact result in that unit: it is kept when it has at most 53 significant
bits, and otherwise its `k` surplus low bits are rounded away. The unit does
not matter, rounding to 53 significant bits commuting with multiplication by a
power of two; overflow and underflow are outside the model. -/
def round53 (x : Int) : Int :=
  let n := x.natAbs
  if n < 2 ^ 53 then x
  else
    let k := excessBits n n
    let q := n / 2 ^ k
    let r := n % 2 ^ k
    let q' := if 2 ^ (k - 1) < r ∨ (r = 2 ^ (k - 1) ∧ q % 2 = 1) then q + 1 else q
    (if x < 0 then -1 else 1) * ((q' * 2 ^ k : Nat) : Int)

/-- Embedding of `cross` (convexhull.js line 3) in double arithmetic: the
coordinates are doubles given as integers in a common unit `u`, every
subtraction and product is rounded, and the result is an integer in the unit
`u * u`. Its sign is the sign the code tests in `cross(...) <= 0`. -/
def crossDouble (o a b : Point Int) : Int :=
  round53
    (round53 (round53 (a.lon - o.lon) * round53 (b.lat - o.lat)) -
      round53 (round53 (a.lat - o.lat) * round53 (b.lon - o.lon)))

/-- The pairs of cyclically consecutive vertices of a polygon: each vertex with
its successor, the last with the first. -/
def cyclicPairs {α : Type} (hull : List α) : List (α × α) :=
  hull.zip (hull.rotate 1)

/-- The pairs of consecutive entries of a list. -/
def adjPairs {α : Type} (l : List α) : List (α × α) :=
  l.zip l.tail

/-- The point of longitude `x` and latitude `y`, for examples. -/
def pt (x y : Int) : Point Int := { lat := y, lon := x, time := 0 }

/-- The three rows `(lon 0.1, lat 0.4)`, `(lon 0.7, lat 1)`, `(lon 1.3, lat 1.6)`
as JavaScript reads them: the doubles nearest to these decimals, as integers in
the unit `2 ^ (-56)` (the double `0.1` is `7205759403792794 / 2 ^ 56`, `1` is
`2 ^ 56 = 72057594037927936`). -/
def nearLine : List (Point Int) :=
  [pt 7205759403792794 28823037615171176, pt 50440315826549552 72057594037927936,
    pt 93674872249306320 115292150460684704]

section HullSpec

variable {K : Type} [LinearOrderedCommRing K]

/-- Point reflection through the origin; it keeps `cross` and reverses `lexLE`. -/
def reflect (p : Point K) : Point K := { lat := -p.lat, lon := -p.lon, time := p.time }

/-- What the chain passes need of the order in which the points are scanned:
it is total and transitive, and `cross` behaves along it as along a sweep. -/
structure SweepOrder (le : Point K → Point K → Prop) : Prop where
  total : ∀ a b, le a b ∨ le b a
  trans : ∀ {a b c}, le a b → le b c → le a c
  g0 : ∀ {A Q} (P), le A Q → le Q A → cross A P Q = 0
  g1 : ∀ {A B C P}, le A B → le B C → le C P → 0 < cross A B C → 0 ≤ cross B C P →
    0 ≤ cross A B P
  g2 : ∀ {A B Q P}, le A B → le Q B → le B P → 0 ≤ cross A B Q → 0 < cross A B P →
    0 ≤ cross B P Q
  g3 : ∀ {A B Q P}, le A B → le B Q → le Q P → cross A B P ≤ 0 → 0 ≤ cross B P Q →
    0 ≤ cross A P Q
  g4 : ∀ {A Q B P}, le A Q → le Q B → le B P → cross A B P ≤ 0 → 0 ≤ cross A B Q →
    0 ≤ cross A P Q

/-- Every three consecutive entries of a chain held top first make a strict
left turn. -/
def LeftTurns : List (Point K) → Prop
  | c :: b :: a :: rest => 0 < cross a b c ∧ LeftTurns (b :: a :: rest)
  | _ => True

/-- The entries of a chain held top first ascend towards the top, and every
point of `pre` is on or to the left of each edge of the chain. -/
def Edges (le : Point K → Point K → Prop) (pre st : List (Point K)) : Prop :=
  List.Chain' (fun b a => le a b ∧ ∀ q ∈ pre, 0 ≤ cross a b q) st

/-- State of a chain pass after the points `pre`: the chain `st`, held top
first, runs from the first point of `pre` (bottom) to the last (top). -/
structure ChainInv (le : Point K → Point K → Prop) (pre st : List (Point K)) : Prop where
  edges : Edges le pre st
  turns : LeftTurns st
  top : st.head? = pre.getLast?
  bot : st.getLast? = pre.head?
  ne : st ≠ []
  two : 2 ≤ pre.length → 2 ≤ st.length

/-- State inside the `while` loop for the incoming point `p`: in addition the
points of `pre` not before the top are on or to the left of the edge from the
top to `p`. -/
structure PopInv (le : Point K → Point K → Prop) (pre : List (Point K)) (p : Point K)
    (st : List (Point K)) : Prop where
  edges : Edges le pre st
  turns : LeftTurns st
  bot : st.getLast? = pre.head?
  ne : st ≠ []
  topLe : ∀ x, st.head? = some x → le x p
  ahead : ∀ x, st.head? = some x → ∀ q ∈ pre, le x q → 0 ≤ cross x p q

end HullSpec

section Analytics

variable {K : Type} [LinearOrderedCommRing K]

/-- The value `Math.round(ms / 60000)` for an integer `ms` (script.js lines 45
and 50): `Math.round` takes the nearest integer, a half going up. -/
def roundMinutes (ms : Int) : Int := (2 * ms + 60000) / 120000

/-- The array `clusters[label]` after the `forEach` of script.js lines 20-25:
the points labelled `label`, in input order. -/
def clusterMembers (data : List (Point K)) (labels : List (Option Int)) (label : Int) :
    List (Point K) :=
  (data.zip labels).filterMap (fun pl => if pl.2 = some label then some pl.1 else none)

/-- The keys of `clusters` in the order `for (const label in clusters)`
enumerates them (script.js line 34): the cluster ids in use, ascending. The
labels are those `dbscan` returns, `-1` (skipped at line 22) or a non-negative
id, and integer keys are enumerated in ascending order. -/
def clusterKeys (labels : List (Option Int)) : List Int :=
  ((labels.filterMap id).filter (fun c => decide (0 ≤ c))).dedup.insertionSort (· ≤ ·)

/-- The travel line of script.js lines 49-51: `dist` and `timeGap`. -/
structure Travel (K : Type) where
  dist : K
  timeGap : Int
deriving DecidableEq

/-- What one iteration of the loop of script.js lines 34-55 reports: the
cluster line (line 46) and, after the first cluster, the travel line. -/
structure ClusterLine (K : Type) where
  label : Int
  count : Nat
  durationMin : Int
  travel : Option (Travel K)
deriving DecidableEq

/-- Embedding of the loop of script.js lines 34-55 over the remaining keys,
`lastPoint` being the variable of that name (`none` for `null`). The array
`points` is read after `convexHull(points)` (line 36) has sorted it in place. -/
def analyticsLoop (hav : K → K → K → K → K) (data : List (Point K))
    (labels : List (Option Int)) : List Int → Option (Point K) → List (ClusterLine K)
  | [], _ => []
  | label :: rest, lastPoint =>
    let points := (convexHullRun (clusterMembers data labels label)).1
    let times := points.map (fun p => p.time)
    let durationMin :=
      roundMinutes (times.foldl max (times.headD 0) - times.foldl min (times.headD 0))
    let travel :=
      match lastPoint, points.head? with
      | some lp, some p0 =>
        some { dist := hav lp.lat lp.lon p0.lat p0.lon,
               timeGap := roundMinutes (p0.time - lp.time) }
      | _, _ => none
    { label := label, count := points.length, durationMin := durationMin, travel := travel } ::
      analyticsLoop hav data labels rest points.getLast?

/-- Embedding of the analytics of `processCSV` (script.js lines 18-55) on the
labels `dbscan` returned. -/
def analytics (hav : K → K → K → K → K) (data : List (Point K))
    (labels : List (Option Int)) : List (ClusterLine K) :=
  analyticsLoop hav data labels (clusterKeys labels) none

/-- The travel line between clusters `prev` and `cur` as the specification
words it: from the last member of `prev` to the first member of `cur`, both in
original input order. -/
def travelInInputOrder (hav : K → K → K → K → K) (data : List (Point K))
    (labels : List (Option Int)) (prev cur : Int) : Option (Travel K) :=
  match (clusterMembers data labels prev).getLast?, (clusterMembers data labels cur).head? with
  | some lp, some p0 =>
    some { dist := hav lp.lat lp.lon p0.lat p0.lon,
           timeGap := roundMinutes (p0.time - lp.time) }
  | _, _ => none

end Analytics

/-- Two groups of three points on the example meridian, one minute between
consecutive rows, each group entered from north to south. -/
def twoStops : List (Point Int) :=
  [{ lat := 2, lon := 0, time := 0 }, { lat := 1, lon := 0, time := 60000 },
   { lat := 0, lon := 0, time := 120000 }, { lat := 12, lon := 0, time := 180000 },
   { lat := 11, lon := 0, time := 240000 }, { lat := 10, lon := 0, time := 300000 }]

section DbscanClosure

variable {K : Type} [LinearOrderedCommRing K]

/-- The neighbourhood of every core point of a closed cluster is labelled, with
the cluster's id or a label given earlier; while `expandCluster` runs, a
neighbour of a core point of the cluster being built is labelled or still
ahead in the work list. -/
structure Closure (hav : K → K → K → K → K) (data : List (Point K)) (eps : K) (minPts : Int)
    (s : DState) : Prop where
  closed : ∀ p (c : Int), 0 ≤ c → c < s.clusterId → labelAt s.labels p = some c →
    isCore hav data eps minPts p →
    ∀ x ∈ regionQuery hav data eps p, ∃ l, labelAt s.labels x = some l ∧ l ≤ c
  ahead : ∀ f, s.frame = some f → ∀ p, labelAt s.labels p = some s.clusterId →
    isCore hav data eps minPts p →
    ∀ x ∈ regionQuery hav data eps p,
      labelAt s.labels x ≠ none ∨
        ∃ m, f.j ≤ m ∧ m < f.neighbors.length ∧ f.neighbors.getD m 0 = x

end DbscanClosure

section DbscanTermination

variable {K : Type} [LinearOrderedCommRing K]

/-- The loop iteration from `s` to `s'` made the work list of `expandCluster`
longer (the `concat` of dbscan.js line 34 with a non-empty `newNeighbors`). -/
def extended (s s' : DState) : Bool :=
  match s.frame, s'.frame with
  | some f, some f' => decide (f.neighbors.length < f'.neighbors.length)
  | _, _ => false

/-- The number of loop iterations, among the first `k` from `s`, that made the
work list longer. -/
def extensions (hav : K → K → K → K → K) (data : List (Point K)) (eps : K) (minPts : Int) :
    Nat → DState → Nat
  | 0, _ => 0
  | k + 1, s =>
    match step hav data eps minPts s with
    | none => 0
    | some s' => (if extended s s' then 1 else 0) + extensions hav data eps minPts k s'

end DbscanTermination

section Haversine

/-- The constant and the functions of the JavaScript `Math` object used by
`haversine`: `Math.PI`, `Math.sin`, `Math.cos`, `Math.sqrt` and
`Math.atan2(y, x)`. -/
structure JsMath (K : Type) where
  PI : K
  sin : K → K
  cos : K → K
  sqrt : K → K
  atan2 : K → K → K

/-- Embedding of `haversine` (dbscan.js lines 1-11) over the `Math` functions
`M` and exact field arithmetic. -/
def haversine {K : Type} [Field K] (M : JsMath K) (lat1 lon1 lat2 lon2 : K) : K :=
  let R : K := 6371
  let dLat := ((lat2 - lat1) * M.PI) / 180
  let dLon := ((lon2 - lon1) * M.PI) / 180
  let a :=
    M.sin (dLat / 2) ^ 2 +
      M.cos ((lat1 * M.PI) / 180) *
        M.cos ((lat2 * M.PI) / 180) *
        M.sin (dLon / 2) ^ 2
  R * 2 * M.atan2 (M.sqrt a) (M.sqrt (1 - a))

end Haversine

section HullVertices

variable {K : Type} [LinearOrderedCommRing K]

/-- The triples of cyclically consecutive vertices of a polygon: each vertex
with its two successors, wrapping around at the end. -/
def cyclicTriples {α : Type} (hull : List α) : List (α × α × α) :=
  hull.zip ((hull.rotate 1).zip (hull.rotate 2))

/-- What the strict turns at the ends of the chains need of the scan order. -/
structure SweepStrict (le : Point K → Point K → Prop) : Prop where
  s2 : ∀ {A B Q P}, le Q A → le A B → le B P → 0 ≤ cross A B Q → 0 < cross A B P →
    0 < cross B P Q
  j : ∀ {L M U Z}, le L M → ¬ le M L → le U M → 0 ≤ cross L M U → 0 ≤ cross L M Z →
    0 < cross M U Z → 0 < cross L M U

/-- A finished chain `X` in array order, by index: its entries ascend in the
scan order from the first scanned point, every three consecutive entries make
a strict left turn, every point of `pts` is on or to the left of every edge,
and the entries are points of `pts`. -/
structure ChainFacts (le : Point K → Point K → Prop) (pts X : List (Point K)) : Prop where
  asc : ∀ (i j : Nat) a b, i ≤ j → X[i]? = some a → X[j]? = some b → le a b
  turns : ∀ (i : Nat) a b c, X[i]? = some a → X[i + 1]? = some b → X[i + 2]? = some c →
    0 < cross a b c
  edges : ∀ (i : Nat) a b, X[i]? = some a → X[i + 1]? = some b → ∀ q ∈ pts, 0 ≤ cross a b q
  mem : ∀ x ∈ X, x ∈ pts
  lo : ∀ a, X[0]? = some a → ∀ q ∈ pts, le a q

end HullVertices

/-- The point of longitude `x` and latitude `y` with rational coordinates. -/
def ptQ (x y : ℚ) : Point ℚ := { lat := y, lon := x, time := 0 }

/-- The corners of the unit square, then its centre. -/
def squareWithCentre : List (Point ℚ) :=
  [ptQ 0 0, ptQ 1 0, ptQ 1 1, ptQ 0 1, ptQ (1 / 2) (1 / 2)]

section DbscanProofs

variable {K : Type} [LinearOrderedCommRing K]

theorem labelAt_set (l : List (Option Int)) (q p : Nat) (v : Option Int) :
    labelAt (l.set q v) p = if q = p ∧ p < l.length then v else labelAt l p := by
  unfold labelAt
  simp only [List.getD_eq_getElem?_getD, List.getElem?_set]
  by_cases h : q = p
  · subst h
    by_cases h2 : q < l.length
    · simp [h2]
    · simp [h2, List.getElem?_eq_none (not_lt.mp h2)]
  · simp [h]

theorem labelAt_replicate (n p : Nat) : labelAt (List.replicate n none) p = none := by
  unfold labelAt
  simp only [List.getD_eq_getElem?_getD, List.getElem?_replicate]
  split <;> rfl

theorem labelAt_lt_length {l : List (Option Int)} {p : Nat} {v : Int}
    (h : labelAt l p = some v) : p < l.length := by
  by_contra hc
  unfold labelAt at h
  simp [List.getD_eq_getElem?_getD, List.getElem?_eq_none (not_lt.mp hc)] at h

theorem labelAt_eq_getElem (l : List (Option Int)) (p : Nat) (h : p < l.length) :
    labelAt l p = l[p] := by
  unfold labelAt
  simp [List.getD_eq_getElem?_getD, List.getElem?_eq_getElem h]

theorem mem_regionQuery (hav : K → K → K → K → K) (data : List (Point K)) (eps : K)
    (i x : Nat) :
    x ∈ regionQuery hav data eps i ↔ x < data.length ∧ near hav data eps i x = true := by
  simp [regionQuery]

theorem regionQuery_length_le (hav : K → K → K → K → K) (data : List (Point K)) (eps : K)
    (i : Nat) : (regionQuery hav data eps i).length ≤ data.length := by
  unfold regionQuery
  calc _ ≤ (List.range data.length).length := List.length_filter_le _ _
    _ = data.length := List.length_range _

end DbscanProofs

section StepProofs

variable {K : Type} [LinearOrderedCommRing K]
variable (hav : K → K → K → K → K) (data : List (Point K)) (eps : K) (minPts : Int)

theorem step_sound {s s' : DState} (h : step hav data eps minPts s = some s') :
    Step hav data eps minPts s s' := by
  unfold step at h
  split at h
  · rename_i hf
    split at h
    · rename_i hi
      split at h
      · rename_i hl
        cases h
        exact Step.skip s hf hi (Option.isSome_iff_ne_none.mp hl)
      · rename_i hl
        have hl' : labelAt s.labels s.i = none := Option.not_isSome_iff_eq_none.mp hl
        simp only at h
        split at h
        · rename_i hc
          cases h
          exact Step.noise s hf hi hl' (by unfold isCore; omega)
        · rename_i hc
          cases h
          exact Step.enter s hf hi hl' (by unfold isCore; omega)
    · cases h
  · rename_i f hf
    split at h
    · rename_i hj
      simp only at h
      split at h
      · rename_i hl
        cases h
        exact Step.visit s f hf hj (Option.isSome_iff_ne_none.mp hl)
      · rename_i hl
        have hl' : labelAt s.labels (f.neighbors.getD f.j 0) = none :=
          Option.not_isSome_iff_eq_none.mp hl
        split at h
        · rename_i hc
          cases h
          have := @Step.claim K _ hav data eps minPts s f hf hj hl'
          rw [if_pos (show isCore hav data eps minPts (f.neighbors.getD f.j 0) from hc)] at this
          exact this
        · rename_i hc
          cases h
          have := @Step.claim K _ hav data eps minPts s f hf hj hl'
          rw [if_neg (show ¬ isCore hav data eps minPts (f.neighbors.getD f.j 0) from hc)] at this
          simpa using this
    · rename_i hj
      cases h
      exact Step.leave s f hf hj

theorem step_none_iff (s : DState) :
    step hav data eps minPts s = none ↔ s.frame = none ∧ data.length ≤ s.i := by
  unfold step
  constructor
  · intro h
    split at h
    · rename_i hf
      split at h
      · split at h
        · cases h
        · simp only at h; split at h <;> cases h
      · exact ⟨hf, by omega⟩
    · split at h
      · simp only at h
        split at h
        · cases h
        · split at h <;> cases h
      · cases h
  · rintro ⟨hf, hi⟩
    simp [hf, Nat.not_lt.mpr hi]

theorem Extends.refl (l : List (Option Int)) : Extends l l := ⟨rfl, fun _ _ h => h⟩

theorem Extends.trans {a b c : List (Option Int)} (h1 : Extends a b) (h2 : Extends b c) :
    Extends a c := ⟨h1.1.trans h2.1, fun p v h => h2.2 p v (h1.2 p v h)⟩

theorem extends_set {l : List (Option Int)} {q : Nat} (v : Option Int)
    (h : labelAt l q = none) : Extends l (l.set q v) := by
  refine ⟨by simp, fun p w hp => ?_⟩
  rw [labelAt_set]
  split
  · rename_i hc
    rw [hc.1, hp] at h
    cases h
  · exact hp

theorem Step.extends {s s' : DState} (h : Step hav data eps minPts s s') :
    Extends s.labels s'.labels := by
  cases h with
  | skip => exact Extends.refl _
  | noise hf hi hl hc => exact extends_set _ hl
  | enter hf hi hl hc => exact extends_set _ hl
  | visit => exact Extends.refl _
  | claim f hf hj hl => exact extends_set _ hl
  | leave => exact Extends.refl _

theorem run_zero (s : DState) : run hav data eps minPts 0 s = s := rfl

theorem run_succ_none {s : DState} (k : Nat) (h : step hav data eps minPts s = none) :
    run hav data eps minPts (k + 1) s = s := by
  simp [run, h]

theorem run_succ_some {s s' : DState} (k : Nat) (h : step hav data eps minPts s = some s') :
    run hav data eps minPts (k + 1) s = run hav data eps minPts k s' := by
  simp [run, h]

theorem run_of_none {s : DState} (k : Nat) (h : step hav data eps minPts s = none) :
    run hav data eps minPts k s = s := by
  cases k with
  | zero => rfl
  | succ k => exact run_succ_none hav data eps minPts k h

theorem run_extends (k : Nat) (s : DState) :
    Extends s.labels (run hav data eps minPts k s).labels := by
  induction k generalizing s with
  | zero => exact Extends.refl _
  | succ k ih =>
    cases hs : step hav data eps minPts s with
    | none => rw [run_succ_none hav data eps minPts k hs]; exact Extends.refl _
    | some s' =>
      rw [run_succ_some hav data eps minPts k hs]
      exact (Step.extends hav data eps minPts (step_sound hav data eps minPts hs)).trans (ih s')

theorem run_add (k m : Nat) (s : DState) :
    run hav data eps minPts (k + m) s = run hav data eps minPts m (run hav data eps minPts k s) := by
  induction k generalizing s with
  | zero => simp [run_zero]
  | succ k ih =>
    rw [Nat.succ_add]
    cases hs : step hav data eps minPts s with
    | none =>
      rw [run_succ_none hav data eps minPts _ hs, run_succ_none hav data eps minPts _ hs,
        run_of_none hav data eps minPts _ hs]
    | some s' =>
      rw [run_succ_some hav data eps minPts _ hs, run_succ_some hav data eps minPts _ hs]
      exact ih s'

end StepProofs

section WFProofs

variable {K : Type} [LinearOrderedCommRing K]
variable (hav : K → K → K → K → K) (data : List (Point K)) (eps : K) (minPts : Int)

theorem labelAt_set_self {l : List (Option Int)} {q : Nat} (v : Option Int)
    (h : q < l.length) : labelAt (l.set q v) q = v := by
  rw [labelAt_set]; simp [h]

theorem labelAt_set_ne {l : List (Option Int)} {q p : Nat} (v : Option Int)
    (h : q ≠ p) : labelAt (l.set q v) p = labelAt l p := by
  rw [labelAt_set]; simp [h]

theorem getD_mem {l : List Nat} {j : Nat} (h : j < l.length) : l.getD j 0 ∈ l := by
  rw [List.getD_eq_getElem _ _ h]
  exact List.getElem_mem h

theorem wf_init : WF hav data eps minPts (initState data.length) where
  len := by simp [initState]
  cid := by simp [initState]
  below := by intro p hp; simp [initState] at hp
  range := by
    intro p l h
    simp [initState, labelAt_replicate] at h
  noise := by
    intro p h
    simp [initState, labelAt_replicate] at h
  fr := by intro f h; simp [initState] at h

theorem Step.wf {s s' : DState} (hw : WF hav data eps minPts s)
    (h : Step hav data eps minPts s s') : WF hav data eps minPts s' := by
  have hlen := hw.len
  cases h with
  | skip hf hi hl =>
    refine ⟨hw.len, hw.cid, ?_, ?_, hw.noise, ?_⟩
    · intro p hp
      rcases Nat.lt_succ_iff_lt_or_eq.mp hp with h | h
      · exact hw.below p h
      · subst h; exact hl
    · intro p l h
      simpa [hf] using hw.range p l h
    · intro f h; simp [hf] at h
  | noise hf hi hl hc =>
    refine ⟨by simpa using hw.len, hw.cid, ?_, ?_, ?_, ?_⟩
    · intro p hp
      by_cases hpi : s.i = p
      · subst hpi
        simp [labelAt_set_self _ (hlen ▸ hi)]
      · simp only [labelAt_set_ne _ hpi]
        exact hw.below p (by simp only at hp; omega)
    · intro p l h
      by_cases hpi : s.i = p
      · subst hpi
        simp only [labelAt_set_self _ (hlen ▸ hi)] at h
        left; cases h; rfl
      · simp only [labelAt_set_ne _ hpi] at h
        simpa [hf] using hw.range p l h
    · intro p h
      by_cases hpi : s.i = p
      · subst hpi; exact hc
      · simp only [labelAt_set_ne _ hpi] at h
        exact hw.noise p h
    · intro f h; simp [hf] at h
  | enter hf hi hl hc =>
    refine ⟨by simpa using hw.len, hw.cid, ?_, ?_, ?_, ?_⟩
    · intro p hp
      have hne : s.i ≠ p := by simp only at hp; omega
      simp only [labelAt_set_ne _ hne]
      exact hw.below p hp
    · intro p l h
      by_cases hpi : s.i = p
      · subst hpi
        simp only [labelAt_set_self _ (hlen ▸ hi)] at h
        right; right
        cases h
        exact ⟨by simp, rfl⟩
      · simp only [labelAt_set_ne _ hpi] at h
        rcases hw.range p l h with h1 | h1 | h1
        · exact Or.inl h1
        · exact Or.inr (Or.inl h1)
        · exact absurd hf h1.1
    · intro p h
      by_cases hpi : s.i = p
      · subst hpi
        simp only [labelAt_set_self _ (hlen ▸ hi)] at h
        have := hw.cid
        simp only [Option.some.injEq] at h
        omega
      · simp only [labelAt_set_ne _ hpi] at h
        exact hw.noise p h
    · intro f h
      simp only [Option.some.injEq] at h
      subst h
      refine ⟨hi, ⟨labelAt_set_self _ (hlen ▸ hi), ?_⟩, ?_⟩
      · intro q hq hc2
        have hne : s.i ≠ q := by simp only at hq; omega
        simp only [labelAt_set_ne _ hne] at hc2
        rcases hw.range q _ hc2 with h1 | h1 | h1
        · have := hw.cid; omega
        · omega
        · exact absurd hf h1.1
      · intro x hx
        exact ((mem_regionQuery hav data eps _ x).mp hx).1
  | visit f hf hj hl =>
    refine ⟨hw.len, hw.cid, hw.below, ?_, hw.noise, ?_⟩
    · intro p l h
      rcases hw.range p l h with h1 | h1 | h1
      · exact Or.inl h1
      · exact Or.inr (Or.inl h1)
      · exact Or.inr (Or.inr ⟨by simp, h1.2⟩)
    · intro f' h
      simp only [Option.some.injEq] at h
      subst h
      exact hw.fr f hf
  | claim f hf hj hl =>
    obtain ⟨hi, hfirst, hnb⟩ := hw.fr f hf
    have hidx : f.neighbors.getD f.j 0 < s.labels.length := by
      rw [hlen]; exact hnb _ (getD_mem hj)
    refine ⟨by simpa using hw.len, hw.cid, ?_, ?_, ?_, ?_⟩
    · intro p hp
      have hpl := hw.below p hp
      have hne : f.neighbors.getD f.j 0 ≠ p := by
        intro hc; rw [hc] at hl; exact hpl hl
      simp only [labelAt_set_ne _ hne]
      exact hpl
    · intro p l h
      by_cases hpi : f.neighbors.getD f.j 0 = p
      · subst hpi
        simp only [labelAt_set_self _ hidx] at h
        cases h
        exact Or.inr (Or.inr ⟨by simp, rfl⟩)
      · simp only [labelAt_set_ne _ hpi] at h
        rcases hw.range p l h with h1 | h1 | h1
        · exact Or.inl h1
        · exact Or.inr (Or.inl h1)
        · exact Or.inr (Or.inr ⟨by simp, h1.2⟩)
    · intro p h
      by_cases hpi : f.neighbors.getD f.j 0 = p
      · subst hpi
        simp only [labelAt_set_self _ hidx] at h
        have := hw.cid
        simp only [Option.some.injEq] at h
        omega
      · simp only [labelAt_set_ne _ hpi] at h
        exact hw.noise p h
    · intro f' h
      simp only [Option.some.injEq] at h
      subst h
      refine ⟨hi, ⟨(extends_set _ hl).2 _ _ hfirst.1, ?_⟩, ?_⟩
      · intro q hq
        have hne : f.neighbors.getD f.j 0 ≠ q := by
          intro hc; rw [hc] at hl; exact hw.below q hq hl
        simp only [labelAt_set_ne _ hne]
        exact hfirst.2 q hq
      · intro x hx
        simp only [List.mem_append] at hx
        rcases hx with hx | hx
        · exact hnb x hx
        · split at hx
          · exact ((mem_regionQuery hav data eps _ x).mp hx).1
          · simp at hx
  | leave f hf hj =>
    obtain ⟨hi, hfirst, hnb⟩ := hw.fr f hf
    refine ⟨hw.len, ?_, ?_, ?_, hw.noise, ?_⟩
    · have := hw.cid
      show 0 ≤ s.clusterId + 1
      omega
    · intro p hp
      rcases Nat.lt_succ_iff_lt_or_eq.mp hp with h | h
      · exact hw.below p h
      · subst h
        simp [hfirst.1]
    · intro p l h
      have hc := hw.cid
      rcases hw.range p l h with h1 | h1 | h1
      · exact Or.inl h1
      · right; left; show 0 ≤ l ∧ l < s.clusterId + 1; omega
      · right; left; show 0 ≤ l ∧ l < s.clusterId + 1; omega
    · intro f' h; simp at h

end WFProofs

section Termination

variable {K : Type} [LinearOrderedCommRing K]
variable (hav : K → K → K → K → K) (data : List (Point K)) (eps : K) (minPts : Int)

theorem unlabelled_set {l : List (Option Int)} {q : Nat} (v : Int)
    (hq : q < l.length) (h : labelAt l q = none) :
    unlabelled (l.set q (some v)) + 1 = unlabelled l := by
  induction l generalizing q with
  | nil => simp at hq
  | cons a l ih =>
    cases q with
    | zero =>
      have ha : a = none := by simpa [labelAt] using h
      subst ha
      simp [unlabelled, List.count_cons]
    | succ q =>
      have hq' : q < l.length := by simpa using hq
      have h' : labelAt l q = none := by simpa [labelAt] using h
      have := ih hq' h'
      simp only [unlabelled, List.set_cons_succ, List.count_cons] at this ⊢
      omega

theorem Step.measure_lt {s s' : DState} (hw : WF hav data eps minPts s)
    (h : Step hav data eps minPts s s') :
    measure data.length s' < measure data.length s := by
  have hlen := hw.len
  cases h with
  | skip hf hi hl =>
    simp only [measure, hf]
    omega
  | noise hf hi hl hc =>
    have hu := unlabelled_set (-1) (hlen ▸ hi) hl
    simp only [measure, hf]
    rw [← hu, Nat.add_mul]
    omega
  | enter hf hi hl hc =>
    have hu := unlabelled_set s.clusterId (hlen ▸ hi) hl
    have hr := regionQuery_length_le hav data eps s.i
    simp only [measure, hf]
    rw [← hu, Nat.add_mul]
    omega
  | visit f hf hj hl =>
    simp only [measure, hf]
    omega
  | claim f hf hj hl =>
    obtain ⟨hi, hfirst, hnb⟩ := hw.fr f hf
    have hidx : f.neighbors.getD f.j 0 < s.labels.length := by
      rw [hlen]; exact hnb _ (getD_mem hj)
    have hu := unlabelled_set s.clusterId hidx hl
    have hr := regionQuery_length_le hav data eps (f.neighbors.getD f.j 0)
    simp only [measure, hf, List.length_append]
    rw [← hu, Nat.add_mul]
    split
    · omega
    · simp only [List.length_nil]; omega
  | leave f hf hj =>
    simp only [measure, hf]
    omega

theorem measure_init (n : Nat) : measure n (initState n) < dbscanFuel n := by
  simp [measure, initState, unlabelled, dbscanFuel]

/-- A property kept by every loop iteration holds of every state of a run. -/
theorem run_induction (P : DState → Prop)
    (hstep : ∀ s s', WF hav data eps minPts s → P s → Step hav data eps minPts s s' → P s')
    (k : Nat) (s : DState) (hw : WF hav data eps minPts s) (hp : P s) :
    WF hav data eps minPts (run hav data eps minPts k s) ∧ P (run hav data eps minPts k s) := by
  induction k generalizing s with
  | zero => exact ⟨hw, hp⟩
  | succ k ih =>
    cases hs : step hav data eps minPts s with
    | none => rw [run_succ_none hav data eps minPts k hs]; exact ⟨hw, hp⟩
    | some s' =>
      rw [run_succ_some hav data eps minPts k hs]
      have hst := step_sound hav data eps minPts hs
      exact ih s' (Step.wf hav data eps minPts hw hst) (hstep s s' hw hp hst)

theorem run_wf (k : Nat) (s : DState) (hw : WF hav data eps minPts s) :
    WF hav data eps minPts (run hav data eps minPts k s) :=
  (run_induction hav data eps minPts (fun _ => True) (fun _ _ _ _ _ => trivial) k s hw trivial).1

theorem run_halts (k : Nat) (s : DState) (hw : WF hav data eps minPts s)
    (hk : measure data.length s ≤ k) :
    step hav data eps minPts (run hav data eps minPts k s) = none := by
  induction k generalizing s with
  | zero =>
    cases hs : step hav data eps minPts s with
    | none => exact hs
    | some s' =>
      have := Step.measure_lt hav data eps minPts hw (step_sound hav data eps minPts hs)
      omega
  | succ k ih =>
    cases hs : step hav data eps minPts s with
    | none => rw [run_succ_none hav data eps minPts k hs]; exact hs
    | some s' =>
      rw [run_succ_some hav data eps minPts k hs]
      have hst := step_sound hav data eps minPts hs
      have := Step.measure_lt hav data eps minPts hw hst
      exact ih s' (Step.wf hav data eps minPts hw hst) (by omega)

/-- The state in which `dbscan` returns. -/
theorem dbscan_final_state :
    ∃ s, dbscan hav data eps minPts = s.labels ∧ WF hav data eps minPts s ∧
      s.frame = none ∧ data.length ≤ s.i ∧
      s = run hav data eps minPts (dbscanFuel data.length) (initState data.length) := by
  refine ⟨run hav data eps minPts (dbscanFuel data.length) (initState data.length), rfl,
    run_wf hav data eps minPts _ _ (wf_init hav data eps minPts), ?_, ?_, rfl⟩
  · exact ((step_none_iff hav data eps minPts _).mp
      (run_halts hav data eps minPts _ _ (wf_init hav data eps minPts)
        (Nat.le_of_lt (measure_init data.length)))).1
  · exact ((step_none_iff hav data eps minPts _).mp
      (run_halts hav data eps minPts _ _ (wf_init hav data eps minPts)
        (Nat.le_of_lt (measure_init data.length)))).2

end Termination

section ClusterProofs

variable {K : Type} [LinearOrderedCommRing K]
variable (hav : K → K → K → K → K) (data : List (Point K)) (eps : K) (minPts : Int)

theorem IsFirst.unique {l : List (Option Int)} {c : Int} {t t' : Nat}
    (h : IsFirst l c t) (h' : IsFirst l c t') : t = t' := by
  rcases Nat.lt_trichotomy t t' with hlt | heq | hgt
  · exact absurd h.1 (h'.2 t hlt)
  · exact heq
  · exact absurd h'.1 (h.2 t' hgt)

theorem IsFirst.set {l : List (Option Int)} {c v : Int} {t q : Nat}
    (h : IsFirst l c t) (hq : labelAt l q = none) (hv : v ≠ c ∨ t < q) :
    IsFirst (l.set q (some v)) c t := by
  refine ⟨(extends_set _ hq).2 _ _ h.1, ?_⟩
  intro r hr
  rw [labelAt_set]
  split
  · rename_i hc
    rcases hv with hv | hv
    · simpa using hv
    · omega
  · exact h.2 r hr

/-- The lowest member of a cluster stays its lowest member. -/
theorem Step.isFirst {s s' : DState} (hw : WF hav data eps minPts s)
    (h : Step hav data eps minPts s s') {c : Int} {t : Nat} (hc : 0 ≤ c)
    (hf : IsFirst s.labels c t) : IsFirst s'.labels c t := by
  cases h with
  | skip => exact hf
  | noise hfr hi hl hcore => exact hf.set hl (Or.inl (by omega))
  | enter hfr hi hl hcore =>
    refine hf.set hl (Or.inl ?_)
    rcases hw.range t c hf.1 with h1 | h1 | h1
    · omega
    · omega
    · exact absurd hfr h1.1
  | visit => exact hf
  | claim f hfr hj hl =>
    obtain ⟨hi, hfirst, hnb⟩ := hw.fr f hfr
    by_cases hcc : c = s.clusterId
    · subst hcc
      have ht := hf.unique hfirst
      subst ht
      refine hf.set hl (Or.inr ?_)
      by_contra hle
      rcases Nat.lt_or_eq_of_le (Nat.le_of_not_lt hle) with h1 | h1
      · exact hw.below _ h1 hl
      · rw [h1, hf.1] at hl; cases hl
    · exact hf.set hl (Or.inl (fun h => hcc h.symm))
  | leave => exact hf

theorem seeds_init (n : Nat) : Seeds (initState n) where
  closed := by intro c h0 h1; simp only [initState] at h1; omega
  order := by intro c h0 h1; simp only [initState] at h1; omega

theorem Step.seeds {s s' : DState} (hw : WF hav data eps minPts s) (hs : Seeds s)
    (h : Step hav data eps minPts s s') : Seeds s' := by
  have hfirst := fun (c : Int) (t : Nat) (hc : 0 ≤ c) (hf : IsFirst s.labels c t) =>
    Step.isFirst hav data eps minPts hw h hc hf
  have key : (s'.clusterId = s.clusterId ∧ s.i ≤ s'.i) → Seeds s' := by
    rintro ⟨hcid, hi⟩
    constructor
    · intro c h0 h1
      obtain ⟨t, ht, hft⟩ := hs.closed c h0 (hcid ▸ h1)
      exact ⟨t, by omega, hfirst c t h0 hft⟩
    · intro c h0 h1
      obtain ⟨t, t', hft, hft', hlt⟩ := hs.order c h0 (hcid ▸ h1)
      exact ⟨t, t', hfirst c t h0 hft, hfirst (c + 1) t' (by omega) hft', hlt⟩
  cases h with
  | skip => exact key ⟨rfl, Nat.le_succ _⟩
  | noise => exact key ⟨rfl, Nat.le_succ _⟩
  | enter => exact key ⟨rfl, Nat.le_refl _⟩
  | visit => exact key ⟨rfl, Nat.le_refl _⟩
  | claim => exact key ⟨rfl, Nat.le_refl _⟩
  | leave f hfr hj =>
    obtain ⟨hi, hfi, hnb⟩ := hw.fr f hfr
    constructor
    · intro c h0 h1
      have h1' : c < s.clusterId + 1 := h1
      by_cases hcc : c = s.clusterId
      · subst hcc
        exact ⟨s.i, Nat.lt_succ_self _, hfi⟩
      · obtain ⟨t, ht, hft⟩ := hs.closed c h0 (by omega)
        exact ⟨t, Nat.lt_succ_of_lt ht, hft⟩
    · intro c h0 h1
      have h1' : c + 1 < s.clusterId + 1 := h1
      by_cases hcc : c + 1 = s.clusterId
      · obtain ⟨t, ht, hft⟩ := hs.closed c h0 (by omega)
        refine ⟨t, s.i, hft, ?_, ht⟩
        rw [hcc]; exact hfi
      · exact hs.order c h0 (by omega)

end ClusterProofs

section ChainProofs

variable {K : Type} [LinearOrderedCommRing K]
variable (hav : K → K → K → K → K) (data : List (Point K)) (eps : K) (minPts : Int)

theorem DensityChain.mono {l l' : List (Option Int)} {c : Int} {t p : Nat}
    (he : Extends l l') (h : DensityChain hav data eps minPts l c t p) :
    DensityChain hav data eps minPts l' c t p := by
  obtain ⟨ch, h1, h2, h3, h4, h5⟩ := h
  exact ⟨ch, h1, h2, fun q hq => he.2 _ _ (h3 q hq), h4, h5⟩

theorem DensityChain.single {l : List (Option Int)} {c : Int} {p : Nat}
    (h : labelAt l p = some c) : DensityChain hav data eps minPts l c p p :=
  ⟨[p], rfl, rfl, by simpa using h, by simp, by simp⟩

theorem DensityChain.snoc {l : List (Option Int)} {c : Int} {t q p : Nat}
    (h : DensityChain hav data eps minPts l c t q) (hq : isCore hav data eps minPts q)
    (hn : near hav data eps q p = true) (hp : labelAt l p = some c) :
    DensityChain hav data eps minPts l c t p := by
  obtain ⟨ch, h1, h2, h3, h4, h5⟩ := h
  have hne : ch ≠ [] := by rintro rfl; simp at h2
  refine ⟨ch ++ [p], ?_, ?_, ?_, ?_, ?_⟩
  · rw [List.head?_append_of_ne_nil _ hne]; exact h1
  · simp
  · intro x hx
    rcases List.mem_append.mp hx with hx | hx
    · exact h3 x hx
    · rw [List.mem_singleton.mp hx]; exact hp
  · intro x hx
    rw [List.dropLast_concat] at hx
    rw [← List.dropLast_append_getLast hne] at hx
    rcases List.mem_append.mp hx with hx | hx
    · exact h4 x hx
    · have hx' := List.mem_singleton.mp hx
      have hl : ch.getLast hne = q := by
        have := List.getLast?_eq_getLast ch hne
        rw [this] at h2
        exact Option.some.inj h2
      rw [hx', hl]; exact hq
  · refine List.Chain'.append h5 (List.chain'_singleton p) ?_
    intro x hx y hy
    rw [h2] at hx
    simp only [List.head?_cons, Option.mem_def, Option.some.injEq] at hx hy
    subst hx; subst hy
    exact hn

theorem chains_init (n : Nat) : Chains hav data eps minPts (initState n) where
  chain := by intro p c _ h; simp [initState, labelAt_replicate] at h
  front := by intro f h; simp [initState] at h

theorem Step.chains {s s' : DState} (hw : WF hav data eps minPts s)
    (hs : Chains hav data eps minPts s)
    (h : Step hav data eps minPts s s') : Chains hav data eps minPts s' := by
  have hw' := Step.wf hav data eps minPts hw h
  have hext := Step.extends hav data eps minPts h
  have old : ∀ p c, 0 ≤ c → labelAt s.labels p = some c →
      ∃ t, IsFirst s'.labels c t ∧ DensityChain hav data eps minPts s'.labels c t p := by
    intro p c h0 hp
    obtain ⟨t, ht, hch⟩ := hs.chain p c h0 hp
    exact ⟨t, Step.isFirst hav data eps minPts hw h h0 ht, hch.mono hav data eps minPts hext⟩
  have hlen := hw.len
  cases h with
  | skip hf hi hl => exact ⟨old, by intro f h; simp [hf] at h⟩
  | noise hf hi hl hc =>
    refine ⟨?_, by intro f h; simp [hf] at h⟩
    intro p c h0 hp
    by_cases hpi : s.i = p
    · subst hpi
      simp only [labelAt_set_self _ (hlen ▸ hi), Option.some.injEq] at hp
      omega
    · simp only [labelAt_set_ne _ hpi] at hp
      exact old p c h0 hp
  | enter hf hi hl hc =>
    obtain ⟨-, hfi, -⟩ := hw'.fr _ rfl
    refine ⟨?_, ?_⟩
    · intro p c h0 hp
      by_cases hpi : s.i = p
      · subst hpi
        have hp' := hp
        simp only [labelAt_set_self _ (hlen ▸ hi), Option.some.injEq] at hp'
        subst hp'
        exact ⟨s.i, hfi, DensityChain.single hav data eps minPts hp⟩
      · simp only [labelAt_set_ne _ hpi] at hp
        exact old p c h0 hp
    · intro f h x hx
      simp only [Option.some.injEq] at h
      subst h
      exact ⟨s.i, hfi.1, hc, ((mem_regionQuery hav data eps _ x).mp hx).2⟩
  | visit f hf hj hl =>
    refine ⟨old, ?_⟩
    intro f' h x hx
    simp only [Option.some.injEq] at h
    subst h
    exact hs.front f hf x hx
  | claim f hf hj hl =>
    obtain ⟨hi, hfirst, hnb⟩ := hw.fr f hf
    obtain ⟨-, hfi, -⟩ := hw'.fr _ rfl
    have hidx : f.neighbors.getD f.j 0 < s.labels.length := by
      rw [hlen]; exact hnb _ (getD_mem hj)
    have hself := labelAt_set_self (some s.clusterId) hidx
    refine ⟨?_, ?_⟩
    · intro p c h0 hp
      by_cases hpi : f.neighbors.getD f.j 0 = p
      · subst hpi
        have hp' := hp
        simp only [hself, Option.some.injEq] at hp'
        subst hp'
        obtain ⟨q, hq, hqc, hqn⟩ := hs.front f hf _ (getD_mem hj)
        obtain ⟨t, ht, hch⟩ := old q s.clusterId h0 hq
        exact ⟨t, ht, hch.snoc hav data eps minPts hqc hqn hp⟩
      · simp only [labelAt_set_ne _ hpi] at hp
        exact old p c h0 hp
    · intro f' h x hx
      simp only [Option.some.injEq] at h
      subst h
      simp only [List.mem_append] at hx
      rcases hx with hx | hx
      · obtain ⟨q, hq, hqc, hqn⟩ := hs.front f hf x hx
        exact ⟨q, hext.2 _ _ hq, hqc, hqn⟩
      · split at hx
        · rename_i hcore
          exact ⟨_, hself, hcore, ((mem_regionQuery hav data eps _ x).mp hx).2⟩
        · simp at hx
  | leave f hf hj => exact ⟨old, by intro f h; simp at h⟩

theorem hoods_init (n : Nat) : Hoods hav data eps minPts (initState n) where
  closed := by intro c h0 h1; simp only [initState] at h1; omega
  fr := by intro f h; simp [initState] at h

theorem getD_append_left (l r : List Nat) {m : Nat} (h : m < l.length) :
    (l ++ r).getD m 0 = l.getD m 0 := by
  simp [List.getD_eq_getElem?_getD, List.getElem?_append_left h]

theorem exists_getD_of_mem {l : List Nat} {x : Nat} (h : x ∈ l) :
    ∃ m, m < l.length ∧ l.getD m 0 = x := by
  obtain ⟨m, hm, hx⟩ := List.getElem_of_mem h
  exact ⟨m, hm, by rw [List.getD_eq_getElem _ _ hm]; exact hx⟩

theorem Step.hoods {s s' : DState} (hw : WF hav data eps minPts s)
    (hs : Hoods hav data eps minPts s)
    (h : Step hav data eps minPts s s') : Hoods hav data eps minPts s' := by
  have hext := Step.extends hav data eps minPts h
  have hfirst := fun (c : Int) (t : Nat) (hc : 0 ≤ c) (hf : IsFirst s.labels c t) =>
    Step.isFirst hav data eps minPts hw h hc hf
  have old : ∀ c : Int, 0 ≤ c → c < s.clusterId →
      ∃ t, IsFirst s'.labels c t ∧ isCore hav data eps minPts t ∧
        ∀ x ∈ regionQuery hav data eps t, ∃ l, labelAt s'.labels x = some l ∧ l ≤ c := by
    intro c h0 h1
    obtain ⟨t, ht, htc, hx⟩ := hs.closed c h0 h1
    refine ⟨t, hfirst c t h0 ht, htc, ?_⟩
    intro x hxm
    obtain ⟨l, hl, hle⟩ := hx x hxm
    exact ⟨l, hext.2 _ _ hl, hle⟩
  have hlen := hw.len
  cases h with
  | skip hf hi hl => exact ⟨old, by intro f h; simp [hf] at h⟩
  | noise hf hi hl hc => exact ⟨old, by intro f h; simp [hf] at h⟩
  | enter hf hi hl hc =>
    refine ⟨old, ?_⟩
    intro f h
    simp only [Option.some.injEq] at h
    subst h
    exact ⟨hc, ⟨[], by simp⟩, by intro m hm; simp at hm⟩
  | visit f hf hj hl =>
    refine ⟨old, ?_⟩
    intro f' h
    simp only [Option.some.injEq] at h
    subst h
    obtain ⟨h1, h2, h3⟩ := hs.fr f hf
    refine ⟨h1, h2, ?_⟩
    intro m hm
    rcases Nat.lt_succ_iff_lt_or_eq.mp hm with h | h
    · exact h3 m h
    · subst h; exact hl
  | claim f hf hj hl =>
    obtain ⟨hi, hfi, hnb⟩ := hw.fr f hf
    have hidx : f.neighbors.getD f.j 0 < s.labels.length := by
      rw [hlen]; exact hnb _ (getD_mem hj)
    refine ⟨old, ?_⟩
    intro f' h
    simp only [Option.some.injEq] at h
    subst h
    obtain ⟨h1, ⟨rest, h2⟩, h3⟩ := hs.fr f hf
    refine ⟨h1, ⟨rest ++ _, by rw [h2, List.append_assoc]⟩, ?_⟩
    intro m hm
    have hm' : m < f.neighbors.length := by simp only at hm; omega
    simp only [getD_append_left _ _ hm']
    rcases Nat.lt_succ_iff_lt_or_eq.mp hm with h | h
    · intro hc
      cases hx : labelAt s.labels (f.neighbors.getD m 0) with
      | none => exact h3 m h hx
      | some v => rw [hext.2 _ _ hx] at hc; cases hc
    · subst h
      rw [labelAt_set_self _ hidx]
      exact Option.some_ne_none _
  | leave f hf hj =>
    obtain ⟨hi, hfi, hnb⟩ := hw.fr f hf
    obtain ⟨h1, ⟨rest, h2⟩, h3⟩ := hs.fr f hf
    refine ⟨?_, by intro f h; simp at h⟩
    intro c h0 hc1
    have hc1' : c < s.clusterId + 1 := hc1
    by_cases hcc : c = s.clusterId
    · subst hcc
      refine ⟨s.i, hfi, h1, ?_⟩
      intro x hx
      have hxn : x ∈ f.neighbors := by rw [h2]; exact List.mem_append_left _ hx
      obtain ⟨m, hm, hmx⟩ := exists_getD_of_mem hxn
      have hlab := h3 m (by omega)
      rw [hmx] at hlab
      cases hl : labelAt s.labels x with
      | none => exact absurd hl hlab
      | some l =>
        refine ⟨l, rfl, ?_⟩
        rcases hw.range x l hl with h | h | h
        · omega
        · omega
        · omega
    · exact old c h0 (by omega)

end ChainProofs

section CountProofs

variable {K : Type} [LinearOrderedCommRing K]
variable (hav : K → K → K → K → K) (data : List (Point K)) (eps : K) (minPts : Int)

theorem count_eq_length_filter_range (l : List (Option Int)) (v : Option Int) :
    l.count v = ((List.range l.length).filter (fun p => decide (labelAt l p = v))).length := by
  induction l with
  | nil => simp
  | cons a l ih =>
    rw [List.length_cons, List.range_succ_eq_map, List.filter_cons, List.filter_map,
      List.count_cons, ih]
    have h0 : labelAt (a :: l) 0 = a := rfl
    have hs : ((fun p => decide (labelAt (a :: l) p = v)) ∘ Nat.succ)
        = fun p => decide (labelAt l p = v) := rfl
    rw [hs, h0]
    by_cases hav : a = v
    · simp [hav]
    · simp [hav]

/-- The neighbours of `t` labelled `c` are no more than the points labelled `c`. -/
theorem regionQuery_labelled_le (l : List (Option Int)) (c : Int) (t : Nat)
    (hlen : l.length = data.length) :
    ((regionQuery hav data eps t).filter (fun x => decide (labelAt l x = some c))).length
      ≤ l.count (some c) := by
  rw [count_eq_length_filter_range, regionQuery, List.filter_filter, hlen]
  apply List.Sublist.length_le
  apply List.monotone_filter_right
  intro a ha
  simp only [Bool.and_eq_true] at ha
  exact ha.1

end CountProofs

section DbscanClaims

variable {K : Type} [LinearOrderedCommRing K]
variable (hav : K → K → K → K → K) (data : List (Point K)) (eps : K) (minPts : Int)

theorem mem_of_labelAt {l : List (Option Int)} {p : Nat} {c : Int}
    (h : labelAt l p = some c) : some c ∈ l := by
  have hp := labelAt_lt_length h
  rw [labelAt_eq_getElem l p hp] at h
  rw [← h]
  exact List.getElem_mem hp

theorem labelAt_of_mem {l : List (Option Int)} {v : Option Int} (h : v ∈ l) :
    ∃ p, p < l.length ∧ labelAt l p = v := by
  obtain ⟨p, hp, hv⟩ := List.getElem_of_mem h
  exact ⟨p, hp, by rw [labelAt_eq_getElem l p hp]; exact hv⟩

/-- C1: `dbscan` returns one label per input point, and every label is the
noise value `-1` or a non-negative cluster id; none is left `undefined`. -/
theorem dbscan_labels_total :
    (dbscan hav data eps minPts).length = data.length ∧
      ∀ l ∈ dbscan hav data eps minPts, ∃ c : Int, l = some c ∧ (c = -1 ∨ 0 ≤ c) := by
  obtain ⟨s, hs, hw, hf, hi, -⟩ := dbscan_final_state hav data eps minPts
  rw [hs]
  refine ⟨hw.len, ?_⟩
  intro l hl
  obtain ⟨p, hp, hlp⟩ := labelAt_of_mem hl
  cases l with
  | none => exact absurd hlp (hw.below p (by have := hw.len; omega))
  | some c =>
    refine ⟨c, rfl, ?_⟩
    rcases hw.range p c hlp with h | h | h
    · exact Or.inl h
    · exact Or.inr h.1
    · exact absurd hf h.1

/-- C2 (evaluation at the failing input): for three points one unit apart with
`eps = 1` and `minPts = 3`, the first point ends as noise although it lies
within `eps` of the second point, which is a core point. -/
theorem dbscan_noise_next_to_core :
    dbscan lineDist threeInLine 1 3 = [some (-1), some 0, some 0] ∧
      isCore lineDist threeInLine 1 3 1 ∧ near lineDist threeInLine 1 1 0 = true := by
  decide

/-- C3: a point whose neighbourhood has at least `minPts` points is not
labelled noise by `dbscan`. -/
theorem dbscan_core_not_noise (p : Nat) (hc : isCore hav data eps minPts p) :
    labelAt (dbscan hav data eps minPts) p ≠ some (-1) := by
  obtain ⟨s, hs, hw, -, -, -⟩ := dbscan_final_state hav data eps minPts
  rw [hs]
  exact fun h => hw.noise p h hc

theorem dbscan_core_not_noise_witness :
    isCore lineDist threeInLine 1 3 1 ∧
      labelAt (dbscan lineDist threeInLine 1 3) 1 ≠ some (-1) :=
  ⟨by decide, dbscan_core_not_noise lineDist threeInLine 1 3 1 (by decide)⟩

/-- C4 (counterexample): with `minPts = 4`, the second cluster of `twoGroups`
has three members, its border point at latitude `1` having gone to the first. -/
theorem dbscan_small_cluster :
    dbscan lineDist twoGroups 1 4 =
        [some 0, some 0, some 0, some 0, some 1, some 1, some 1] ∧
      some 1 ∈ dbscan lineDist twoGroups 1 4 ∧
      ¬ (4 : Int) ≤ ((dbscan lineDist twoGroups 1 4).count (some 1) : Int) := by
  decide

/-- C4 (amended): every cluster `c` of the result has a lowest-index member
`t` (its seed), which is a core point; every point of the seed's neighbourhood
that carries a cluster id carries `c` or the id of an earlier cluster; and when
no point of the seed's neighbourhood is labelled noise, the members of `c`
together with the points of that neighbourhood that carry an earlier cluster's
id are at least `minPts`. -/
theorem dbscan_cluster_seed_neighbourhood (c : Int) (h0 : 0 ≤ c)
    (hc : some c ∈ dbscan hav data eps minPts) :
    ∃ t, IsFirst (dbscan hav data eps minPts) c t ∧ isCore hav data eps minPts t ∧
      (∀ x ∈ regionQuery hav data eps t, ∀ l : Int, 0 ≤ l →
        labelAt (dbscan hav data eps minPts) x = some l → l ≤ c) ∧
      ((∀ x ∈ regionQuery hav data eps t,
          labelAt (dbscan hav data eps minPts) x ≠ some (-1)) →
        minPts ≤ (((dbscan hav data eps minPts).count (some c) : Nat) : Int) +
          (((regionQuery hav data eps t).filter
            (hasEarlierId (dbscan hav data eps minPts) c)).length : Int)) := by
  obtain ⟨s, hs, hw, hf, -, hrun⟩ := dbscan_final_state hav data eps minPts
  have hh : Hoods hav data eps minPts s := by
    rw [hrun]
    exact (run_induction hav data eps minPts (Hoods hav data eps minPts)
      (fun s s' hw hp hst => Step.hoods hav data eps minPts hw hp hst) _ _
      (wf_init hav data eps minPts) (hoods_init hav data eps minPts _)).2
  rw [hs] at hc ⊢
  obtain ⟨p, -, hp⟩ := labelAt_of_mem hc
  have hlt : c < s.clusterId := by
    rcases hw.range p c hp with h | h | h
    · omega
    · exact h.2
    · exact absurd hf h.1
  obtain ⟨t, ht, hcore, hx⟩ := hh.closed c h0 hlt
  refine ⟨t, ht, hcore, ?_, ?_⟩
  · intro x hxm l _ hl
    obtain ⟨l', hl', hle⟩ := hx x hxm
    rw [hl] at hl'
    simp only [Option.some.injEq] at hl'
    omega
  · intro hno
    have hsplit := @List.length_eq_length_filter_add Nat (regionQuery hav data eps t)
      (fun x => decide (labelAt s.labels x = some c))
    have hle := regionQuery_labelled_le hav data eps s.labels c t hw.len
    have hnot : (regionQuery hav data eps t).filter
          (fun x => !decide (labelAt s.labels x = some c))
        = (regionQuery hav data eps t).filter (hasEarlierId s.labels c) := by
      apply List.filter_congr
      intro x hxm
      obtain ⟨l, hl, hlc⟩ := hx x hxm
      have hn := hno x hxm
      have hr : 0 ≤ l := by
        rcases hw.range x l hl with h | h | h
        · rw [hl, h] at hn; exact absurd rfl hn
        · exact h.1
        · exact absurd hf h.1
      unfold hasEarlierId
      rw [hl]
      by_cases hcl : l = c
      · subst hcl; simp
      · simp only [Option.some.injEq, hcl, decide_False, Bool.not_false]
        symm
        rw [decide_eq_true_eq]
        exact ⟨hr, by omega⟩
    rw [hnot] at hsplit
    unfold isCore at hcore
    omega

theorem dbscan_cluster_seed_neighbourhood_witness :
    ((0 : Int) ≤ 1 ∧ some 1 ∈ dbscan lineDist twoGroups 1 4) ∧
      (IsFirst (dbscan lineDist twoGroups 1 4) 1 4 ∧
        regionQuery lineDist twoGroups 1 4 = [3, 4, 5, 6] ∧
        (∀ x ∈ regionQuery lineDist twoGroups 1 4,
          labelAt (dbscan lineDist twoGroups 1 4) x ≠ some (-1)) ∧
        (dbscan lineDist twoGroups 1 4).count (some 1) = 3 ∧
        (regionQuery lineDist twoGroups 1 4).filter
          (hasEarlierId (dbscan lineDist twoGroups 1 4) 1) = [3]) ∧
      ∃ t, IsFirst (dbscan lineDist twoGroups 1 4) 1 t ∧ isCore lineDist twoGroups 1 4 t ∧
        (∀ x ∈ regionQuery lineDist twoGroups 1 t, ∀ l : Int, 0 ≤ l →
          labelAt (dbscan lineDist twoGroups 1 4) x = some l → l ≤ 1) ∧
        ((∀ x ∈ regionQuery lineDist twoGroups 1 t,
            labelAt (dbscan lineDist twoGroups 1 4) x ≠ some (-1)) →
          (4 : Int) ≤ (((dbscan lineDist twoGroups 1 4).count (some 1) : Nat) : Int) +
            (((regionQuery lineDist twoGroups 1 t).filter
              (hasEarlierId (dbscan lineDist twoGroups 1 4) 1)).length : Int)) :=
  ⟨⟨by decide, by decide⟩,
    ⟨by unfold IsFirst; decide, by decide, by decide, by decide, by decide⟩,
    dbscan_cluster_seed_neighbourhood lineDist twoGroups 1 4 1 (by decide) (by decide)⟩

/-- C5: every point that `dbscan` labels with a cluster id `c` is
density-reachable inside `c`: a chain of points labelled `c` leads from the
cluster's seed (its lowest-index member) to the point, every chain point but
the last is a core point, and each one lies within `eps` of its predecessor. -/
theorem dbscan_density_reachable (p : Nat) (c : Int) (h0 : 0 ≤ c)
    (hp : labelAt (dbscan hav data eps minPts) p = some c) :
    ∃ t, IsFirst (dbscan hav data eps minPts) c t ∧
      DensityChain hav data eps minPts (dbscan hav data eps minPts) c t p := by
  obtain ⟨s, hs, hw, hf, -, hrun⟩ := dbscan_final_state hav data eps minPts
  have hh : Chains hav data eps minPts s := by
    rw [hrun]
    exact (run_induction hav data eps minPts (Chains hav data eps minPts)
      (fun s s' hw hp hst => Step.chains hav data eps minPts hw hp hst) _ _
      (wf_init hav data eps minPts) (chains_init hav data eps minPts _)).2
  rw [hs] at hp ⊢
  exact hh.chain p c h0 hp

theorem dbscan_density_reachable_witness :
    (0 : Int) ≤ 1 ∧ labelAt (dbscan lineDist twoGroups 1 4) 6 = some 1 ∧
      ∃ t, IsFirst (dbscan lineDist twoGroups 1 4) 1 t ∧
        DensityChain lineDist twoGroups 1 4 (dbscan lineDist twoGroups 1 4) 1 t 6 :=
  ⟨by decide, by decide,
    dbscan_density_reachable lineDist twoGroups 1 4 6 1 (by decide) (by decide)⟩

/-- C6: the cluster ids in the result of `dbscan` are exactly `0, ..., k-1`
for some `k`, and the lowest index labelled `c` is below the lowest index
labelled `c + 1`. -/
theorem dbscan_ids_in_discovery_order :
    ∃ k : Nat,
      (∀ c : Int, 0 ≤ c → (some c ∈ dbscan hav data eps minPts ↔ c < k)) ∧
      ∀ c : Int, 0 ≤ c → c + 1 < k →
        ∃ t t', IsFirst (dbscan hav data eps minPts) c t ∧
          IsFirst (dbscan hav data eps minPts) (c + 1) t' ∧ t < t' := by
  obtain ⟨s, hs, hw, hf, -, hrun⟩ := dbscan_final_state hav data eps minPts
  have hh : Seeds s := by
    rw [hrun]
    exact (run_induction hav data eps minPts Seeds
      (fun s s' hw hp hst => Step.seeds hav data eps minPts hw hp hst) _ _
      (wf_init hav data eps minPts) (seeds_init _)).2
  have hcid := hw.cid
  rw [hs]
  refine ⟨s.clusterId.toNat, ?_, ?_⟩
  · intro c h0
    constructor
    · intro hc
      obtain ⟨p, -, hp⟩ := labelAt_of_mem hc
      rcases hw.range p c hp with h | h | h
      · omega
      · have := h.2; omega
      · exact absurd hf h.1
    · intro hc
      obtain ⟨t, -, ht⟩ := hh.closed c h0 (by omega)
      exact mem_of_labelAt ht.1
  · intro c h0 hc
    exact hh.order c h0 (by omega)

/-- C7: a label, once written, stays: if point `p` carries label `c` after `k`
loop iterations (of the main scan and of the expansions), it carries `c`
after every later iteration and in the result of `dbscan`. -/
theorem dbscan_label_never_overwritten (k k' p : Nat) (c : Int) (hk : k ≤ k')
    (h : labelAt (run hav data eps minPts k (initState data.length)).labels p = some c) :
    labelAt (run hav data eps minPts k' (initState data.length)).labels p = some c ∧
      labelAt (dbscan hav data eps minPts) p = some c := by
  have later : ∀ m, labelAt (run hav data eps minPts (k + m) (initState data.length)).labels p
      = some c := by
    intro m
    rw [run_add]
    exact (run_extends hav data eps minPts m _).2 p c h
  refine ⟨?_, ?_⟩
  · have := later (k' - k)
    rwa [Nat.add_sub_cancel' hk] at this
  · have hfin := run_halts hav data eps minPts (dbscanFuel data.length) _
      (wf_init hav data eps minPts) (Nat.le_of_lt (measure_init data.length))
    have := later (dbscanFuel data.length)
    rw [Nat.add_comm, run_add, run_of_none hav data eps minPts k hfin] at this
    exact this

theorem dbscan_label_never_overwritten_witness :
    5 ≤ 30 ∧ labelAt (run lineDist twoGroups 1 4 5 (initState twoGroups.length)).labels 3
        = some 0 ∧
      labelAt (run lineDist twoGroups 1 4 30 (initState twoGroups.length)).labels 3 = some 0 ∧
      labelAt (dbscan lineDist twoGroups 1 4) 3 = some 0 :=
  ⟨by decide, by decide,
    dbscan_label_never_overwritten lineDist twoGroups 1 4 5 30 3 0 (by decide) (by decide)⟩

end DbscanClaims

section HullGeometry

variable {K : Type} [LinearOrderedCommRing K]

theorem lexLE_lon {a b : Point K} (h : lexLE a b) : a.lon ≤ b.lon := by
  rcases h with h | h
  · exact le_of_lt h
  · exact le_of_eq h.1

theorem lexLE_lat {a b : Point K} (h : lexLE a b) (hx : b.lon ≤ a.lon) : a.lat ≤ b.lat := by
  rcases h with h | h
  · exact absurd h (not_lt.mpr hx)
  · exact h.2

theorem lexLE_total (a b : Point K) : lexLE a b ∨ lexLE b a := by
  unfold lexLE
  rcases lt_trichotomy a.lon b.lon with h | h | h
  · exact Or.inl (Or.inl h)
  · rcases le_total a.lat b.lat with h2 | h2
    · exact Or.inl (Or.inr ⟨h, h2⟩)
    · exact Or.inr (Or.inr ⟨h.symm, h2⟩)
  · exact Or.inr (Or.inl h)

theorem lexLE_trans {a b c : Point K} (h1 : lexLE a b) (h2 : lexLE b c) : lexLE a c := by
  unfold lexLE at *
  rcases h1 with h1 | ⟨h1, h1'⟩
  · rcases h2 with h2 | ⟨h2, _⟩
    · exact Or.inl (lt_trans h1 h2)
    · exact Or.inl (h2 ▸ h1)
  · rcases h2 with h2 | ⟨h2, h2'⟩
    · exact Or.inl (h1 ▸ h2)
    · exact Or.inr ⟨h1.trans h2, le_trans h1' h2'⟩

theorem geo4 {A Q B P : Point K} (h1 : lexLE A Q) (h2 : lexLE Q B) (h3 : lexLE B P)
    (hc : cross A B P ≤ 0) (hq : 0 ≤ cross A B Q) : 0 ≤ cross A P Q := by
  have x1 := lexLE_lon h1
  have x2 := lexLE_lon h2
  have x3 := lexLE_lon h3
  unfold cross at *
  rcases lt_or_eq_of_le (le_trans x1 x2) with hb | hb
  · by_contra hneg
    push_neg at hneg
    nlinarith [mul_nonneg (sub_nonneg.mpr (le_trans x1 (le_trans x2 x3))) hq,
      mul_nonneg (sub_nonneg.mpr x1) (neg_nonneg.mpr hc),
      mul_pos (sub_pos.mpr hb) (neg_pos.mpr hneg)]
  · have e1 : A.lon = Q.lon := le_antisymm x1 (hb ▸ x2)
    have y1 := lexLE_lat h1 (le_of_eq e1.symm)
    rw [← e1]
    have : 0 ≤ (P.lon - A.lon) * (Q.lat - A.lat) :=
      mul_nonneg (sub_nonneg.mpr (hb ▸ x3)) (sub_nonneg.mpr y1)
    nlinarith

theorem geo0 {A Q : Point K} (P : Point K) (h1 : lexLE A Q) (h2 : lexLE Q A) :
    cross A P Q = 0 := by
  have x1 := lexLE_lon h1
  have x2 := lexLE_lon h2
  have ex : A.lon = Q.lon := le_antisymm x1 x2
  have ey : A.lat = Q.lat := le_antisymm (lexLE_lat h1 x2) (lexLE_lat h2 x1)
  unfold cross
  rw [ex, ey]; ring

theorem geo1 {A B C P : Point K} (h1 : lexLE A B) (h2 : lexLE B C) (h3 : lexLE C P)
    (hc : 0 < cross A B C) (hp : 0 ≤ cross B C P) : 0 ≤ cross A B P := by
  have x1 := lexLE_lon h1
  have x2 := lexLE_lon h2
  have x3 := lexLE_lon h3
  unfold cross at *
  rcases lt_or_eq_of_le x2 with hb | hb
  · by_contra hneg
    push_neg at hneg
    nlinarith [mul_nonneg (sub_nonneg.mpr (le_trans x2 x3)) (le_of_lt hc),
      mul_nonneg (sub_nonneg.mpr x1) hp,
      mul_pos (sub_pos.mpr hb) (neg_pos.mpr hneg)]
  · have y2 := lexLE_lat h2 (le_of_eq hb.symm)
    rw [← hb] at hc hp x3
    have hc' : 0 < (B.lon - A.lon) * (C.lat - B.lat) := by nlinarith
    have hA : 0 < B.lon - A.lon := by
      rcases lt_or_eq_of_le x1 with h | h
      · exact sub_pos.mpr h
      · rw [h] at hc'; simp at hc'
    have hC : 0 < C.lat - B.lat := by
      by_contra hn
      push_neg at hn
      nlinarith [mul_nonneg (le_of_lt hA) (neg_nonneg.mpr hn)]
    have hp' : 0 ≤ -((C.lat - B.lat) * (P.lon - B.lon)) := by nlinarith
    have hP : P.lon = B.lon := by
      apply le_antisymm _ x3
      by_contra hn
      push_neg at hn
      nlinarith [mul_pos hC (sub_pos.mpr hn)]
    have y3 := lexLE_lat h3 (by rw [hP, hb])
    rw [hP]
    nlinarith [mul_nonneg (le_of_lt hA) (sub_nonneg.mpr (le_trans y2 y3))]

theorem geo2 {A B Q P : Point K} (h1 : lexLE A B) (h2 : lexLE Q B) (h3 : lexLE B P)
    (hq : 0 ≤ cross A B Q) (hp : 0 < cross A B P) : 0 ≤ cross B P Q := by
  have x1 := lexLE_lon h1
  have x2 := lexLE_lon h2
  have x3 := lexLE_lon h3
  unfold cross at *
  rcases lt_or_eq_of_le x1 with hb | hb
  · by_contra hneg
    push_neg at hneg
    nlinarith [mul_nonneg (sub_nonneg.mpr x3) hq,
      mul_nonneg (sub_nonneg.mpr x2) (le_of_lt hp),
      mul_pos (sub_pos.mpr hb) (neg_pos.mpr hneg)]
  · have y1 := lexLE_lat h1 (le_of_eq hb.symm)
    exfalso
    rw [hb] at hp
    nlinarith [mul_nonneg (sub_nonneg.mpr y1) (sub_nonneg.mpr x3)]

theorem geo3 {A B Q P : Point K} (h1 : lexLE A B) (h2 : lexLE B Q) (h3 : lexLE Q P)
    (hc : cross A B P ≤ 0) (hq : 0 ≤ cross B P Q) : 0 ≤ cross A P Q := by
  have x1 := lexLE_lon h1
  have x2 := lexLE_lon h2
  have x3 := lexLE_lon h3
  unfold cross at *
  rcases lt_or_eq_of_le (le_trans x2 x3) with hb | hb
  · by_contra hneg
    push_neg at hneg
    nlinarith [mul_nonneg (sub_nonneg.mpr (le_trans x1 (le_trans x2 x3))) hq,
      mul_nonneg (sub_nonneg.mpr x3) (neg_nonneg.mpr hc),
      mul_pos (sub_pos.mpr hb) (neg_pos.mpr hneg)]
  · have e2 : B.lon = Q.lon := le_antisymm x2 (hb ▸ x3)
    have y2 := lexLE_lat h2 (le_of_eq e2.symm)
    have y3 := lexLE_lat h3 (by rw [← hb, e2])
    rw [← hb] at hc ⊢
    rw [← e2]
    have hc' : (B.lon - A.lon) * (P.lat - B.lat) ≤ 0 := by nlinarith
    have h0 : 0 ≤ (B.lon - A.lon) * (P.lat - B.lat) :=
      mul_nonneg (sub_nonneg.mpr x1) (sub_nonneg.mpr (le_trans y2 y3))
    have hz : (B.lon - A.lon) * (P.lat - B.lat) = 0 := le_antisymm hc' h0
    rcases mul_eq_zero.mp hz with h | h
    · have : B.lon = A.lon := by linarith
      rw [this]; simp
    · have e : P.lat = Q.lat := le_antisymm (by linarith) y3
      rw [e]; ring_nf; exact le_refl _

theorem lexLE_sweep : SweepOrder (@lexLE K _) where
  total := lexLE_total
  trans := lexLE_trans
  g0 := fun P h1 h2 => geo0 P h1 h2
  g1 := geo1
  g2 := geo2
  g3 := geo3
  g4 := geo4

theorem cross_reflect (o a b : Point K) :
    cross (reflect o) (reflect a) (reflect b) = cross o a b := by
  simp only [cross, reflect]; ring

theorem lexLE_reflect (a b : Point K) : lexLE (reflect a) (reflect b) ↔ lexLE b a := by
  simp only [lexLE, reflect, neg_lt_neg_iff, neg_inj, neg_le_neg_iff]
  constructor
  · rintro (h | ⟨h1, h2⟩)
    · exact Or.inl h
    · exact Or.inr ⟨h1.symm, h2⟩
  · rintro (h | ⟨h1, h2⟩)
    · exact Or.inl h
    · exact Or.inr ⟨h1.symm, h2⟩

/-- The descending scan of the second loop is a sweep as well. -/
theorem lexGE_sweep : SweepOrder (fun a b : Point K => lexLE b a) where
  total := fun a b => lexLE_total b a
  trans := fun h1 h2 => lexLE_trans h2 h1
  g0 := fun {A Q} P h1 h2 => by
    rw [← cross_reflect]
    exact geo0 _ ((lexLE_reflect _ _).mpr h1) ((lexLE_reflect _ _).mpr h2)
  g1 := fun {A B C P} h1 h2 h3 hc hp => by
    rw [← cross_reflect] at hc hp ⊢
    exact geo1 ((lexLE_reflect _ _).mpr h1) ((lexLE_reflect _ _).mpr h2)
      ((lexLE_reflect _ _).mpr h3) hc hp
  g2 := fun {A B Q P} h1 h2 h3 hq hp => by
    rw [← cross_reflect] at hq hp ⊢
    exact geo2 ((lexLE_reflect _ _).mpr h1) ((lexLE_reflect _ _).mpr h2)
      ((lexLE_reflect _ _).mpr h3) hq hp
  g3 := fun {A B Q P} h1 h2 h3 hc hq => by
    rw [← cross_reflect] at hc hq ⊢
    exact geo3 ((lexLE_reflect _ _).mpr h1) ((lexLE_reflect _ _).mpr h2)
      ((lexLE_reflect _ _).mpr h3) hc hq
  g4 := fun {A Q B P} h1 h2 h3 hc hq => by
    rw [← cross_reflect] at hc hq ⊢
    exact geo4 ((lexLE_reflect _ _).mpr h1) ((lexLE_reflect _ _).mpr h2)
      ((lexLE_reflect _ _).mpr h3) hc hq

theorem cross_self_right (a b : Point K) : cross a b b = 0 := by
  simp only [cross]; ring

end HullGeometry

section HullChain

variable {K : Type} [LinearOrderedCommRing K]
variable {le : Point K → Point K → Prop}

theorem popWhile_cons_cons (p b a : Point K) (rest : List (Point K)) :
    popWhile p (b :: a :: rest) =
      if cross a b p ≤ 0 then popWhile p (a :: rest) else b :: a :: rest := by
  rw [popWhile]

theorem popWhile_single (p b : Point K) : popWhile p [b] = [b] := by
  rw [popWhile]
  intro b a rest h; cases h

theorem popWhile_nil (p : Point K) : popWhile p [] = [] := by
  rw [popWhile]
  intro b a rest h; cases h

/-- The `while` loop keeps the loop state and ends on a strict left turn. -/
theorem popWhile_inv (hle : SweepOrder le) (pre : List (Point K)) (p : Point K)
    (hpre : ∀ q ∈ pre, le q p) (st : List (Point K)) (h : PopInv le pre p st) :
    PopInv le pre p (popWhile p st) ∧
      ∀ b a rest, popWhile p st = b :: a :: rest → 0 < cross a b p := by
  induction st with
  | nil => exact absurd rfl h.ne
  | cons b tl ih =>
    cases tl with
    | nil =>
      rw [popWhile_single]
      exact ⟨h, by intro b a rest hc; cases hc⟩
    | cons a rest =>
      rw [popWhile_cons_cons]
      have hab : le a b ∧ ∀ q ∈ pre, 0 ≤ cross a b q := (List.chain'_cons.mp h.edges).1
      have hbp : le b p := h.topLe b rfl
      split
      · rename_i hc
        apply ih
        refine ⟨(List.chain'_cons.mp h.edges).2, ?_, ?_, by simp, ?_, ?_⟩
        · cases rest with
          | nil => trivial
          | cons a' rest' => exact h.turns.2
        · rw [← h.bot]; simp [List.getLast?_cons_cons]
        · intro x hx
          simp only [List.head?_cons, Option.some.injEq] at hx
          subst hx
          exact hle.trans hab.1 hbp
        · intro x hx q hq hxq
          simp only [List.head?_cons, Option.some.injEq] at hx
          subst hx
          rcases hle.total b q with hbq | hqb
          · exact hle.g3 hab.1 hbq (hpre q hq) hc (h.ahead b rfl q hq hbq)
          · exact hle.g4 hxq hqb hbp hc (hab.2 q hq)
      · rename_i hc
        refine ⟨h, ?_⟩
        intro b' a' rest' he
        simp only [List.cons.injEq] at he
        obtain ⟨rfl, rfl, -⟩ := he
        exact not_le.mp hc

/-- The incoming point is on or to the left of every edge of the chain once
it is to the left of the top edge. -/
theorem edges_incoming (hle : SweepOrder le) (pre : List (Point K)) (p : Point K)
    (st : List (Point K)) (he : Edges le pre st) (ht : LeftTurns st)
    (htop : ∀ x, st.head? = some x → le x p)
    (hexit : ∀ b a rest, st = b :: a :: rest → 0 ≤ cross a b p) :
    List.Chain' (fun b a => le a b ∧ ∀ q ∈ pre ++ [p], 0 ≤ cross a b q) st := by
  induction st with
  | nil => exact List.chain'_nil
  | cons b tl ih =>
    cases tl with
    | nil => exact List.chain'_singleton b
    | cons a rest =>
      have hab : le a b ∧ ∀ q ∈ pre, 0 ≤ cross a b q := (List.chain'_cons.mp he).1
      have hbp : le b p := htop b rfl
      have habp : 0 ≤ cross a b p := hexit b a rest rfl
      refine List.chain'_cons.mpr ⟨⟨hab.1, ?_⟩, ?_⟩
      · intro q hq
        rcases List.mem_append.mp hq with hq | hq
        · exact hab.2 q hq
        · rw [List.mem_singleton.mp hq]; exact habp
      · apply ih (List.chain'_cons.mp he).2
        · cases rest with
          | nil => trivial
          | cons a' rest' => exact ht.2
        · intro x hx
          simp only [List.head?_cons, Option.some.injEq] at hx
          subst hx
          exact hle.trans hab.1 hbp
        · intro b' a' rest' heq
          simp only [List.cons.injEq] at heq
          obtain ⟨h1, h2⟩ := heq
          subst h1; subst h2
          have ha'a : le a' a := (List.chain'_cons.mp (List.chain'_cons.mp he).2).1.1
          exact hle.g1 ha'a hab.1 hbp ht.1 habp

/-- Pushing the incoming point after the `while` loop gives the state of the
pass after one more point. -/
theorem push_inv (hle : SweepOrder le) (pre : List (Point K)) (p : Point K)
    (hne : pre ≠ []) (hmin : ∀ x, pre.head? = some x → ∀ q ∈ pre, le x q)
    (st : List (Point K)) (h : PopInv le pre p st)
    (hexit : ∀ b a rest, st = b :: a :: rest → 0 < cross a b p) :
    ChainInv le (pre ++ [p]) (p :: st) := by
  obtain ⟨top, tl, rfl⟩ := List.exists_cons_of_ne_nil h.ne
  have htp : le top p := h.topLe top rfl
  refine ⟨?_, ?_, by simp, ?_, by simp, by intro _; simp⟩
  · refine List.chain'_cons.mpr ⟨⟨htp, ?_⟩, ?_⟩
    · intro q hq
      rcases List.mem_append.mp hq with hq | hq
      · rcases hle.total top q with htq | hqt
        · exact h.ahead top rfl q hq htq
        · cases tl with
          | nil =>
            have hb := h.bot
            simp only [List.getLast?_singleton] at hb
            exact h.ahead top rfl q hq (hmin top hb.symm q hq)
          | cons a rest =>
            have hab := (List.chain'_cons.mp h.edges).1
            exact hle.g2 hab.1 hqt htp (hab.2 q hq) (hexit top a rest rfl)
      · rw [List.mem_singleton.mp hq, cross_self_right]
    · exact edges_incoming hle pre p _ h.edges h.turns h.topLe
        (fun b a rest he => le_of_lt (hexit b a rest he))
  · cases tl with
    | nil => trivial
    | cons a rest => exact ⟨hexit top a rest rfl, h.turns⟩
  · rw [List.getLast?_cons_cons, h.bot, List.head?_append_of_ne_nil _ hne]

theorem pairwise_head_min (hle : SweepOrder le) {pre : List (Point K)}
    (hs : pre.Pairwise le) : ∀ x, pre.head? = some x → ∀ q ∈ pre, le x q := by
  intro x hx q hq
  cases pre with
  | nil => cases hx
  | cons a tl =>
    simp only [List.head?_cons, Option.some.injEq] at hx
    subst hx
    rcases List.mem_cons.mp hq with hq | hq
    · subst hq; exact (hle.total q q).elim id id
    · exact List.rel_of_pairwise_cons hs hq

theorem pairwise_last_max (hle : SweepOrder le) {pre : List (Point K)}
    (hs : pre.Pairwise le) : ∀ x, pre.getLast? = some x → ∀ q ∈ pre, le q x := by
  intro x hx q hq
  have hne : pre ≠ [] := by rintro rfl; cases hx
  rw [List.getLast?_eq_getLast _ hne] at hx
  have hx' := Option.some.inj hx
  rw [← List.dropLast_append_getLast hne, hx'] at hs hq
  rcases List.mem_append.mp hq with hq | hq
  · exact (List.pairwise_append.mp hs).2.2 q hq x (List.mem_singleton_self x)
  · rw [List.mem_singleton.mp hq]; exact (hle.total x x).elim id id

/-- One iteration of a chain pass keeps the state of the pass. -/
theorem chain_step (hle : SweepOrder le) (pre : List (Point K)) (p : Point K)
    (hs : (pre ++ [p]).Pairwise le) (st : List (Point K)) (h : ChainInv le pre st)
    (hne : pre ≠ []) : ChainInv le (pre ++ [p]) (p :: popWhile p st) := by
  have hs' := List.pairwise_append.mp hs
  have hpre : ∀ q ∈ pre, le q p := fun q hq => hs'.2.2 q hq p (List.mem_singleton_self p)
  have hpop : PopInv le pre p st := by
    refine ⟨h.edges, h.turns, h.bot, h.ne, ?_, ?_⟩
    · intro x hx
      rw [h.top] at hx
      exact hpre x (List.mem_of_getLast?_eq_some hx)
    · intro x hx q hq hxq
      rw [h.top] at hx
      exact le_of_eq (hle.g0 p hxq (pairwise_last_max hle hs'.1 x hx q hq)).symm
  obtain ⟨h1, h2⟩ := popWhile_inv hle pre p hpre st hpop
  exact push_inv hle pre p hne (pairwise_head_min hle hs'.1) _ h1 h2

theorem foldl_chain_inv (hle : SweepOrder le) (rest : List (Point K)) :
    ∀ (pre st : List (Point K)), (pre ++ rest).Pairwise le → pre ≠ [] → ChainInv le pre st →
      ChainInv le (pre ++ rest) (rest.foldl (fun st p => p :: popWhile p st) st) := by
  induction rest with
  | nil => intro pre st _ _ h; simpa using h
  | cons p rest ih =>
    intro pre st hs hne h
    have hs2 : ((pre ++ [p]) ++ rest).Pairwise le := by simpa using hs
    have := ih (pre ++ [p]) (p :: popWhile p st) hs2 (by simp)
      (chain_step hle pre p (List.pairwise_append.mp hs2).1 st h hne)
    simpa using this

/-- A chain pass over a non-empty list scanned in sweep order ends in the
state of the pass after all its points. -/
theorem chainRev_inv (hle : SweepOrder le) (pts : List (Point K)) (hs : pts.Pairwise le)
    (hne : pts ≠ []) : ChainInv le pts (chainRev pts) := by
  obtain ⟨p, rest, rfl⟩ := List.exists_cons_of_ne_nil hne
  have h0 : ChainInv le [p] [p] :=
    ⟨List.chain'_singleton p, trivial, rfl, rfl, by simp, by intro h; simp at h⟩
  have := foldl_chain_inv hle rest [p] [p] (by simpa using hs) (by simp) h0
  simpa [chainRev, popWhile_nil] using this

end HullChain

section HullPolygon

variable {K : Type} [LinearOrderedCommRing K]

theorem adjPairs_of_chain {α : Type} {S : α → α → Prop} :
    ∀ (l : List α), List.Chain' S l → ∀ e ∈ adjPairs l, S e.1 e.2 := by
  intro l
  induction l with
  | nil => intro _ e he; simp [adjPairs] at he
  | cons a tl ih =>
    intro hc e he
    cases tl with
    | nil => simp [adjPairs] at he
    | cons b rest =>
      have hc' := List.chain'_cons.mp hc
      simp only [adjPairs, List.tail_cons, List.zip_cons_cons, List.mem_cons] at he
      rcases he with he | he
      · subst he; exact hc'.1
      · exact ih hc'.2 e (by simpa [adjPairs] using he)

theorem exists_ends {α : Type} {l : List α} (h : 2 ≤ l.length) :
    ∃ f mid m, l = f :: (mid ++ [m]) := by
  cases l with
  | nil => simp at h
  | cons f tl =>
    have hne : tl ≠ [] := by rintro rfl; simp at h
    exact ⟨f, tl.dropLast, tl.getLast hne, by rw [List.dropLast_append_getLast hne]⟩

theorem zip_concat_left {α : Type} (xs ys : List α) (z : α) (h : xs.length = ys.length) :
    (xs ++ [z]).zip ys = xs.zip ys := by
  have := @List.zip_append α α xs [z] ys [] h
  simpa using this

/-- The cyclically consecutive pairs of `lower.concat(upper)`, each chain
without its last entry, are the consecutive pairs of the two chains, when
each chain ends where the other begins. -/
theorem cyclicPairs_hull {α : Type} {L U : List α} (hL : 2 ≤ L.length) (hU : 2 ≤ U.length)
    (h1 : L.head? = U.getLast?) (h2 : L.getLast? = U.head?) :
    cyclicPairs (L.dropLast ++ U.dropLast) = adjPairs L ++ adjPairs U := by
  obtain ⟨f, A, m, rfl⟩ := exists_ends hL
  obtain ⟨m', B, f', rfl⟩ := exists_ends hU
  have e1 : f = f' := by
    have : (m' :: (B ++ [f'])).getLast? = some f' := by
      rw [show m' :: (B ++ [f']) = (m' :: B) ++ [f'] from rfl, List.getLast?_append]
      simp
    rw [this] at h1
    simpa using h1
  have e2 : m = m' := by
    have : (f :: (A ++ [m])).getLast? = some m := by
      rw [show f :: (A ++ [m]) = (f :: A) ++ [m] from rfl, List.getLast?_append]
      simp
    rw [this] at h2
    simpa using h2
  subst e1; subst e2
  have d1 : (f :: (A ++ [m])).dropLast = f :: A := by
    rw [show f :: (A ++ [m]) = (f :: A) ++ [m] from rfl, List.dropLast_concat]
  have d2 : (m :: (B ++ [f])).dropLast = m :: B := by
    rw [show m :: (B ++ [f]) = (m :: B) ++ [f] from rfl, List.dropLast_concat]
  rw [d1, d2]
  have r : ((f :: A) ++ (m :: B)).rotate 1 = (A ++ [m]) ++ (B ++ [f]) := by
    rw [List.cons_append, List.rotate_cons_succ, List.rotate_zero]
    simp
  unfold cyclicPairs adjPairs
  rw [r, List.zip_append (by simp)]
  congr 1
  · show (f :: A).zip (A ++ [m]) = ((f :: A) ++ [m]).zip (A ++ [m])
    exact (zip_concat_left _ _ _ (by simp)).symm
  · show (m :: B).zip (B ++ [f]) = ((m :: B) ++ [f]).zip (B ++ [f])
    exact (zip_concat_left _ _ _ (by simp)).symm

end HullPolygon

section HullClaims

variable {K : Type} [LinearOrderedCommRing K]

theorem sortPoints_perm (points : List (Point K)) : (sortPoints points).Perm points :=
  List.perm_insertionSort _ _

theorem sortPoints_sorted (points : List (Point K)) : (sortPoints points).Pairwise lexLE := by
  haveI : IsTotal (Point K) lexLE := ⟨lexLE_total⟩
  haveI : IsTrans (Point K) lexLE := ⟨fun _ _ _ => lexLE_trans⟩
  exact List.sorted_insertionSort lexLE points

/-- The array `lower`: it runs from the first sorted point to the last, and
every point is on or to the left of each of its edges. -/
theorem lowerChain_spec (sorted : List (Point K)) (hs : sorted.Pairwise lexLE)
    (hne : sorted ≠ []) :
    (lowerChain sorted).head? = sorted.head? ∧
      (lowerChain sorted).getLast? = sorted.getLast? ∧
      (2 ≤ sorted.length → 2 ≤ (lowerChain sorted).length) ∧
      ∀ e ∈ adjPairs (lowerChain sorted), ∀ q ∈ sorted, 0 ≤ cross e.1 e.2 q := by
  have h := chainRev_inv lexLE_sweep sorted hs hne
  refine ⟨?_, ?_, ?_, ?_⟩
  · rw [lowerChain, List.head?_reverse, h.bot]
  · rw [lowerChain, List.getLast?_reverse, h.top]
  · intro h2; rw [lowerChain, List.length_reverse]; exact h.two h2
  · intro e he q hq
    have hc : List.Chain' (fun a b => ∀ q ∈ sorted, 0 ≤ cross a b q) (lowerChain sorted) := by
      rw [lowerChain, List.chain'_reverse]
      exact List.Chain'.imp (fun _ _ hab => hab.2) h.edges
    exact adjPairs_of_chain _ hc e he q hq

/-- The array `upper`: it runs from the last sorted point to the first, and
every point is on or to the left of each of its edges. -/
theorem upperChain_spec (sorted : List (Point K)) (hs : sorted.Pairwise lexLE)
    (hne : sorted ≠ []) :
    (upperChain sorted).head? = sorted.getLast? ∧
      (upperChain sorted).getLast? = sorted.head? ∧
      (2 ≤ sorted.length → 2 ≤ (upperChain sorted).length) ∧
      ∀ e ∈ adjPairs (upperChain sorted), ∀ q ∈ sorted, 0 ≤ cross e.1 e.2 q := by
  have hs' : sorted.reverse.Pairwise (fun a b => lexLE b a) := List.pairwise_reverse.mpr hs
  have h := chainRev_inv lexGE_sweep sorted.reverse hs' (by simpa using hne)
  refine ⟨?_, ?_, ?_, ?_⟩
  · rw [upperChain, List.head?_reverse, h.bot, List.head?_reverse]
  · rw [upperChain, List.getLast?_reverse, h.top, List.getLast?_reverse]
  · intro h2
    rw [upperChain, List.length_reverse]
    exact h.two (by simpa using h2)
  · intro e he q hq
    have hc : List.Chain' (fun a b => ∀ q ∈ sorted.reverse, 0 ≤ cross a b q)
        (upperChain sorted) := by
      rw [upperChain, List.chain'_reverse]
      exact List.Chain'.imp (fun _ _ hab => hab.2) h.edges
    exact adjPairs_of_chain _ hc e he q (List.mem_reverse.mpr hq)

/-- Every input point is on or to the left of each edge of the hull, the edge
from the last vertex back to the first included. -/
theorem hull_edges_nonneg (points : List (Point K)) (h2 : 2 ≤ points.length) :
    ∀ p ∈ points, ∀ e ∈ cyclicPairs (convexHull points), 0 ≤ cross e.1 e.2 p := by
  intro p hp e he
  have hperm := sortPoints_perm points
  have hlen : 2 ≤ (sortPoints points).length := by rw [hperm.length_eq]; exact h2
  have hne : sortPoints points ≠ [] := by
    intro h; rw [h] at hlen; simp at hlen
  have hs := sortPoints_sorted points
  obtain ⟨l1, l2, l3, l4⟩ := lowerChain_spec (sortPoints points) hs hne
  obtain ⟨u1, u2, u3, u4⟩ := upperChain_spec (sortPoints points) hs hne
  have hq : p ∈ sortPoints points := hperm.mem_iff.mpr hp
  have hcyc := cyclicPairs_hull (l3 hlen) (u3 hlen) (l1.trans u2.symm) (l2.trans u1.symm)
  have he' : e ∈ adjPairs (lowerChain (sortPoints points)) ++
      adjPairs (upperChain (sortPoints points)) := by
    rw [← hcyc]; exact he
  rcases List.mem_append.mp he' with h | h
  · exact l4 e h p hq
  · exact u4 e h p hq

end HullClaims

section HullSmall

variable {K : Type} [LinearOrderedCommRing K]

/-- C9 (evaluation at the failing input, with the inputs on which the claim
holds): `convexHull` returns the empty list for one point; it returns the
points themselves for no point and for two points. -/
theorem convexHull_small (a b : Point K) :
    convexHull [a] = [] ∧ convexHull ([] : List (Point K)) = [] ∧
      (convexHull [a, b]).Perm [a, b] := by
  refine ⟨?_, ?_, ?_⟩
  · simp [convexHull, convexHullRun, sortPoints, lowerChain, upperChain, chainRev,
      popWhile_nil]
  · simp [convexHull, convexHullRun, sortPoints, lowerChain, upperChain, chainRev]
  · have hs : convexHull [a, b] = sortPoints [a, b] := by
      have hlen : (sortPoints [a, b]).length = 2 := (sortPoints_perm [a, b]).length_eq
      obtain ⟨x, y, hxy⟩ : ∃ x y, sortPoints [a, b] = [x, y] := by
        match h : sortPoints [a, b], hlen with
        | [x, y], _ => exact ⟨x, y, rfl⟩
      simp [convexHull, convexHullRun, hxy, lowerChain, upperChain, chainRev,
        popWhile_nil, popWhile_single]
    rw [hs]
    exact sortPoints_perm _

end HullSmall

/-- C10 (evaluation at the failing input): for `twoStops` the travel line to
cluster 1 is computed from the northernmost point of cluster 0 and the
southernmost point of cluster 1 (8 units, 5 minutes), the ends of the member
lists as `convexHull` sorted them, not from the last row of cluster 0 and the
first row of cluster 1 (12 units, 1 minute). -/
theorem analytics_travel_after_sort :
    dbscan lineDist twoStops 2 3 = [some 0, some 0, some 0, some 1, some 1, some 1] ∧
      analytics lineDist twoStops (dbscan lineDist twoStops 2 3) =
        [{ label := 0, count := 3, durationMin := 2, travel := none },
         { label := 1, count := 3, durationMin := 2,
           travel := some { dist := 8, timeGap := 5 } }] ∧
      travelInInputOrder lineDist twoStops (dbscan lineDist twoStops 2 3) 0 1 =
        some { dist := 12, timeGap := 1 } := by
  decide

section ClosureProofs

variable {K : Type} [LinearOrderedCommRing K]
variable (hav : K → K → K → K → K) (data : List (Point K)) (eps : K) (minPts : Int)

theorem closure_init (n : Nat) : Closure hav data eps minPts (initState n) where
  closed := by intro p c h0 h1; simp only [initState] at h1; omega
  ahead := by intro f h; simp [initState] at h

theorem getD_append_right (l r : List Nat) {x : Nat} (h : x ∈ r) :
    ∃ m, l.length ≤ m ∧ m < (l ++ r).length ∧ (l ++ r).getD m 0 = x := by
  obtain ⟨m, hm, hx⟩ := exists_getD_of_mem h
  refine ⟨l.length + m, Nat.le_add_right _ _, by simp [hm], ?_⟩
  rw [List.getD_eq_getElem?_getD, List.getElem?_append_right (Nat.le_add_right _ _)]
  rw [Nat.add_sub_cancel_left, ← List.getD_eq_getElem?_getD]
  exact hx

theorem Step.closure {s s' : DState} (hw : WF hav data eps minPts s)
    (hs : Closure hav data eps minPts s)
    (h : Step hav data eps minPts s s') : Closure hav data eps minPts s' := by
  have hext := Step.extends hav data eps minPts h
  have hlen := hw.len
  have hcid := hw.cid
  -- a closed cluster keeps its closure when labels are only added
  have old : ∀ p (c : Int), 0 ≤ c → c < s.clusterId → labelAt s.labels p = some c →
      isCore hav data eps minPts p →
      ∀ x ∈ regionQuery hav data eps p, ∃ l, labelAt s'.labels x = some l ∧ l ≤ c := by
    intro p c h0 h1 hp hc x hx
    obtain ⟨l, hl, hle⟩ := hs.closed p c h0 h1 hp hc x hx
    exact ⟨l, hext.2 _ _ hl, hle⟩
  cases h with
  | skip hf hi hl =>
    exact ⟨old, by intro f h; simp [hf] at h⟩
  | noise hf hi hl hc =>
    refine ⟨?_, by intro f h; simp [hf] at h⟩
    intro p c h0 h1 hp
    by_cases hpi : s.i = p
    · subst hpi
      simp only [labelAt_set_self _ (hlen ▸ hi), Option.some.injEq] at hp
      omega
    · simp only [labelAt_set_ne _ hpi] at hp
      exact old p c h0 h1 hp
  | enter hf hi hl hc =>
    refine ⟨?_, ?_⟩
    · intro p c h0 h1 hp
      by_cases hpi : s.i = p
      · subst hpi
        simp only [labelAt_set_self _ (hlen ▸ hi), Option.some.injEq] at hp
        have h1' : c < s.clusterId := h1
        omega
      · simp only [labelAt_set_ne _ hpi] at hp
        exact old p c h0 h1 hp
    · intro f h p hp hcore x hx
      simp only [Option.some.injEq] at h
      subst h
      by_cases hpi : s.i = p
      · subst hpi
        right
        obtain ⟨m, hm, hmx⟩ := exists_getD_of_mem hx
        exact ⟨m, Nat.zero_le _, hm, hmx⟩
      · simp only [labelAt_set_ne _ hpi] at hp
        rcases hw.range p _ hp with h1 | h1 | h1
        · omega
        · omega
        · exact absurd hf h1.1
  | visit f hf hj hl =>
    refine ⟨old, ?_⟩
    intro f' h p hp hcore x hx
    simp only [Option.some.injEq] at h
    subst h
    rcases hs.ahead f hf p hp hcore x hx with h1 | ⟨m, hm1, hm2, hm3⟩
    · exact Or.inl h1
    · rcases Nat.lt_or_eq_of_le hm1 with h2 | h2
      · exact Or.inr ⟨m, h2, hm2, hm3⟩
      · left; rw [← hm3, ← h2]; exact hl
  | claim f hf hj hl =>
    obtain ⟨hi, hfi, hnb⟩ := hw.fr f hf
    have hidx : f.neighbors.getD f.j 0 < s.labels.length := by
      rw [hlen]; exact hnb _ (getD_mem hj)
    have hself := labelAt_set_self (some s.clusterId) hidx
    refine ⟨?_, ?_⟩
    · intro p c h0 h1 hp
      by_cases hpi : f.neighbors.getD f.j 0 = p
      · subst hpi
        simp only [hself, Option.some.injEq] at hp
        have h1' : c < s.clusterId := h1
        omega
      · simp only [labelAt_set_ne _ hpi] at hp
        exact old p c h0 h1 hp
    · intro f' h p hp hcore x hx
      simp only [Option.some.injEq] at h
      subst h
      by_cases hpi : f.neighbors.getD f.j 0 = p
      · subst hpi
        right
        rw [if_pos hcore]
        obtain ⟨m, hm1, hm2, hm3⟩ := getD_append_right f.neighbors _ hx
        exact ⟨m, by show f.j + 1 ≤ m; omega, hm2, hm3⟩
      · simp only [labelAt_set_ne _ hpi] at hp
        rcases hs.ahead f hf p hp hcore x hx with h1 | ⟨m, hm1, hm2, hm3⟩
        · left
          intro hc
          cases hx' : labelAt s.labels x with
          | none => exact h1 hx'
          | some v => rw [hext.2 _ _ hx'] at hc; cases hc
        · rcases Nat.lt_or_eq_of_le hm1 with h2 | h2
          · right
            refine ⟨m, h2, ?_, ?_⟩
            · simp only [List.length_append]; omega
            · rw [getD_append_left _ _ hm2]; exact hm3
          · left
            rw [← hm3, ← h2, hself]
            exact Option.some_ne_none _
  | leave f hf hj =>
    refine ⟨?_, by intro f h; simp at h⟩
    intro p c h0 h1 hp hcore x hx
    have h1' : c < s.clusterId + 1 := h1
    by_cases hcc : c = s.clusterId
    · subst hcc
      rcases hs.ahead f hf p hp hcore x hx with h2 | ⟨m, hm1, hm2, -⟩
      · cases hl : labelAt s.labels x with
        | none => exact absurd hl h2
        | some l =>
          refine ⟨l, rfl, ?_⟩
          rcases hw.range x l hl with h | h | h
          · omega
          · omega
          · omega
      · omega
    · exact hs.closed p c h0 (by omega) hp hcore x hx

/-- The closure of the clusters in the state in which `dbscan` returns. -/
theorem dbscan_closure (p : Nat) (c : Int) (h0 : 0 ≤ c)
    (hp : labelAt (dbscan hav data eps minPts) p = some c)
    (hcore : isCore hav data eps minPts p) :
    ∀ x ∈ regionQuery hav data eps p,
      ∃ l, labelAt (dbscan hav data eps minPts) x = some l ∧ l ≤ c := by
  obtain ⟨s, hs, hw, hf, -, hrun⟩ := dbscan_final_state hav data eps minPts
  have hh : Closure hav data eps minPts s := by
    rw [hrun]
    exact (run_induction hav data eps minPts (Closure hav data eps minPts)
      (fun s s' hw hp hst => Step.closure hav data eps minPts hw hp hst) _ _
      (wf_init hav data eps minPts) (closure_init hav data eps minPts _)).2
  rw [hs] at hp ⊢
  refine hh.closed p c h0 ?_ hp hcore
  rcases hw.range p c hp with h | h | h
  · omega
  · exact h.2
  · exact absurd hf h.1

end ClosureProofs

section DbscanMoreClaims

variable {K : Type} [LinearOrderedCommRing K]
variable (hav : K → K → K → K → K) (data : List (Point K)) (eps : K) (minPts : Int)

/-- A property kept by every loop iteration holds in the state in which
`dbscan` returns. -/
theorem dbscan_final_inv (P : DState → Prop)
    (hstep : ∀ s s', WF hav data eps minPts s → P s → Step hav data eps minPts s s' → P s')
    (hinit : P (initState data.length)) :
    ∃ s, dbscan hav data eps minPts = s.labels ∧ WF hav data eps minPts s ∧
      s.frame = none ∧ data.length ≤ s.i ∧ P s := by
  obtain ⟨s, hs, hw, hf, hi, hrun⟩ := dbscan_final_state hav data eps minPts
  refine ⟨s, hs, hw, hf, hi, ?_⟩
  rw [hrun]
  exact (run_induction hav data eps minPts P hstep _ _ (wf_init hav data eps minPts) hinit).2

/-- Every input point has a label in the result: `-1` or a cluster id. -/
theorem dbscan_label_cases (p : Nat) (hp : p < data.length) :
    ∃ c : Int, labelAt (dbscan hav data eps minPts) p = some c ∧ (c = -1 ∨ 0 ≤ c) := by
  obtain ⟨s, hs, hw, hf, hi, -⟩ := dbscan_final_state hav data eps minPts
  rw [hs]
  cases hl : labelAt s.labels p with
  | none => exact absurd hl (hw.below p (by omega))
  | some c =>
    refine ⟨c, rfl, ?_⟩
    rcases hw.range p c hl with h | h | h
    · exact Or.inl h
    · exact Or.inr h.1
    · exact absurd hf h.1

/-- A core point among the input points carries a cluster id in the result. -/
theorem dbscan_core_label (p : Nat) (hp : p < data.length)
    (hc : isCore hav data eps minPts p) :
    ∃ c : Int, 0 ≤ c ∧ labelAt (dbscan hav data eps minPts) p = some c := by
  obtain ⟨c, hl, hcase⟩ := dbscan_label_cases hav data eps minPts p hp
  rcases hcase with h | h
  · exfalso
    obtain ⟨s, hs, hw, -, -, -⟩ := dbscan_final_state hav data eps minPts
    rw [hs, h] at hl
    exact hw.noise p hl hc
  · exact ⟨c, h, hl⟩

theorem near_lt {i j : Nat} (h : near hav data eps i j = true) :
    i < data.length ∧ j < data.length := by
  unfold near at h
  constructor
  · by_contra hc
    rw [List.getElem?_eq_none (Nat.le_of_not_lt hc)] at h
    simp at h
  · by_contra hc
    rw [List.getElem?_eq_none (Nat.le_of_not_lt hc)] at h
    cases hi : data[i]? <;> simp [hi] at h

theorem near_symm (hsym : ∀ a b c d, hav a b c d = hav c d a b) (i j : Nat) :
    near hav data eps i j = near hav data eps j i := by
  unfold near
  cases hi : data[i]? <;> cases hj : data[j]? <;> simp [hsym]

theorem chain_const {α β : Type} (f : α → β) :
    ∀ l : List α, List.Chain' (fun a b => f a = f b) l → ∀ x ∈ l, ∀ y ∈ l, f x = f y := by
  intro l
  induction l with
  | nil => intro _ x hx; simp at hx
  | cons a tl ih =>
    intro hc
    have hhead : ∀ y ∈ tl, f a = f y := by
      cases tl with
      | nil => intro y hy; simp at hy
      | cons b rest =>
        have hc' := List.chain'_cons.mp hc
        intro y hy
        exact hc'.1.trans (ih hc'.2 b (List.mem_cons_self _ _) y hy)
    have htl : List.Chain' (fun a b => f a = f b) tl := by
      cases tl with
      | nil => exact List.chain'_nil
      | cons b rest => exact (List.chain'_cons.mp hc).2
    intro x hx y hy
    rcases List.mem_cons.mp hx with hx | hx <;> rcases List.mem_cons.mp hy with hy | hy
    · rw [hx, hy]
    · rw [hx]; exact hhead y hy
    · rw [hy]; exact (hhead x hx).symm
    · exact ih htl x hx y hy

theorem chain_with_mem {α : Type} (R : α → α → Prop) (P : α → Prop) :
    ∀ l : List α, List.Chain' R l → (∀ x ∈ l, P x) →
      List.Chain' (fun a b => (P a ∧ P b) ∧ R a b) l := by
  intro l
  induction l with
  | nil => intro _ _; exact List.chain'_nil
  | cons a tl ih =>
    intro hc hp
    cases tl with
    | nil => exact List.chain'_singleton a
    | cons b rest =>
      have hc' := List.chain'_cons.mp hc
      refine List.chain'_cons.mpr ⟨⟨⟨hp a (List.mem_cons_self _ _),
        hp b (List.mem_cons_of_mem _ (List.mem_cons_self _ _))⟩, hc'.1⟩, ?_⟩
      exact ih hc'.2 (fun x hx => hp x (List.mem_cons_of_mem _ hx))

theorem core_neighbours_same_label (hsym : ∀ a b c d, hav a b c d = hav c d a b)
    (p q : Nat) (hp : isCore hav data eps minPts p) (hq : isCore hav data eps minPts q)
    (hpq : near hav data eps p q = true) :
    labelAt (dbscan hav data eps minPts) p = labelAt (dbscan hav data eps minPts) q := by
  obtain ⟨hpn, hqn⟩ := near_lt hav data eps hpq
  have hqp : near hav data eps q p = true := by rw [near_symm hav data eps hsym]; exact hpq
  obtain ⟨c, hc0, hcl⟩ := dbscan_core_label hav data eps minPts p hpn hp
  obtain ⟨d, hd0, hdl⟩ := dbscan_core_label hav data eps minPts q hqn hq
  obtain ⟨l, hl, hle⟩ := dbscan_closure hav data eps minPts p c hc0 hcl hp q
    ((mem_regionQuery hav data eps p q).mpr ⟨hqn, hpq⟩)
  obtain ⟨l', hl', hle'⟩ := dbscan_closure hav data eps minPts q d hd0 hdl hq p
    ((mem_regionQuery hav data eps q p).mpr ⟨hpn, hqp⟩)
  rw [hdl] at hl
  rw [hcl] at hl'
  simp only [Option.some.injEq] at hl hl'
  rw [hcl, hdl]
  congr 1
  omega

/-- C20: with a symmetric distance, two core points within `eps` of each other
receive the same cluster id, and so do all the points of a chain of core
points in which each lies within `eps` of the one before. -/
theorem dbscan_core_points_not_split (hsym : ∀ a b c d, hav a b c d = hav c d a b) :
    (∀ p q, isCore hav data eps minPts p → isCore hav data eps minPts q →
        near hav data eps p q = true →
        ∃ c : Int, 0 ≤ c ∧ labelAt (dbscan hav data eps minPts) p = some c ∧
          labelAt (dbscan hav data eps minPts) q = some c) ∧
      ∀ ch : List Nat, (∀ x ∈ ch, isCore hav data eps minPts x) →
        List.Chain' (fun a b => near hav data eps a b = true) ch →
        ∀ x ∈ ch, ∀ y ∈ ch,
          labelAt (dbscan hav data eps minPts) x = labelAt (dbscan hav data eps minPts) y := by
  refine ⟨?_, ?_⟩
  · intro p q hp hq hpq
    obtain ⟨c, hc0, hcl⟩ := dbscan_core_label hav data eps minPts p
      (near_lt hav data eps hpq).1 hp
    refine ⟨c, hc0, hcl, ?_⟩
    rw [← core_neighbours_same_label hav data eps minPts hsym p q hp hq hpq]
    exact hcl
  · intro ch hcore hch
    apply chain_const (fun x => labelAt (dbscan hav data eps minPts) x) ch
    exact List.Chain'.imp (fun a b hab =>
      core_neighbours_same_label hav data eps minPts hsym a b hab.1.1 hab.1.2 hab.2)
      (chain_with_mem _ _ ch hch hcore)

theorem dbscan_core_points_not_split_witness :
    (∀ a b c d : Int, lineDist a b c d = lineDist c d a b) ∧
      dbscan lineDist twoGroups 1 3 =
        [some 0, some 0, some 0, some 0, some 0, some 0, some 0] ∧
      (isCore lineDist twoGroups 1 3 3 ∧ isCore lineDist twoGroups 1 3 4 ∧ 3 ≠ 4 ∧
        near lineDist twoGroups 1 3 4 = true) ∧
      (∃ c : Int, 0 ≤ c ∧ labelAt (dbscan lineDist twoGroups 1 3) 3 = some c ∧
        labelAt (dbscan lineDist twoGroups 1 3) 4 = some c) ∧
      ((∀ x ∈ [1, 0, 3, 4, 5], isCore lineDist twoGroups 1 3 x) ∧
        List.Chain' (fun a b => near lineDist twoGroups 1 a b = true) [1, 0, 3, 4, 5] ∧
        near lineDist twoGroups 1 1 5 = false) ∧
      ∀ x ∈ [1, 0, 3, 4, 5], ∀ y ∈ [1, 0, 3, 4, 5],
        labelAt (dbscan lineDist twoGroups 1 3) x = labelAt (dbscan lineDist twoGroups 1 3) y :=
  ⟨fun a _ c _ => abs_sub_comm c a, by decide, by decide,
    (dbscan_core_points_not_split lineDist twoGroups 1 3
      (fun a _ c _ => abs_sub_comm c a)).1 3 4 (by decide) (by decide) (by decide),
    ⟨by decide, by simp only [List.chain'_cons, List.chain'_singleton, and_true]; decide,
      by decide⟩,
    (dbscan_core_points_not_split lineDist twoGroups 1 3
      (fun a _ c _ => abs_sub_comm c a)).2 [1, 0, 3, 4, 5] (by decide)
      (by simp only [List.chain'_cons, List.chain'_singleton, and_true]; decide)⟩

end DbscanMoreClaims

section DbscanDegenerate

variable {K : Type} [LinearOrderedCommRing K]
variable (hav : K → K → K → K → K) (data : List (Point K)) (eps : K) (minPts : Int)

/-- With identical coordinates and a distance that is zero on them, every
point is a neighbour of every point. -/
theorem regionQuery_same_coordinates
    (hsame : ∀ p ∈ data, ∀ q ∈ data, p.lat = q.lat ∧ p.lon = q.lon)
    (heps : 0 < eps) (hzero : ∀ lat lon, hav lat lon lat lon = 0)
    (i : Nat) (hi : i < data.length) :
    regionQuery hav data eps i = List.range data.length := by
  unfold regionQuery
  apply List.filter_eq_self.mpr
  intro j hj
  have hj' : j < data.length := List.mem_range.mp hj
  unfold near
  rw [List.getElem?_eq_getElem hi, List.getElem?_eq_getElem hj']
  have h := hsame data[i] (List.getElem_mem hi) data[j] (List.getElem_mem hj')
  simp only [decide_eq_true_eq]
  rw [← h.1, ← h.2, hzero]
  exact le_of_lt heps

/-- C16: for `n >= 1` points with the same coordinates, `eps > 0` and a
distance that is zero between identical coordinates, `dbscan` labels every
point `0` when `n >= minPts` and every point noise otherwise, for every
`minPts` (so for `minPts >= 1`); a single point with `minPts >= 2` is noise. -/
theorem dbscan_same_coordinates (hn : 1 ≤ data.length)
    (hsame : ∀ p ∈ data, ∀ q ∈ data, p.lat = q.lat ∧ p.lon = q.lon)
    (heps : 0 < eps) (hzero : ∀ lat lon, hav lat lon lat lon = 0) :
    (minPts ≤ (data.length : Int) →
        dbscan hav data eps minPts = List.replicate data.length (some 0)) ∧
      ((data.length : Int) < minPts →
        dbscan hav data eps minPts = List.replicate data.length (some (-1))) := by
  have hrq := regionQuery_same_coordinates hav data eps hsame heps hzero
  obtain ⟨s, hs, hw, hf, hi, hh⟩ := dbscan_final_inv hav data eps minPts
    (Hoods hav data eps minPts)
    (fun s s' hw hp hst => Step.hoods hav data eps minPts hw hp hst)
    (hoods_init hav data eps minPts _)
  have hlenS : s.labels.length = data.length := hw.len
  -- a cluster id in use is below `clusterId`
  have hlt : ∀ p (c : Int), 0 ≤ c → labelAt s.labels p = some c → c < s.clusterId := by
    intro p c h0 hp
    rcases hw.range p c hp with h | h | h
    · omega
    · exact h.2
    · exact absurd hf h.1
  have hlab : ∀ p, p < data.length →
      ∃ c : Int, labelAt s.labels p = some c ∧ (c = -1 ∨ 0 ≤ c) := by
    intro p hp
    have := dbscan_label_cases hav data eps minPts p hp
    rwa [hs] at this
  rw [hs]
  refine ⟨?_, ?_⟩
  · intro hge
    have hcore : ∀ p, p < data.length → isCore hav data eps minPts p := by
      intro p hp
      unfold isCore
      rw [hrq p hp, List.length_range]
      exact hge
    -- the first point carries a cluster id, so cluster 0 exists
    obtain ⟨c0, hc0, hcase⟩ := hlab 0 hn
    have hc0nn : 0 ≤ c0 := by
      rcases hcase with h | h
      · rw [h] at hc0
        exact absurd (hcore 0 hn) (hw.noise 0 hc0)
      · exact h
    have hcid : (0 : Int) < s.clusterId := lt_of_le_of_lt hc0nn (hlt 0 c0 hc0nn hc0)
    obtain ⟨t, ht, -, hx⟩ := hh.closed 0 (le_refl _) hcid
    have htn : t < data.length := by
      have := labelAt_lt_length ht.1
      omega
    apply List.eq_replicate_iff.mpr
    refine ⟨hlenS, ?_⟩
    intro l hl
    obtain ⟨p, hp, hpl⟩ := labelAt_of_mem hl
    have hp' : p < data.length := by omega
    obtain ⟨c, hc, hcase⟩ := hlab p hp'
    obtain ⟨l', hl', hle⟩ := hx p (by rw [hrq t htn]; exact List.mem_range.mpr hp')
    rw [hc] at hl' hpl
    simp only [Option.some.injEq] at hl'
    subst hl'
    rcases hcase with h | h
    · rw [h] at hc
      exact absurd (hcore p hp') (hw.noise p hc)
    · rw [← hpl]
      congr 1
      omega
  · intro hlt'
    have hnocore : ∀ t, ¬ isCore hav data eps minPts t := by
      intro t
      unfold isCore
      have := regionQuery_length_le hav data eps t
      omega
    apply List.eq_replicate_iff.mpr
    refine ⟨hlenS, ?_⟩
    intro l hl
    obtain ⟨p, hp, hpl⟩ := labelAt_of_mem hl
    obtain ⟨c, hc, hcase⟩ := hlab p (by omega)
    rw [hc] at hpl
    rcases hcase with h | h
    · rw [← hpl, h]
    · obtain ⟨t, -, htc, -⟩ := hh.closed c h (hlt p c h hc)
      exact absurd htc (hnocore t)

theorem dbscan_same_coordinates_witness :
    1 ≤ [onLine 5].length ∧
      (∀ p ∈ [onLine 5], ∀ q ∈ [onLine 5], p.lat = q.lat ∧ p.lon = q.lon) ∧
      (0 : Int) < 1 ∧ (∀ lat lon : Int, lineDist lat lon lat lon = 0) ∧
      ((2 : Int) ≤ ([onLine 5].length : Int) →
          dbscan lineDist [onLine 5] 1 2 = List.replicate [onLine 5].length (some 0)) ∧
        ((([onLine 5].length : Nat) : Int) < 2 →
          dbscan lineDist [onLine 5] 1 2 = List.replicate [onLine 5].length (some (-1))) :=
  ⟨by decide, by decide, by decide, fun lat _ => by simp [lineDist],
    dbscan_same_coordinates lineDist [onLine 5] 1 2 (by decide) (by decide) (by decide)
      (fun lat _ => by simp [lineDist])⟩

/-- C15 (counterexample): `dbscan` called with `eps <= 0` and `minPts < 1`
returns a label sequence. -/
theorem dbscan_invalid_parameters_return :
    dbscan lineDist threeInLine 0 0 = [some 0, some 1, some 2] ∧
      dbscan lineDist threeInLine (-1) 0 = [some 0, some 1, some 2] ∧
      dbscan lineDist threeInLine (-1) 3 = [some (-1), some (-1), some (-1)] := by
  decide

/-- C15 (amended): `dbscan` does not check its parameters: for every `eps` and
`minPts` it returns one label per input point, each `-1` or a cluster id. With
`minPts < 1` no point is labelled `-1`; with `eps < 0`, a non-negative
distance and `minPts >= 1` every point is labelled `-1`. -/
theorem dbscan_unchecked_parameters :
    (dbscan hav data eps minPts).length = data.length ∧
      (∀ p, p < data.length →
        ∃ c : Int, labelAt (dbscan hav data eps minPts) p = some c ∧ (c = -1 ∨ 0 ≤ c)) ∧
      (minPts < 1 → ∀ p, labelAt (dbscan hav data eps minPts) p ≠ some (-1)) ∧
      (eps < 0 → (∀ a b c d, 0 ≤ hav a b c d) → 1 ≤ minPts →
        ∀ p, p < data.length → labelAt (dbscan hav data eps minPts) p = some (-1)) := by
  obtain ⟨s, hs, hw, hf, -, hh⟩ := dbscan_final_inv hav data eps minPts
    (Hoods hav data eps minPts)
    (fun s s' hw hp hst => Step.hoods hav data eps minPts hw hp hst)
    (hoods_init hav data eps minPts _)
  refine ⟨by rw [hs]; exact hw.len, dbscan_label_cases hav data eps minPts, ?_, ?_⟩
  · intro hm p hp
    rw [hs] at hp
    apply hw.noise p hp
    unfold isCore
    omega
  · intro heps hnn hm p hp
    have hempty : ∀ t, regionQuery hav data eps t = [] := by
      intro t
      unfold regionQuery
      apply List.filter_eq_nil_iff.mpr
      intro j _
      unfold near
      cases data[t]? <;> cases data[j]? <;> simp
      exact lt_of_lt_of_le heps (hnn _ _ _ _)
    obtain ⟨c, hc, hcase⟩ := dbscan_label_cases hav data eps minPts p hp
    rcases hcase with h | h
    · rw [hc, h]
    · exfalso
      rw [hs] at hc
      have hlt : c < s.clusterId := by
        rcases hw.range p c hc with h1 | h1 | h1
        · omega
        · exact h1.2
        · exact absurd hf h1.1
      obtain ⟨t, -, htc, -⟩ := hh.closed c h hlt
      unfold isCore at htc
      rw [hempty t] at htc
      simp only [List.length_nil, Nat.cast_zero] at htc
      omega

end DbscanDegenerate

section TerminationClaim

variable {K : Type} [LinearOrderedCommRing K]
variable (hav : K → K → K → K → K) (data : List (Point K)) (eps : K) (minPts : Int)

/-- The work list grows only in an iteration that labels an unlabelled point. -/
theorem Step.extended_labels {s s' : DState} (hw : WF hav data eps minPts s)
    (h : Step hav data eps minPts s s') (he : extended s s' = true) :
    unlabelled s'.labels + 1 = unlabelled s.labels := by
  cases h with
  | skip hf hi hl => simp [extended, hf] at he
  | noise hf hi hl hc => simp [extended, hf] at he
  | enter hf hi hl hc => simp [extended, hf] at he
  | visit f hf hj hl => simp [extended, hf] at he
  | claim f hf hj hl =>
    obtain ⟨-, -, hnb⟩ := hw.fr f hf
    have hidx : f.neighbors.getD f.j 0 < s.labels.length := by
      rw [hw.len]; exact hnb _ (getD_mem hj)
    exact unlabelled_set s.clusterId hidx hl
  | leave f hf hj => simp [extended, hf] at he

theorem Step.unlabelled_le {s s' : DState} (hw : WF hav data eps minPts s)
    (h : Step hav data eps minPts s s') : unlabelled s'.labels ≤ unlabelled s.labels := by
  have hlen := hw.len
  cases h with
  | skip hf hi hl => exact Nat.le_refl _
  | noise hf hi hl hc =>
    have := unlabelled_set (-1) (hlen ▸ hi) hl
    show unlabelled (s.labels.set s.i (some (-1))) ≤ _
    omega
  | enter hf hi hl hc =>
    have := unlabelled_set s.clusterId (hlen ▸ hi) hl
    show unlabelled (s.labels.set s.i (some s.clusterId)) ≤ _
    omega
  | visit f hf hj hl => exact Nat.le_refl _
  | claim f hf hj hl =>
    obtain ⟨-, -, hnb⟩ := hw.fr f hf
    have hidx : f.neighbors.getD f.j 0 < s.labels.length := by
      rw [hlen]; exact hnb _ (getD_mem hj)
    have := unlabelled_set s.clusterId hidx hl
    show unlabelled (s.labels.set (f.neighbors.getD f.j 0) (some s.clusterId)) ≤ _
    omega
  | leave f hf hj => exact Nat.le_refl _

theorem extensions_add_unlabelled (k : Nat) (s : DState) (hw : WF hav data eps minPts s) :
    extensions hav data eps minPts k s + unlabelled (run hav data eps minPts k s).labels
      ≤ unlabelled s.labels := by
  induction k generalizing s with
  | zero => simp [extensions, run]
  | succ k ih =>
    cases hs : step hav data eps minPts s with
    | none =>
      rw [run_succ_none hav data eps minPts k hs]
      simp [extensions, hs]
    | some s' =>
      have hst := step_sound hav data eps minPts hs
      have hw' := Step.wf hav data eps minPts hw hst
      have := ih s' hw'
      rw [run_succ_some hav data eps minPts k hs]
      simp only [extensions, hs]
      by_cases he : extended s s' = true
      · have := Step.extended_labels hav data eps minPts hw hst he
        simp only [he, if_true]
        omega
      · have := Step.unlabelled_le hav data eps minPts hw hst
        simp only [he]
        simp only [Bool.false_eq_true, if_false]
        omega

/-- C19: `dbscan` terminates on every input and for every `eps` and `minPts`:
the run ends within `dbscanFuel n` loop iterations and stays in its final
state; every iteration lowers `measure`; an iteration that extends the work
list of `expandCluster` labels a point that was unlabelled, so the work list
is extended at most `n` times. -/
theorem dbscan_terminates :
    step hav data eps minPts
        (run hav data eps minPts (dbscanFuel data.length) (initState data.length)) = none ∧
      (∀ k, dbscanFuel data.length ≤ k →
        run hav data eps minPts k (initState data.length) =
          run hav data eps minPts (dbscanFuel data.length) (initState data.length)) ∧
      (∀ k s', step hav data eps minPts (run hav data eps minPts k (initState data.length))
          = some s' →
        measure data.length s' <
          measure data.length (run hav data eps minPts k (initState data.length))) ∧
      (∀ k s', step hav data eps minPts (run hav data eps minPts k (initState data.length))
          = some s' →
        extended (run hav data eps minPts k (initState data.length)) s' = true →
        unlabelled s'.labels + 1 =
          unlabelled (run hav data eps minPts k (initState data.length)).labels) ∧
      ∀ k, extensions hav data eps minPts k (initState data.length) ≤ data.length := by
  have hfin := run_halts hav data eps minPts (dbscanFuel data.length) _
    (wf_init hav data eps minPts) (Nat.le_of_lt (measure_init data.length))
  refine ⟨hfin, ?_, ?_, ?_, ?_⟩
  · intro k hk
    obtain ⟨m, rfl⟩ := Nat.exists_eq_add_of_le hk
    rw [run_add, run_of_none hav data eps minPts m hfin]
  · intro k s' hs
    exact Step.measure_lt hav data eps minPts
      (run_wf hav data eps minPts k _ (wf_init hav data eps minPts))
      (step_sound hav data eps minPts hs)
  · intro k s' hs he
    exact Step.extended_labels hav data eps minPts
      (run_wf hav data eps minPts k _ (wf_init hav data eps minPts))
      (step_sound hav data eps minPts hs) he
  · intro k
    have := extensions_add_unlabelled hav data eps minPts k _ (wf_init hav data eps minPts)
    have h0 : unlabelled (initState data.length).labels = data.length := by
      simp [initState, unlabelled]
    omega

end TerminationClaim

section HaversineClaims

/-- `haversine` is symmetric as soon as `Math.sin` is an odd function. -/
theorem haversine_symm_of_odd {K : Type} [Field K] (M : JsMath K)
    (hodd : ∀ x, M.sin (-x) = -M.sin x) (lat1 lon1 lat2 lon2 : K) :
    haversine M lat1 lon1 lat2 lon2 = haversine M lat2 lon2 lat1 lon1 := by
  have h1 : (lat1 - lat2) * M.PI / 180 / 2 = -((lat2 - lat1) * M.PI / 180 / 2) := by ring
  have h2 : (lon1 - lon2) * M.PI / 180 / 2 = -((lon2 - lon1) * M.PI / 180 / 2) := by ring
  have ha : M.sin ((lat2 - lat1) * M.PI / 180 / 2) ^ 2 +
        M.cos (lat1 * M.PI / 180) * M.cos (lat2 * M.PI / 180) *
          M.sin ((lon2 - lon1) * M.PI / 180 / 2) ^ 2 =
      M.sin ((lat1 - lat2) * M.PI / 180 / 2) ^ 2 +
        M.cos (lat2 * M.PI / 180) * M.cos (lat1 * M.PI / 180) *
          M.sin ((lon1 - lon2) * M.PI / 180 / 2) ^ 2 := by
    rw [h1, h2, hodd, hodd]; ring
  simp only [haversine]
  rw [ha]

/-- `haversine` is zero on identical coordinates when `Math.sin(0)`,
`Math.sqrt(0)` and `Math.atan2(0, Math.sqrt(1))` are zero. -/
theorem haversine_self_of_zero {K : Type} [Field K] (M : JsMath K)
    (hsin : M.sin 0 = 0) (hsqrt : M.sqrt 0 = 0) (hatan : M.atan2 0 (M.sqrt 1) = 0)
    (lat lon : K) : haversine M lat lon lat lon = 0 := by
  simp only [haversine, sub_self, zero_mul, zero_div, hsin]
  have h0 : (0 : K) ^ 2 + M.cos (lat * M.PI / 180) * M.cos (lat * M.PI / 180) * 0 ^ 2 = 0 := by
    ring
  rw [h0, hsqrt, sub_zero, hatan, mul_zero]

/-- A point is in its own neighbourhood when its distance to itself is at most `eps`. -/
theorem self_mem_regionQuery {K : Type} [LinearOrderedCommRing K] (hav : K → K → K → K → K)
    (data : List (Point K)) (eps : K) (heps : 0 ≤ eps)
    (hzero : ∀ lat lon, hav lat lon lat lon = 0) (i : Nat) (hi : i < data.length) :
    i ∈ regionQuery hav data eps i := by
  rw [mem_regionQuery]
  refine ⟨hi, ?_⟩
  unfold near
  rw [List.getElem?_eq_getElem hi]
  simp only [decide_eq_true_eq]
  rw [hzero]
  exact heps

/-- C17: over the real numbers, with `Math.sin`, `Math.cos`, `Math.sqrt` and
`Math.atan2` read as the real functions, `haversine` is symmetric. -/
theorem haversine_symmetric (lat1 lon1 lat2 lon2 : ℝ) :
    haversine ⟨Real.pi, Real.sin, Real.cos, Real.sqrt, fun y x => Complex.arg ⟨x, y⟩⟩
        lat1 lon1 lat2 lon2 =
      haversine ⟨Real.pi, Real.sin, Real.cos, Real.sqrt, fun y x => Complex.arg ⟨x, y⟩⟩
        lat2 lon2 lat1 lon1 :=
  haversine_symm_of_odd _ Real.sin_neg lat1 lon1 lat2 lon2

/-- C18: over the real numbers `haversine` is zero on identical coordinates, so
for every `eps >= 0` every point is in its own neighbourhood. -/
theorem haversine_self_zero :
    (∀ lat lon : ℝ,
      haversine ⟨Real.pi, Real.sin, Real.cos, Real.sqrt, fun y x => Complex.arg ⟨x, y⟩⟩
        lat lon lat lon = 0) ∧
      ∀ (data : List (Point ℝ)) (eps : ℝ) (i : Nat), 0 ≤ eps → i < data.length →
        i ∈ regionQuery
          (haversine ⟨Real.pi, Real.sin, Real.cos, Real.sqrt, fun y x => Complex.arg ⟨x, y⟩⟩)
          data eps i := by
  have hz : ∀ lat lon : ℝ,
      haversine ⟨Real.pi, Real.sin, Real.cos, Real.sqrt, fun y x => Complex.arg ⟨x, y⟩⟩
        lat lon lat lon = 0 := by
    intro lat lon
    apply haversine_self_of_zero
    · exact Real.sin_zero
    · exact Real.sqrt_zero
    · show Complex.arg ⟨Real.sqrt 1, 0⟩ = 0
      rw [Real.sqrt_one]
      exact Complex.arg_one
  exact ⟨hz, fun data eps i heps hi => self_mem_regionQuery _ data eps heps hz i hi⟩

end HaversineClaims

section HullDegenerate

variable {K : Type} [LinearOrderedCommRing K]

/-- A chain pass over collinear points keeps the first point and the last
point scanned. -/
theorem foldl_collinear (a : Point K) (pts : List (Point K))
    (hcol : ∀ b ∈ pts, ∀ q ∈ pts, cross a b q = 0) :
    ∀ (rest : List (Point K)) (p : Point K) (st : List (Point K)),
      (∀ x ∈ p :: rest, x ∈ pts) → (st = [a] ∨ ∃ b ∈ pts, st = [b, a]) →
      (p :: rest).foldl (fun st p => p :: popWhile p st) st =
        [(p :: rest).getLast (List.cons_ne_nil _ _), a] := by
  intro rest
  induction rest with
  | nil =>
    intro p st hmem hst
    rcases hst with rfl | ⟨b, hb, rfl⟩
    · simp [popWhile_single]
    · have h0 : cross a b p ≤ 0 := le_of_eq (hcol b hb p (hmem p (List.mem_cons_self _ _)))
      simp [popWhile_cons_cons, h0, popWhile_single]
  | cons p' rest ih =>
    intro p st hmem hst
    have hstep : p :: popWhile p st = [p, a] := by
      rcases hst with rfl | ⟨b, hb, rfl⟩
      · rw [popWhile_single]
      · have h0 : cross a b p ≤ 0 := le_of_eq (hcol b hb p (hmem p (List.mem_cons_self _ _)))
        rw [popWhile_cons_cons, if_pos h0, popWhile_single]
    rw [List.foldl_cons, hstep, List.getLast_cons (List.cons_ne_nil _ _)]
    exact ih p' [p, a] (fun x hx => hmem x (List.mem_cons_of_mem _ hx))
      (Or.inr ⟨p, hmem p (List.mem_cons_self _ _), rfl⟩)

/-- A chain pass over at least two collinear points ends with the last point
on top of the first. -/
theorem chainRev_collinear (pts : List (Point K)) (h2 : 2 ≤ pts.length)
    (hcol : ∀ a ∈ pts, ∀ b ∈ pts, ∀ c ∈ pts, cross a b c = 0) :
    ∃ f m, pts.head? = some f ∧ pts.getLast? = some m ∧ chainRev pts = [m, f] := by
  obtain ⟨f, mid, m, rfl⟩ := exists_ends h2
  refine ⟨f, m, rfl, ?_, ?_⟩
  · rw [show f :: (mid ++ [m]) = (f :: mid) ++ [m] from rfl, List.getLast?_append]
    simp
  · have hne : mid ++ [m] ≠ [] := by simp
    obtain ⟨p, rest, hpr⟩ := List.exists_cons_of_ne_nil hne
    have hf : f ∈ f :: (mid ++ [m]) := List.mem_cons_self _ _
    have := foldl_collinear f (f :: (mid ++ [m])) (hcol f hf) rest p [f]
      (fun x hx => List.mem_cons_of_mem _ (hpr ▸ hx)) (Or.inl rfl)
    unfold chainRev
    rw [List.foldl_cons, popWhile_nil, hpr, this]
    have hl : (p :: rest).getLast (List.cons_ne_nil _ _) = m := by
      have : (p :: rest).getLast? = some m := by rw [← hpr, List.getLast?_append]; simp
      rw [List.getLast?_eq_getLast _ (List.cons_ne_nil _ _)] at this
      exact Option.some.inj this
    rw [hl]

/-- C13: for at least three points with exact coordinates that are all
collinear, `convexHull` returns exactly two points, the smallest and the
largest input point in (lon, then lat) order. -/
theorem convexHull_collinear (points : List (Point K)) (h3 : 3 ≤ points.length)
    (hcol : ∀ a ∈ points, ∀ b ∈ points, ∀ c ∈ points, cross a b c = 0) :
    ∃ f m, convexHull points = [f, m] ∧ f ∈ points ∧ m ∈ points ∧
      ∀ q ∈ points, lexLE f q ∧ lexLE q m := by
  have hperm := sortPoints_perm points
  have hs := sortPoints_sorted points
  have hlen : 2 ≤ (sortPoints points).length := by rw [hperm.length_eq]; omega
  have hcol' : ∀ a ∈ sortPoints points, ∀ b ∈ sortPoints points, ∀ c ∈ sortPoints points,
      cross a b c = 0 := fun a ha b hb c hc =>
    hcol a (hperm.mem_iff.mp ha) b (hperm.mem_iff.mp hb) c (hperm.mem_iff.mp hc)
  obtain ⟨f, m, hf, hm, hlow⟩ := chainRev_collinear (sortPoints points) hlen hcol'
  obtain ⟨m', f', hm', hf', hup⟩ := chainRev_collinear (sortPoints points).reverse
    (by simpa using hlen)
    (fun a ha b hb c hc => hcol' a (List.mem_reverse.mp ha) b (List.mem_reverse.mp hb) c
      (List.mem_reverse.mp hc))
  rw [List.head?_reverse, hm] at hm'
  rw [List.getLast?_reverse, hf] at hf'
  simp only [Option.some.injEq] at hm' hf'
  subst hm'; subst hf'
  refine ⟨f, m, ?_, ?_, ?_, ?_⟩
  · simp [convexHull, convexHullRun, lowerChain, upperChain, hlow, hup]
  · exact hperm.mem_iff.mp (List.mem_of_mem_head? hf)
  · exact hperm.mem_iff.mp (List.mem_of_getLast?_eq_some hm)
  · intro q hq
    have hq' := hperm.mem_iff.mpr hq
    exact ⟨pairwise_head_min lexLE_sweep hs f hf q hq',
      pairwise_last_max lexLE_sweep hs m hm q hq'⟩

theorem convexHull_collinear_witness :
    3 ≤ [pt 2 2, pt 0 0, pt 1 1, pt 3 3].length ∧
      (∀ a ∈ [pt 2 2, pt 0 0, pt 1 1, pt 3 3], ∀ b ∈ [pt 2 2, pt 0 0, pt 1 1, pt 3 3],
        ∀ c ∈ [pt 2 2, pt 0 0, pt 1 1, pt 3 3], cross a b c = 0) ∧
      ∃ f m, convexHull [pt 2 2, pt 0 0, pt 1 1, pt 3 3] = [f, m] ∧
        f ∈ [pt 2 2, pt 0 0, pt 1 1, pt 3 3] ∧ m ∈ [pt 2 2, pt 0 0, pt 1 1, pt 3 3] ∧
        ∀ q ∈ [pt 2 2, pt 0 0, pt 1 1, pt 3 3], lexLE f q ∧ lexLE q m :=
  ⟨by decide, by decide, convexHull_collinear _ (by decide) (by decide)⟩

/-- C11 (evaluation at the failing input): after `convexHull(points)` the
array passed holds its points in ascending (lon, lat) order, not in the order
the caller gave them. -/
theorem convexHull_sorts_argument :
    (convexHullRun [pt 1 0, pt 0 0]).1 = [pt 0 0, pt 1 0] ∧
      (convexHullRun [pt 1 0, pt 0 0]).1 ≠ [pt 1 0, pt 0 0] ∧
      ∀ points : List (Point K), (convexHullRun points).1 = sortPoints points := by
  refine ⟨by decide, by decide, fun _ => rfl⟩

end HullDegenerate

section MoreGeometry

variable {K : Type} [LinearOrderedCommRing K]

/-- Strict form of `geo2` for a point not after the edge's start. -/
theorem geo2_strict {A B Q P : Point K} (h0 : lexLE Q A) (h1 : lexLE A B) (h3 : lexLE B P)
    (hq : 0 ≤ cross A B Q) (hp : 0 < cross A B P) : 0 < cross B P Q := by
  have x0 := lexLE_lon h0
  have x1 := lexLE_lon h1
  have x3 := lexLE_lon h3
  unfold cross at *
  rcases lt_or_eq_of_le x1 with hb | hb
  · by_contra hneg
    push_neg at hneg
    nlinarith [mul_nonneg (sub_nonneg.mpr x3) hq,
      mul_pos (sub_pos.mpr (lt_of_le_of_lt x0 hb)) hp,
      mul_nonneg (le_of_lt (sub_pos.mpr hb)) (neg_nonneg.mpr hneg)]
  · have y1 := lexLE_lat h1 (le_of_eq hb.symm)
    exfalso
    rw [hb] at hp
    nlinarith [mul_nonneg (sub_nonneg.mpr y1) (sub_nonneg.mpr x3)]

/-- Where one chain hands over to the other: the first edge of the second chain
leaves the last edge of the first one with a strict left turn. -/
theorem geoJ {L M U Z : Point K} (h1 : lexLE L M) (hn : ¬ lexLE M L) (h2 : lexLE U M)
    (c1 : 0 ≤ cross L M U) (c2 : 0 ≤ cross L M Z) (c3 : 0 < cross M U Z) :
    0 < cross L M U := by
  by_contra hc
  have c1z : cross L M U = 0 := le_antisymm (not_lt.mp hc) c1
  have key1 : cross M U Z * (L.lon - M.lon) =
      cross L M U * (Z.lon - M.lon) - cross L M Z * (U.lon - M.lon) := by
    unfold cross; ring
  have key2 : cross M U Z * (L.lat - M.lat) =
      cross L M U * (Z.lat - M.lat) - cross L M Z * (U.lat - M.lat) := by
    unfold cross; ring
  rw [c1z, zero_mul, zero_sub] at key1 key2
  have vx : L.lon - M.lon ≤ 0 := sub_nonpos.mpr (lexLE_lon h1)
  have wx : U.lon - M.lon ≤ 0 := sub_nonpos.mpr (lexLE_lon h2)
  have l1 : cross M U Z * (L.lon - M.lon) ≤ 0 :=
    mul_nonpos_of_nonneg_of_nonpos (le_of_lt c3) vx
  have r1 : 0 ≤ -(cross L M Z * (U.lon - M.lon)) :=
    neg_nonneg.mpr (mul_nonpos_of_nonneg_of_nonpos c2 wx)
  have e1 : cross M U Z * (L.lon - M.lon) = 0 := le_antisymm l1 (key1 ▸ r1)
  have vx0 : L.lon - M.lon = 0 := by
    rcases mul_eq_zero.mp e1 with h | h
    · exact absurd h (ne_of_gt c3)
    · exact h
  have e2 : cross L M Z * (U.lon - M.lon) = 0 := by
    rw [e1] at key1
    exact neg_eq_zero.mp key1.symm
  have hlon : L.lon = M.lon := sub_eq_zero.mp vx0
  have vy : L.lat - M.lat < 0 := by
    apply sub_neg.mpr
    by_contra hge
    exact hn (Or.inr ⟨hlon.symm, not_lt.mp hge⟩)
  have l2 : cross M U Z * (L.lat - M.lat) < 0 := mul_neg_of_pos_of_neg c3 vy
  rw [key2] at l2
  have p2 : 0 < cross L M Z * (U.lat - M.lat) := neg_neg_iff_pos.mp l2
  have c2pos : 0 < cross L M Z := by
    rcases lt_or_eq_of_le c2 with h | h
    · exact h
    · rw [← h, zero_mul] at p2; exact absurd p2 (lt_irrefl _)
  have wy : 0 < U.lat - M.lat := pos_of_mul_pos_right p2 c2
  have wx0 : U.lon - M.lon = 0 := by
    rcases mul_eq_zero.mp e2 with h | h
    · exact absurd h (ne_of_gt c2pos)
    · exact h
  have := lexLE_lat h2 (le_of_eq (sub_eq_zero.mp wx0).symm)
  linarith

/-- No point is a strict turn of the ascending chain and a vertex after the
start of the descending chain at once. -/
theorem geoD {A Q B C Dd : Point K} (h1 : lexLE A Q) (h2 : lexLE Q C)
    (t1 : 0 < cross A Q B) (t2 : 0 ≤ cross A Q C) (t3 : 0 ≤ cross Q B C)
    (t4 : 0 ≤ cross C Q A) (t5 : 0 < cross C Q Dd) : False := by
  have e24 : cross C Q A = -cross A Q C := by unfold cross; ring
  have t4z : cross C Q A = 0 := le_antisymm (by rw [e24]; linarith) t4
  have key1 : cross A Q B * (C.lon - Q.lon) - cross Q B C * (A.lon - Q.lon) =
      -((B.lon - Q.lon) * cross C Q A) := by
    unfold cross; ring
  have key2 : cross A Q B * (C.lat - Q.lat) - cross Q B C * (A.lat - Q.lat) =
      -((B.lat - Q.lat) * cross C Q A) := by
    unfold cross; ring
  rw [t4z, mul_zero, neg_zero] at key1 key2
  have ax : A.lon - Q.lon ≤ 0 := sub_nonpos.mpr (lexLE_lon h1)
  have cx : 0 ≤ C.lon - Q.lon := sub_nonneg.mpr (lexLE_lon h2)
  have p1 : 0 ≤ cross A Q B * (C.lon - Q.lon) := mul_nonneg (le_of_lt t1) cx
  have p2 : cross Q B C * (A.lon - Q.lon) ≤ 0 := mul_nonpos_of_nonneg_of_nonpos t3 ax
  have e1 : cross A Q B * (C.lon - Q.lon) = 0 := by linarith
  have e2 : cross Q B C * (A.lon - Q.lon) = 0 := by linarith
  have cx0 : C.lon - Q.lon = 0 := by
    rcases mul_eq_zero.mp e1 with h | h
    · exact absurd h (ne_of_gt t1)
    · exact h
  have hlonC : Q.lon = C.lon := (sub_eq_zero.mp cx0).symm
  have cy : 0 ≤ C.lat - Q.lat := sub_nonneg.mpr (lexLE_lat h2 (le_of_eq hlonC.symm))
  have cyne : C.lat - Q.lat ≠ 0 := by
    intro h
    have hlat : C.lat = Q.lat := sub_eq_zero.mp h
    unfold cross at t5
    rw [hlat, ← hlonC] at t5
    simp at t5
  have cypos : 0 < C.lat - Q.lat := lt_of_le_of_ne cy (Ne.symm cyne)
  have q1 : 0 < cross A Q B * (C.lat - Q.lat) := mul_pos t1 cypos
  have q2 : 0 < cross Q B C * (A.lat - Q.lat) := by linarith
  have t3pos : 0 < cross Q B C := by
    rcases lt_or_eq_of_le t3 with h | h
    · exact h
    · rw [← h, zero_mul] at q2; exact absurd q2 (lt_irrefl _)
  have ay : 0 < A.lat - Q.lat := pos_of_mul_pos_right q2 t3
  have ax0 : A.lon - Q.lon = 0 := by
    rcases mul_eq_zero.mp e2 with h | h
    · exact absurd h (ne_of_gt t3pos)
    · exact h
  have := lexLE_lat h1 (le_of_eq (sub_eq_zero.mp ax0).symm)
  linarith

theorem lexLE_strict : SweepStrict (@lexLE K _) where
  s2 := geo2_strict
  j := geoJ

theorem lexGE_strict : SweepStrict (fun a b : Point K => lexLE b a) where
  s2 := fun {A B Q P} h0 h1 h3 hq hp => by
    rw [← cross_reflect] at hq hp ⊢
    exact geo2_strict ((lexLE_reflect _ _).mpr h0) ((lexLE_reflect _ _).mpr h1)
      ((lexLE_reflect _ _).mpr h3) hq hp
  j := fun {L M U Z} h1 hn h2 c1 c2 c3 => by
    rw [← cross_reflect] at c1 c2 c3 ⊢
    exact geoJ ((lexLE_reflect _ _).mpr h1) (fun h => hn ((lexLE_reflect _ _).mp h))
      ((lexLE_reflect _ _).mpr h2) c1 c2 c3

end MoreGeometry

section ChainIndex

variable {K : Type} [LinearOrderedCommRing K]
variable {le : Point K → Point K → Prop}

theorem chain'_getElem? {α : Type} {R : α → α → Prop} :
    ∀ (l : List α), List.Chain' R l →
      ∀ (i : Nat) a b, l[i]? = some a → l[i + 1]? = some b → R a b := by
  intro l
  induction l with
  | nil => intro _ i a b h; simp at h
  | cons x tl ih =>
    intro hc i a b ha hb
    cases tl with
    | nil => simp at hb
    | cons y rest =>
      have hc' := List.chain'_cons.mp hc
      cases i with
      | zero =>
        simp only [List.getElem?_cons_zero, List.getElem?_cons_succ, Option.some.injEq] at ha hb
        subst ha; subst hb
        exact hc'.1
      | succ i =>
        simp only [List.getElem?_cons_succ] at ha hb
        exact ih hc'.2 i a b ha (by simpa using hb)

theorem leftTurns_getElem? :
    ∀ (st : List (Point K)), LeftTurns st →
      ∀ (i : Nat) c b a, st[i]? = some c → st[i + 1]? = some b → st[i + 2]? = some a →
        0 < cross a b c := by
  intro st
  induction st with
  | nil => intro _ i c b a h; simp at h
  | cons x tl ih =>
    intro ht i c b a hc hb ha
    cases tl with
    | nil => simp at hb
    | cons y rest =>
      cases rest with
      | nil => simp at ha
      | cons z rest' =>
        cases i with
        | zero =>
          simp only [List.getElem?_cons_zero, List.getElem?_cons_succ, Option.some.injEq]
            at hc hb ha
          subst hc; subst hb; subst ha
          exact ht.1
        | succ i =>
          simp only [List.getElem?_cons_succ] at hc hb ha
          exact ih ht.2 i c b a hc (by simpa using hb) (by simpa using ha)

theorem getElem?_reverse_some {α : Type} {l : List α} {i : Nat} {a : α}
    (h : l.reverse[i]? = some a) : i < l.length ∧ l[l.length - 1 - i]? = some a := by
  have hi : i < l.length := by
    have := (List.getElem?_eq_some.mp h).1
    simpa using this
  exact ⟨hi, by rw [← List.getElem?_reverse hi]; exact h⟩

theorem popWhile_suffix (p : Point K) : ∀ st : List (Point K), popWhile p st <:+ st := by
  intro st
  induction st with
  | nil => rw [popWhile_nil]
  | cons b tl ih =>
    cases tl with
    | nil => rw [popWhile_single]
    | cons a rest =>
      rw [popWhile_cons_cons]
      split
      · exact ih.trans (List.suffix_cons _ _)
      · exact List.suffix_refl _

theorem chainRev_snoc (pre : List (Point K)) (p : Point K) :
    chainRev (pre ++ [p]) = p :: popWhile p (chainRev pre) := by
  simp [chainRev, List.foldl_append]

/-- Below its top, a chain is a sublist of the points scanned before the last
one, in reverse. -/
theorem chainRev_tail_sublist (pre : List (Point K)) (p : Point K) :
    (chainRev (pre ++ [p])).tail.Sublist pre.reverse := by
  rw [chainRev_snoc, List.tail_cons]
  refine (popWhile_suffix p _).sublist.trans ?_
  induction pre using List.reverseRecOn with
  | nil => simp [chainRev]
  | append_singleton pre q ih =>
    rw [chainRev_snoc, List.reverse_append, List.reverse_singleton, List.singleton_append]
    exact List.Sublist.cons₂ q ((popWhile_suffix q _).sublist.trans ih)

theorem chainRev_sublist (pts : List (Point K)) : (chainRev pts).Sublist pts.reverse := by
  induction pts using List.reverseRecOn with
  | nil => simp [chainRev]
  | append_singleton pre q ih =>
    rw [chainRev_snoc, List.reverse_append, List.reverse_singleton, List.singleton_append]
    exact List.Sublist.cons₂ q ((popWhile_suffix q _).sublist.trans ih)

/-- The index form of the state of a finished chain pass. -/
theorem chainFacts_of_inv (hle : SweepOrder le) (pts : List (Point K))
    (hs : pts.Pairwise le) (hne : pts ≠ []) :
    ChainFacts le pts (chainRev pts).reverse := by
  have h := chainRev_inv hle pts hs hne
  have hsub := chainRev_sublist pts
  have hmem : ∀ x ∈ (chainRev pts).reverse, x ∈ pts := fun x hx =>
    List.mem_reverse.mp (hsub.subset (List.mem_reverse.mp hx))
  refine ⟨?_, ?_, ?_, hmem, ?_⟩
  · intro i j a b hij ha hb
    have hpw : (chainRev pts).reverse.Pairwise le := by
      rw [List.pairwise_reverse]
      haveI : IsTrans (Point K) (fun b a => le a b) := ⟨fun _ _ _ h1 h2 => hle.trans h2 h1⟩
      exact List.chain'_iff_pairwise.mp (List.Chain'.imp (fun _ _ hab => hab.1) h.edges)
    obtain ⟨hi, hia⟩ := List.getElem?_eq_some.mp ha
    obtain ⟨hj, hjb⟩ := List.getElem?_eq_some.mp hb
    rcases Nat.lt_or_eq_of_le hij with hlt | heq
    · rw [← hia, ← hjb]
      exact List.pairwise_iff_getElem.mp hpw i j hi hj hlt
    · subst heq
      rw [ha] at hb
      cases hb
      exact (hle.total a a).elim id id
  · intro i a b c ha hb hc
    obtain ⟨h1, ha'⟩ := getElem?_reverse_some ha
    obtain ⟨h2, hb'⟩ := getElem?_reverse_some hb
    obtain ⟨h3, hc'⟩ := getElem?_reverse_some hc
    refine leftTurns_getElem? _ h.turns ((chainRev pts).length - 1 - (i + 2)) c b a hc' ?_ ?_
    · rw [← hb']; congr 1; omega
    · rw [← ha']; congr 1; omega
  · intro i a b ha hb q hq
    obtain ⟨h1, ha'⟩ := getElem?_reverse_some ha
    obtain ⟨h2, hb'⟩ := getElem?_reverse_some hb
    refine (chain'_getElem? _ h.edges ((chainRev pts).length - 1 - (i + 1)) b a hb' ?_).2 q hq
    rw [← ha']; congr 1; omega
  · intro a ha q hq
    rw [← List.head?_eq_getElem?, List.head?_reverse, h.bot] at ha
    exact pairwise_head_min hle hs a ha q hq

end ChainIndex

section HullTurns

variable {K : Type} [LinearOrderedCommRing K]
variable {le : Point K → Point K → Prop}

theorem exists_getElem? {α : Type} {l : List α} {i : Nat} (h : i < l.length) :
    ∃ a, l[i]? = some a := ⟨l[i], List.getElem?_eq_getElem h⟩

theorem cross_swap (o a b : Point K) : cross o a b = -cross a o b := by
  unfold cross; ring

theorem ChainFacts.of_mem_iff {pts pts' X : List (Point K)}
    (h : ChainFacts le pts X) (hm : ∀ q, q ∈ pts' ↔ q ∈ pts) : ChainFacts le pts' X :=
  ⟨h.asc, h.turns, fun i a b ha hb q hq => h.edges i a b ha hb q ((hm q).mp hq),
    fun x hx => (hm x).mpr (h.mem x hx), fun a ha q hq => h.lo a ha q ((hm q).mp hq)⟩

/-- The turn where the chain `X` hands over to the chain `Y`, which is scanned
in the opposite order, is a strict left turn when the two chains have at least
three vertices between them. -/
theorem junction_turn (hle : SweepOrder le) (hst : SweepStrict le)
    {pts X Y : List (Point K)} (hX : ChainFacts le pts X)
    (hY : ChainFacts (fun a b => le b a) pts Y) {k l : Nat}
    (hk : X.length = k + 2) (hl : Y.length = l + 2) (h5 : 1 ≤ k + l)
    (hstart : Y[l + 1]? = X[0]?) {p M r : Point K}
    (hp : X[k]? = some p) (hM : X[k + 1]? = some M) (hM' : Y[0]? = some M)
    (hr : Y[1]? = some r) : 0 < cross p M r := by
  have hpM : le p M := hX.asc k (k + 1) p M (Nat.le_succ _) hp hM
  have hrM : le r M := hY.asc 0 1 M r (Nat.zero_le _) hM' hr
  have hr_mem : r ∈ pts := hY.mem r (List.mem_iff_getElem?.mpr ⟨1, hr⟩)
  cases l with
  | succ l' =>
    obtain ⟨z, hz⟩ := @exists_getElem? _ Y 2 (by omega)
    have hz_mem : z ∈ pts := hY.mem z (List.mem_iff_getElem?.mpr ⟨2, hz⟩)
    have hturn : 0 < cross M r z := hY.turns 0 M r z hM' hr hz
    refine hst.j hpM ?_ hrM (hX.edges k p M hp hM r hr_mem) (hX.edges k p M hp hM z hz_mem) hturn
    intro hMp
    cases k with
    | succ k' =>
      obtain ⟨o, ho⟩ := @exists_getElem? _ X k' (by omega)
      have h1 : 0 < cross o p M := hX.turns k' o p M ho hp hM
      have h2 : cross p o M = 0 := hle.g0 o hpM hMp
      rw [cross_swap, h2] at h1
      simp at h1
    | zero =>
      have hpz : le p z := hX.lo p hp z hz_mem
      have hzM : le z M := hY.asc 0 2 M z (Nat.zero_le _) hM' hz
      have h0 : cross M r z = 0 := hle.g0 r (hle.trans hMp hpz) hzM
      rw [h0] at hturn
      exact lt_irrefl _ hturn
  | zero =>
    cases k with
    | zero => omega
    | succ k' =>
      obtain ⟨o, ho⟩ := @exists_getElem? _ X k' (by omega)
      obtain ⟨f, hf⟩ := @exists_getElem? _ X 0 (by omega)
      have hrf : r = f := by
        rw [← hstart] at hf
        have : Y[1]? = some f := hf
        rw [hr] at this
        exact Option.some.inj this
      subst hrf
      exact hst.s2 (hX.asc 0 k' r o (Nat.zero_le _) hf ho)
        (hX.asc k' (k' + 1) o p (Nat.le_succ _) ho hp) hpM
        (hX.edges k' o p ho hp r hr_mem) (hX.turns k' o p M ho hp hM)

/-- Gluing two lists that share an end: the triples of consecutive entries of
the result are triples of one list, of the other, or the one across the joint. -/
theorem triples_glue {α : Type} {T : α → α → α → Prop} (P Q : List α) (m : α) (n : Nat)
    (hP : P.length = n + 1) (hPm : P[n]? = some m) (hQm : Q[0]? = some m)
    (tP : ∀ (i : Nat) a b c, P[i]? = some a → P[i + 1]? = some b → P[i + 2]? = some c → T a b c)
    (tQ : ∀ (i : Nat) a b c, Q[i]? = some a → Q[i + 1]? = some b → Q[i + 2]? = some c → T a b c)
    (tJ : ∀ (j : Nat) p r, j + 1 = n → P[j]? = some p → Q[1]? = some r → T p m r) :
    ∀ (i : Nat) a b c, (P.dropLast ++ Q)[i]? = some a → (P.dropLast ++ Q)[i + 1]? = some b →
      (P.dropLast ++ Q)[i + 2]? = some c → T a b c := by
  have hlen : P.dropLast.length = n := by simp [hP]
  have low : ∀ k, k ≤ n → (P.dropLast ++ Q)[k]? = P[k]? := by
    intro k hk
    rcases Nat.lt_or_eq_of_le hk with h | h
    · rw [List.getElem?_append_left (by omega), List.getElem?_dropLast, if_pos (by omega)]
    · subst h
      rw [List.getElem?_append_right (by omega), hlen, Nat.sub_self, hQm, hPm]
  have high : ∀ k, n ≤ k → (P.dropLast ++ Q)[k]? = Q[k - n]? := by
    intro k hk
    rw [List.getElem?_append_right (by omega), hlen]
  intro i a b c ha hb hc
  by_cases h1 : i + 2 ≤ n
  · rw [low i (by omega)] at ha
    rw [low (i + 1) (by omega)] at hb
    rw [low (i + 2) h1] at hc
    exact tP i a b c ha hb hc
  · by_cases h2 : n ≤ i
    · rw [high i h2] at ha
      rw [high (i + 1) (by omega), show i + 1 - n = i - n + 1 by omega] at hb
      rw [high (i + 2) (by omega), show i + 2 - n = i - n + 2 by omega] at hc
      exact tQ (i - n) a b c ha hb hc
    · have hi : i + 1 = n := by omega
      rw [low i (by omega)] at ha
      rw [low (i + 1) (by omega), hi, hPm] at hb
      rw [high (i + 2) (by omega), show i + 2 - n = 1 by omega] at hc
      cases hb
      exact tJ i a c hi ha hc

/-- A triple of cyclically consecutive vertices of `H` is a triple of
consecutive entries of `H` followed by its first two vertices. -/
theorem cyclicTriples_getElem? {α : Type} {H : List α} {h0 h1 : α}
    (e0 : H[0]? = some h0) (e1 : H[1]? = some h1) {t : α × α × α}
    (ht : t ∈ cyclicTriples H) :
    ∃ i : Nat, (H ++ [h0, h1])[i]? = some t.1 ∧ (H ++ [h0, h1])[i + 1]? = some t.2.1 ∧
      (H ++ [h0, h1])[i + 2]? = some t.2.2 := by
  obtain ⟨i, hi⟩ := List.mem_iff_getElem?.mp ht
  unfold cyclicTriples at hi
  obtain ⟨ha, hbc⟩ := List.getElem?_zip_eq_some.mp hi
  obtain ⟨hb, hc⟩ := List.getElem?_zip_eq_some.mp hbc
  have hiN : i < H.length := (List.getElem?_eq_some.mp ha).1
  have hN : 2 ≤ H.length := by
    have := (List.getElem?_eq_some.mp e1).1
    omega
  rw [List.getElem?_rotate hiN] at hb hc
  have tail0 : (H ++ [h0, h1])[H.length]? = some h0 := by
    rw [List.getElem?_append_right (Nat.le_refl _)]; simp
  have tail1 : (H ++ [h0, h1])[H.length + 1]? = some h1 := by
    rw [List.getElem?_append_right (by omega)]; simp
  refine ⟨i, ?_, ?_, ?_⟩
  · rw [List.getElem?_append_left hiN]; exact ha
  · by_cases h : i + 1 < H.length
    · rw [List.getElem?_append_left h]
      rw [Nat.mod_eq_of_lt h] at hb
      exact hb
    · have he : i + 1 = H.length := by omega
      rw [he, Nat.mod_self, e0] at hb
      rw [he, tail0]; exact hb
  · by_cases h : i + 2 < H.length
    · rw [List.getElem?_append_left h]
      rw [Nat.mod_eq_of_lt h] at hc
      exact hc
    · by_cases h' : i + 2 = H.length
      · rw [h', Nat.mod_self, e0] at hc
        rw [h', tail0]; exact hc
      · have he : i + 2 = H.length + 1 := by omega
        rw [he, Nat.add_mod_left, Nat.mod_eq_of_lt (by omega), e1] at hc
        rw [he, tail1]; exact hc

end HullTurns

section HullConvex

variable {K : Type} [LinearOrderedCommRing K]

/-- The two chains of `convexHull` on at least two sorted points, by index. -/
theorem chains_facts (sorted : List (Point K)) (hs : sorted.Pairwise lexLE)
    (h2 : 2 ≤ sorted.length) :
    ∃ (k l : Nat) (f m : Point K),
      ChainFacts lexLE sorted (lowerChain sorted) ∧
      ChainFacts (fun a b => lexLE b a) sorted (upperChain sorted) ∧
      (lowerChain sorted).length = k + 2 ∧ (upperChain sorted).length = l + 2 ∧
      (lowerChain sorted)[0]? = some f ∧ (lowerChain sorted)[k + 1]? = some m ∧
      (upperChain sorted)[0]? = some m ∧ (upperChain sorted)[l + 1]? = some f ∧
      sorted.head? = some f ∧ sorted.getLast? = some m := by
  have hne : sorted ≠ [] := by rintro rfl; simp at h2
  obtain ⟨l1, l2, l3, -⟩ := lowerChain_spec sorted hs hne
  obtain ⟨u1, u2, u3, -⟩ := upperChain_spec sorted hs hne
  have hL := l3 h2
  have hU := u3 h2
  obtain ⟨k, hk⟩ := Nat.exists_eq_add_of_le hL
  obtain ⟨l, hl⟩ := Nat.exists_eq_add_of_le hU
  obtain ⟨f, hf⟩ : ∃ f, sorted.head? = some f := by
    cases sorted with
    | nil => exact absurd rfl hne
    | cons a tl => exact ⟨a, rfl⟩
  obtain ⟨m, hm⟩ : ∃ m, sorted.getLast? = some m :=
    ⟨sorted.getLast hne, List.getLast?_eq_getLast _ hne⟩
  have hLF : ChainFacts lexLE sorted (lowerChain sorted) :=
    chainFacts_of_inv lexLE_sweep sorted hs hne
  have hUF : ChainFacts (fun a b => lexLE b a) sorted (upperChain sorted) :=
    (chainFacts_of_inv lexGE_sweep sorted.reverse (List.pairwise_reverse.mpr hs)
      (by simpa using hne)).of_mem_iff (fun q => List.mem_reverse.symm)
  refine ⟨k, l, f, m, hLF, hUF, by omega, by omega, ?_, ?_, ?_, ?_, hf, hm⟩
  · rw [← List.head?_eq_getElem?, l1, hf]
  · rw [← hm, ← l2, List.getLast?_eq_getElem?]; congr 1; omega
  · rw [← List.head?_eq_getElem?, u1, hm]
  · rw [← hf, ← u2, List.getLast?_eq_getElem?]; congr 1; omega

theorem convexHull_eq (points : List (Point K)) :
    convexHull points = (lowerChain (sortPoints points)).dropLast ++
      (upperChain (sortPoints points)).dropLast := rfl

theorem chain_length_le (pts : List (Point K)) : (chainRev pts).length ≤ pts.length := by
  have := (chainRev_sublist pts).length_le
  simpa using this

/-- A hull with a vertex comes from at least two points. -/
theorem two_le_of_hull_ne_nil (points : List (Point K))
    (h : 1 ≤ (convexHull points).length) : 2 ≤ (sortPoints points).length := by
  by_contra hc
  have h1 := chain_length_le (sortPoints points)
  have h2 := chain_length_le (sortPoints points).reverse
  rw [convexHull_eq, List.length_append, List.length_dropLast, List.length_dropLast,
    lowerChain, upperChain, List.length_reverse, List.length_reverse] at h
  rw [List.length_reverse] at h2
  omega

/-- The closed walk along a hull of at least three vertices turns strictly
left at every vertex, the two junctions of the chains included. -/
theorem hull_turns_strict (points : List (Point K))
    (h3 : 3 ≤ (convexHull points).length) :
    ∀ t ∈ cyclicTriples (convexHull points), 0 < cross t.1 t.2.1 t.2.2 := by
  have hs := sortPoints_sorted points
  have h2 := two_le_of_hull_ne_nil points (by omega)
  obtain ⟨k, l, f, m, hLF, hUF, hk, hl, hL0, hLm, hU0, hUf, -, -⟩ :=
    chains_facts (sortPoints points) hs h2
  rw [convexHull_eq] at h3 ⊢
  have hlenH : k + l + 2 ≥ 3 := by
    rw [List.length_append, List.length_dropLast, List.length_dropLast, hk, hl] at h3
    omega
  -- the second vertex of the hull is the second entry of `lower`
  obtain ⟨x, hx⟩ := @exists_getElem? _ (lowerChain (sortPoints points)) 1 (by omega)
  have hLd : (lowerChain (sortPoints points)).dropLast.length = k + 1 := by
    rw [List.length_dropLast, hk]; rfl
  have hH0 : ((lowerChain (sortPoints points)).dropLast ++
      (upperChain (sortPoints points)).dropLast)[0]? = some f := by
    rw [List.getElem?_append_left (by omega), List.getElem?_dropLast, if_pos (by omega), hL0]
  have hH1 : ((lowerChain (sortPoints points)).dropLast ++
      (upperChain (sortPoints points)).dropLast)[1]? = some x := by
    cases k with
    | zero =>
      rw [List.getElem?_append_right (by omega), hLd, List.getElem?_dropLast,
        if_pos (by omega), hU0]
      rw [hLm] at hx
      exact hx
    | succ k' =>
      rw [List.getElem?_append_left (by omega), List.getElem?_dropLast, if_pos (by omega), hx]
  -- the closed walk: `lower` without its last entry, then `upper`
  have step1 := @triples_glue _ (fun a b c => 0 < cross a b c)
    (lowerChain (sortPoints points)) (upperChain (sortPoints points)) m (k + 1)
    hk hLm hU0 hLF.turns hUF.turns
    (by
      intro j p r hj hp hr
      have hj' : j = k := by omega
      subst hj'
      exact junction_turn lexLE_sweep lexLE_strict hLF hUF hk hl (by omega)
        (by rw [hUf, hL0]) hp hLm hU0 hr)
  have hP2len : ((lowerChain (sortPoints points)).dropLast ++
      upperChain (sortPoints points)).length = (k + l + 2) + 1 := by
    rw [List.length_append, hLd, hl]; omega
  have hP2last : ((lowerChain (sortPoints points)).dropLast ++
      upperChain (sortPoints points))[k + l + 2]? = some f := by
    rw [List.getElem?_append_right (by omega), hLd, show k + l + 2 - (k + 1) = l + 1 by omega,
      hUf]
  have step2 := @triples_glue _ (fun a b c => 0 < cross a b c)
    ((lowerChain (sortPoints points)).dropLast ++ upperChain (sortPoints points))
    [f, x] f (k + l + 2) hP2len hP2last rfl step1
    (by intro i a b c _ _ hc; simp at hc)
    (by
      intro j p r hj hp hr
      have hj' : j = k + 1 + l := by omega
      subst hj'
      rw [List.getElem?_append_right (by omega), hLd, Nat.add_sub_cancel_left] at hp
      simp only [List.getElem?_cons_succ, List.getElem?_cons_zero, Option.some.injEq] at hr
      subst hr
      exact junction_turn lexGE_sweep lexGE_strict hUF hLF hl hk (by omega)
        (by rw [hLm, hU0]) hp hUf hL0 hx)
  rw [List.dropLast_append_of_ne_nil _ (by intro h; rw [h] at hl; simp at hl)] at step2
  intro t ht
  obtain ⟨i, h1, h2, h3⟩ := cyclicTriples_getElem? hH0 hH1 ht
  exact step2 i _ _ _ h1 h2 h3

/-- C12: when the hull returned by `convexHull` has at least three vertices,
every three cyclically consecutive vertices make a strict left turn,
`cross(u, v, w) > 0`: the vertices are in counter-clockwise order and no
collinear point is kept. -/
theorem convexHull_strictly_convex (points : List (Point K))
    (h3 : 3 ≤ (convexHull points).length) :
    ∀ t ∈ cyclicTriples (convexHull points), 0 < cross t.1 t.2.1 t.2.2 :=
  hull_turns_strict points h3

end HullConvex

section HullSubset

variable {K : Type} [LinearOrderedCommRing K]

/-- Two sublists of a list (one of them of its reverse) with no common entry
fit into the list together. -/
theorem append_subperm_of_disjoint {α : Type} [DecidableEq α] {xs ys mid : List α}
    (hx : xs.Sublist mid) (hy : ys.Sublist mid.reverse)
    (hd : ∀ v, v ∈ xs → v ∈ ys → False) : (xs ++ ys).Subperm mid := by
  rw [List.subperm_ext_iff]
  intro v hv
  rw [List.count_append]
  have h1 := hx.count_le v
  have h2 := hy.count_le v
  rw [List.count_reverse] at h2
  by_cases hvx : v ∈ xs
  · have : List.count v ys = 0 := List.count_eq_zero.mpr (fun h => hd v hvx h)
    omega
  · have : List.count v xs = 0 := List.count_eq_zero.mpr hvx
    omega

/-- No inner vertex of `lower` is an inner vertex of `upper`. -/
theorem inner_vertices_disjoint {pts L U : List (Point K)}
    (hL : ChainFacts lexLE pts L) (hU : ChainFacts (fun a b => lexLE b a) pts U)
    {i j : Nat} {v b d : Point K}
    (hi : L[i + 1]? = some v) (hb : L[i + 2]? = some b)
    (hj : U[j + 1]? = some v) (hd : U[j + 2]? = some d) : False := by
  obtain ⟨a, ha⟩ := @exists_getElem? _ L i (by have := (List.getElem?_eq_some.mp hi).1; omega)
  obtain ⟨c, hc⟩ := @exists_getElem? _ U j (by have := (List.getElem?_eq_some.mp hj).1; omega)
  have hc_mem : c ∈ pts := hU.mem c (List.mem_iff_getElem?.mpr ⟨j, hc⟩)
  have ha_mem : a ∈ pts := hL.mem a (List.mem_iff_getElem?.mpr ⟨i, ha⟩)
  exact geoD (hL.asc i (i + 1) a v (Nat.le_succ _) ha hi)
    (hU.asc j (j + 1) c v (Nat.le_succ _) hc hj)
    (hL.turns i a v b ha hi hb) (hL.edges i a v ha hi c hc_mem)
    (hL.edges (i + 1) v b hi hb c hc_mem) (hU.edges j c v hc hj a ha_mem)
    (hU.turns j c v d hc hj hd)

theorem hull_subperm_sorted (sorted : List (Point K)) (hs : sorted.Pairwise lexLE)
    (h2 : 2 ≤ sorted.length) :
    ((lowerChain sorted).dropLast ++ (upperChain sorted).dropLast).Subperm sorted := by
  obtain ⟨k, l, f, m, hLF, hUF, hk, hl, hL0, hLm, hU0, hUf, hf, hm⟩ :=
    chains_facts sorted hs h2
  obtain ⟨f', mid, m', hsorted⟩ := exists_ends h2
  have hf' : f' = f := by rw [hsorted] at hf; simpa using hf
  have hm' : m' = m := by
    rw [hsorted, show f' :: (mid ++ [m']) = (f' :: mid) ++ [m'] from rfl,
      List.getLast?_append] at hm
    simpa using hm
  subst hf'; subst hm'
  -- `lower` and `upper` without their last entries, inside the sorted points
  have hLd : (lowerChain sorted).dropLast.Sublist (f' :: mid) := by
    have := chainRev_tail_sublist (f' :: mid) m'
    rw [lowerChain, List.dropLast_reverse, hsorted]
    exact List.reverse_sublist.mp (by simpa using this)
  have hUd : (upperChain sorted).dropLast.Sublist (m' :: mid.reverse) := by
    have := chainRev_tail_sublist (m' :: mid.reverse) f'
    rw [upperChain, List.dropLast_reverse, hsorted]
    have e : (f' :: (mid ++ [m'])).reverse = (m' :: mid.reverse) ++ [f'] := by simp
    rw [e]
    exact List.reverse_sublist.mp (by simpa using this)
  have hLdlen : (lowerChain sorted).dropLast.length = k + 1 := by
    rw [List.length_dropLast, hk]; rfl
  have hUdlen : (upperChain sorted).dropLast.length = l + 1 := by
    rw [List.length_dropLast, hl]; rfl
  obtain ⟨X, hX⟩ : ∃ X, (lowerChain sorted).dropLast = f' :: X := by
    cases h : (lowerChain sorted).dropLast with
    | nil => rw [h] at hLdlen; simp at hLdlen
    | cons a X =>
      have h0 : (lowerChain sorted).dropLast[0]? = some f' := by
        rw [List.getElem?_dropLast, if_pos (by omega), hL0]
      rw [h] at h0
      simp only [List.getElem?_cons_zero, Option.some.injEq] at h0
      exact ⟨X, by rw [h0]⟩
  obtain ⟨Y, hY⟩ : ∃ Y, (upperChain sorted).dropLast = m' :: Y := by
    cases h : (upperChain sorted).dropLast with
    | nil => rw [h] at hUdlen; simp at hUdlen
    | cons a Y =>
      have h0 : (upperChain sorted).dropLast[0]? = some m' := by
        rw [List.getElem?_dropLast, if_pos (by omega), hU0]
      rw [h] at h0
      simp only [List.getElem?_cons_zero, Option.some.injEq] at h0
      exact ⟨Y, by rw [h0]⟩
  have hXs : X.Sublist mid := List.cons_sublist_cons.mp (hX ▸ hLd)
  have hYs : Y.Sublist mid.reverse := List.cons_sublist_cons.mp (hY ▸ hUd)
  have hdisj : ∀ v, v ∈ X → v ∈ Y → False := by
    intro v hvX hvY
    obtain ⟨i, hi⟩ := List.mem_iff_getElem?.mp hvX
    obtain ⟨j, hj⟩ := List.mem_iff_getElem?.mp hvY
    have hi' : (lowerChain sorted).dropLast[i + 1]? = some v := by rw [hX]; simpa using hi
    have hj' : (upperChain sorted).dropLast[j + 1]? = some v := by rw [hY]; simpa using hj
    have hib : i + 1 < k + 1 := by
      have := (List.getElem?_eq_some.mp hi').1; omega
    have hjb : j + 1 < l + 1 := by
      have := (List.getElem?_eq_some.mp hj').1; omega
    rw [List.getElem?_dropLast, if_pos (by omega)] at hi' hj'
    obtain ⟨b, hb⟩ := @exists_getElem? _ (lowerChain sorted) (i + 2) (by omega)
    obtain ⟨d, hd⟩ := @exists_getElem? _ (upperChain sorted) (j + 2) (by omega)
    exact inner_vertices_disjoint hLF hUF hi' hb hj' hd
  rw [hX, hY, hsorted]
  have hmidsub := append_subperm_of_disjoint hXs hYs hdisj
  have p1 : (f' :: X ++ m' :: Y).Perm (f' :: m' :: (X ++ Y)) := by
    rw [List.cons_append]
    exact List.Perm.cons _ List.perm_middle
  have p2 : (f' :: (mid ++ [m'])).Perm (f' :: m' :: mid) := by
    refine List.Perm.cons _ ?_
    exact List.perm_append_singleton m' mid
  exact (p1.subperm.trans ((List.subperm_cons _).mpr ((List.subperm_cons _).mpr hmidsub))).trans
    p2.symm.subperm

/-- With `cross` evaluated exactly, the hull uses each input point at most as
often as it occurs in the input. -/
theorem hull_subperm_input (points : List (Point K)) :
    (∀ p ∈ convexHull points, p ∈ points) ∧ (convexHull points).Subperm points := by
  have hsub : (convexHull points).Subperm points := by
    by_cases h : 1 ≤ (convexHull points).length
    · have h2 := two_le_of_hull_ne_nil points h
      rw [convexHull_eq]
      exact (hull_subperm_sorted _ (sortPoints_sorted points) h2).trans
        (sortPoints_perm points).subperm
    · have : convexHull points = [] := List.length_eq_zero.mp (by omega)
      rw [this]
      exact List.nil_subperm
  exact ⟨fun p hp => hsub.subset hp, hsub⟩

end HullSubset

section HullExample

theorem lexLE_iff {K : Type} [LinearOrderedCommRing K] (a b : Point K) :
    lexLE a b ↔ a.lon < b.lon ∨ (a.lon = b.lon ∧ a.lat ≤ b.lat) := Iff.rfl

theorem sort_unit_square :
    sortPoints squareWithCentre =
      [ptQ 0 0, ptQ 0 1, ptQ (1 / 2) (1 / 2), ptQ 1 0, ptQ 1 1] := by
  norm_num [squareWithCentre, sortPoints, List.insertionSort, List.orderedInsert, lexLE_iff,
    ptQ]

/-- The hull of the unit square with its centre is the four corners, without
the centre. -/
theorem convexHull_unit_square :
    convexHull squareWithCentre = [ptQ 0 0, ptQ 1 0, ptQ 1 1, ptQ 0 1] := by
  rw [convexHull, convexHullRun, sort_unit_square]
  norm_num [lowerChain, upperChain, chainRev, popWhile, cross, ptQ]

theorem convexHull_strictly_convex_witness :
    3 ≤ (convexHull squareWithCentre).length ∧
      convexHull squareWithCentre = [ptQ 0 0, ptQ 1 0, ptQ 1 1, ptQ 0 1] ∧
      ∀ t ∈ cyclicTriples (convexHull squareWithCentre), 0 < cross t.1 t.2.1 t.2.2 :=
  ⟨by rw [convexHull_unit_square]; decide, convexHull_unit_square,
    convexHull_strictly_convex squareWithCentre (by rw [convexHull_unit_square]; decide)⟩

end HullExample

section HullContainment

variable {K : Type} [LinearOrderedCommRing K]

/-- C8: for at least two points with exact coordinates, `convexHull` returns a
polygon on or inside which every input point lies. The hull has at least two
vertices, all of them input points, among them the smallest input point `f` and
the largest one `m` in (lon, then lat) order; with two vertices it is the
segment `[f, m]` and every input point is collinear with `f` and `m` and
between them in that order; with three or more it turns strictly left at every
vertex; and `cross(u, v, p) >= 0` for every input point `p` and every pair
`(u, v)` of cyclically consecutive hull vertices. -/
theorem convexHull_contains_input (points : List (Point K)) (h2 : 2 ≤ points.length) :
    2 ≤ (convexHull points).length ∧
      (∀ v ∈ convexHull points, v ∈ points) ∧
      (∃ f m, f ∈ convexHull points ∧ m ∈ convexHull points ∧
        (∀ p ∈ points, lexLE f p ∧ lexLE p m) ∧
        ((convexHull points).length = 2 →
          convexHull points = [f, m] ∧ ∀ p ∈ points, cross f m p = 0)) ∧
      (3 ≤ (convexHull points).length →
        ∀ t ∈ cyclicTriples (convexHull points), 0 < cross t.1 t.2.1 t.2.2) ∧
      ∀ p ∈ points, ∀ e ∈ cyclicPairs (convexHull points), 0 ≤ cross e.1 e.2 p := by
  have hperm := sortPoints_perm points
  have hlen : 2 ≤ (sortPoints points).length := by rw [hperm.length_eq]; exact h2
  have hs := sortPoints_sorted points
  obtain ⟨k, l, f, m, -, -, hk, hl, hL0, -, hU0, -, hf, hm⟩ :=
    chains_facts (sortPoints points) hs hlen
  have hLd : (lowerChain (sortPoints points)).dropLast.length = k + 1 := by
    rw [List.length_dropLast, hk]; rfl
  have hUd : (upperChain (sortPoints points)).dropLast.length = l + 1 := by
    rw [List.length_dropLast, hl]; rfl
  refine ⟨?_, (hull_subperm_input points).1, ⟨f, m, ?_, ?_, ?_, ?_⟩,
    hull_turns_strict points, hull_edges_nonneg points h2⟩
  · rw [convexHull_eq, List.length_append, hLd, hUd]; omega
  · rw [convexHull_eq]
    apply List.mem_append_left
    apply List.mem_iff_getElem?.mpr
    exact ⟨0, by rw [List.getElem?_dropLast, if_pos (by omega), hL0]⟩
  · rw [convexHull_eq]
    apply List.mem_append_right
    apply List.mem_iff_getElem?.mpr
    exact ⟨0, by rw [List.getElem?_dropLast, if_pos (by omega), hU0]⟩
  · intro p hp
    have hq : p ∈ sortPoints points := hperm.mem_iff.mpr hp
    exact ⟨pairwise_head_min lexLE_sweep hs f hf p hq,
      pairwise_last_max lexLE_sweep hs m hm p hq⟩
  · intro hlen2
    have hkl : k = 0 ∧ l = 0 := by
      rw [convexHull_eq, List.length_append, hLd, hUd] at hlen2; omega
    obtain ⟨hk0, hl0⟩ := hkl
    subst hk0; subst hl0
    have hL : (lowerChain (sortPoints points)).dropLast = [f] := by
      apply List.ext_getElem?
      intro i
      cases i with
      | zero => rw [List.getElem?_dropLast, if_pos (by omega), hL0]; rfl
      | succ j =>
        rw [List.getElem?_eq_none (by omega)]
        exact (List.getElem?_eq_none (by simp)).symm
    have hU : (upperChain (sortPoints points)).dropLast = [m] := by
      apply List.ext_getElem?
      intro i
      cases i with
      | zero => rw [List.getElem?_dropLast, if_pos (by omega), hU0]; rfl
      | succ j =>
        rw [List.getElem?_eq_none (by omega)]
        exact (List.getElem?_eq_none (by simp)).symm
    have hH : convexHull points = [f, m] := by rw [convexHull_eq, hL, hU]; rfl
    refine ⟨hH, ?_⟩
    intro p hp
    have he := hull_edges_nonneg points h2 p hp
    rw [hH] at he
    have hc : cyclicPairs [f, m] = [(f, m), (m, f)] := rfl
    rw [hc] at he
    have h1 : 0 ≤ cross f m p := he (f, m) (List.mem_cons_self _ _)
    have h2 : 0 ≤ cross m f p := he (m, f) (List.mem_cons_of_mem _ (List.mem_cons_self _ _))
    have h3 : cross m f p = -cross f m p := by unfold cross; ring
    rw [h3] at h2
    exact le_antisymm (by linarith) h1

theorem convexHull_contains_input_witness :
    (2 ≤ [pt 0 0, pt 1 0, pt 1 1, pt 0 1, pt 2 2, pt 1 1].length ∧
      convexHull [pt 0 0, pt 1 0, pt 1 1, pt 0 1, pt 2 2, pt 1 1] =
        [pt 0 0, pt 1 0, pt 2 2, pt 0 1] ∧
      (2 ≤ (convexHull [pt 0 0, pt 1 0, pt 1 1, pt 0 1, pt 2 2, pt 1 1]).length ∧
        (∀ v ∈ convexHull [pt 0 0, pt 1 0, pt 1 1, pt 0 1, pt 2 2, pt 1 1],
          v ∈ [pt 0 0, pt 1 0, pt 1 1, pt 0 1, pt 2 2, pt 1 1]) ∧
        (∃ f m, f ∈ convexHull [pt 0 0, pt 1 0, pt 1 1, pt 0 1, pt 2 2, pt 1 1] ∧
          m ∈ convexHull [pt 0 0, pt 1 0, pt 1 1, pt 0 1, pt 2 2, pt 1 1] ∧
          (∀ p ∈ [pt 0 0, pt 1 0, pt 1 1, pt 0 1, pt 2 2, pt 1 1], lexLE f p ∧ lexLE p m) ∧
          ((convexHull [pt 0 0, pt 1 0, pt 1 1, pt 0 1, pt 2 2, pt 1 1]).length = 2 →
            convexHull [pt 0 0, pt 1 0, pt 1 1, pt 0 1, pt 2 2, pt 1 1] = [f, m] ∧
            ∀ p ∈ [pt 0 0, pt 1 0, pt 1 1, pt 0 1, pt 2 2, pt 1 1], cross f m p = 0)) ∧
        (3 ≤ (convexHull [pt 0 0, pt 1 0, pt 1 1, pt 0 1, pt 2 2, pt 1 1]).length →
          ∀ t ∈ cyclicTriples (convexHull [pt 0 0, pt 1 0, pt 1 1, pt 0 1, pt 2 2, pt 1 1]),
            0 < cross t.1 t.2.1 t.2.2) ∧
        ∀ p ∈ [pt 0 0, pt 1 0, pt 1 1, pt 0 1, pt 2 2, pt 1 1],
          ∀ e ∈ cyclicPairs (convexHull [pt 0 0, pt 1 0, pt 1 1, pt 0 1, pt 2 2, pt 1 1]),
            0 ≤ cross e.1 e.2 p)) ∧
      2 ≤ [pt 2 2, pt 0 0, pt 1 1].length ∧
      convexHull [pt 2 2, pt 0 0, pt 1 1] = [pt 0 0, pt 2 2] ∧
      ∃ f m, f ∈ convexHull [pt 2 2, pt 0 0, pt 1 1] ∧
        m ∈ convexHull [pt 2 2, pt 0 0, pt 1 1] ∧
        (∀ p ∈ [pt 2 2, pt 0 0, pt 1 1], lexLE f p ∧ lexLE p m) ∧
        ((convexHull [pt 2 2, pt 0 0, pt 1 1]).length = 2 →
          convexHull [pt 2 2, pt 0 0, pt 1 1] = [f, m] ∧
          ∀ p ∈ [pt 2 2, pt 0 0, pt 1 1], cross f m p = 0) :=
  ⟨⟨by decide, by decide, convexHull_contains_input _ (by decide)⟩, by decide, by decide,
    (convexHull_contains_input [pt 2 2, pt 0 0, pt 1 1] (by decide)).2.2.1⟩

end HullContainment

section HullDouble

variable {K : Type} [LinearOrderedCommRing K]

theorem popWhileWith_cons_cons (crs : Point K → Point K → Point K → K) (p b a : Point K)
    (rest : List (Point K)) :
    popWhileWith crs p (b :: a :: rest) =
      if crs a b p ≤ 0 then popWhileWith crs p (a :: rest) else b :: a :: rest := by
  rw [popWhileWith]

theorem popWhileWith_single (crs : Point K → Point K → Point K → K) (p b : Point K) :
    popWhileWith crs p [b] = [b] := by
  rw [popWhileWith]
  intro b a rest h; cases h

theorem popWhileWith_nil (crs : Point K → Point K → Point K → K) (p : Point K) :
    popWhileWith crs p [] = [] := by
  rw [popWhileWith]
  intro b a rest h; cases h

theorem popWhileWith_suffix (crs : Point K → Point K → Point K → K) (p : Point K) :
    ∀ st : List (Point K), popWhileWith crs p st <:+ st := by
  intro st
  induction st with
  | nil => rw [popWhileWith_nil]
  | cons b tl ih =>
    cases tl with
    | nil => rw [popWhileWith_single]
    | cons a rest =>
      rw [popWhileWith_cons_cons]
      split
      · exact ih.trans (List.suffix_cons b _)
      · exact List.suffix_refl _

theorem chainRevWith_sublist (crs : Point K → Point K → Point K → K) (pts : List (Point K)) :
    (chainRevWith crs pts).Sublist pts.reverse := by
  induction pts using List.reverseRecOn with
  | nil => simp [chainRevWith]
  | append_singleton pre q ih =>
    rw [chainRevWith, List.foldl_append, List.reverse_append, List.reverse_singleton,
      List.singleton_append]
    exact List.Sublist.cons₂ q ((popWhileWith_suffix crs q _).sublist.trans ih)

theorem popWhileWith_cross (p : Point K) :
    ∀ st : List (Point K), popWhileWith cross p st = popWhile p st := by
  intro st
  induction st with
  | nil => rw [popWhileWith_nil, popWhile_nil]
  | cons b tl ih =>
    cases tl with
    | nil => rw [popWhileWith_single, popWhile_single]
    | cons a rest =>
      rw [popWhileWith_cons_cons, popWhile_cons_cons, ih]

theorem chainRevWith_cross (pts : List (Point K)) : chainRevWith cross pts = chainRev pts := by
  unfold chainRevWith chainRev
  congr 1
  funext st p
  rw [popWhileWith_cross]

theorem convexHullWith_cross (points : List (Point K)) :
    convexHullWith cross points = convexHull points := by
  show (chainRevWith cross (sortPoints points)).reverse.dropLast ++
      (chainRevWith cross (sortPoints points).reverse).reverse.dropLast = convexHull points
  rw [chainRevWith_cross, chainRevWith_cross]
  rfl

/-- Rounding to 53 significant bits on small cases: a value of at most 53 bits
is kept, a tie goes to the even neighbour, anything else to the nearest one,
and the sign is carried along. -/
theorem round53_examples :
    round53 (2 ^ 53 - 1) = 2 ^ 53 - 1 ∧ round53 (2 ^ 53 + 1) = 2 ^ 53 ∧
      round53 (2 ^ 53 + 3) = 2 ^ 53 + 4 ∧ round53 (2 ^ 54 + 5) = 2 ^ 54 + 4 ∧
      round53 (2 ^ 54 + 6) = 2 ^ 54 + 8 ∧ round53 (2 ^ 54 + 7) = 2 ^ 54 + 8 ∧
      round53 (-(2 ^ 53 + 3)) = -(2 ^ 53 + 4) ∧ round53 (2 ^ 54 - 1) = 2 ^ 54 := by
  decide

/-- C14 (counterexample): in double arithmetic the rows `(0.1, 0.4)`,
`(0.7, 1)`, `(1.3, 1.6)` (lon, lat) give `cross` the same positive value
`2 ^ 59` units of `2 ^ (-112)` in both directions, so that neither pass drops
the middle point: `convexHull` returns four points from three, the middle one
twice, which is not a sub-multiset of the input. The exact value of `cross` on
these doubles is negative, and with it the hull is the three points. -/
theorem convexHull_double_repeats_point :
    crossDouble (pt 7205759403792794 28823037615171176) (pt 50440315826549552 72057594037927936)
        (pt 93674872249306320 115292150460684704) = 576460752303423488 ∧
      crossDouble (pt 93674872249306320 115292150460684704)
        (pt 50440315826549552 72057594037927936)
        (pt 7205759403792794 28823037615171176) = 576460752303423488 ∧
      convexHullWith crossDouble nearLine =
        [pt 7205759403792794 28823037615171176, pt 50440315826549552 72057594037927936,
          pt 93674872249306320 115292150460684704, pt 50440315826549552 72057594037927936] ∧
      (convexHullWith crossDouble nearLine).count (pt 50440315826549552 72057594037927936) = 2 ∧
      nearLine.count (pt 50440315826549552 72057594037927936) = 1 ∧
      cross (pt 7205759403792794 28823037615171176) (pt 50440315826549552 72057594037927936)
        (pt 93674872249306320 115292150460684704) = -86469112845513536 ∧
      convexHull nearLine =
        [pt 7205759403792794 28823037615171176, pt 93674872249306320 115292150460684704,
          pt 50440315826549552 72057594037927936] ∧
      ¬ (convexHullWith crossDouble nearLine).Subperm nearLine := by
  refine ⟨by decide, by decide, by decide, by decide, by decide, by decide, by decide, ?_⟩
  intro h
  have := h.length_le
  revert this
  decide

/-- C14 (amended): every point of the sequence returned by `convexHull` is an
input point, whatever values the calls of `cross` produce (for exact and for
double arithmetic alike); and when `cross` is evaluated exactly, the output
uses each input point at most as often as it occurs in the input (it is a
sub-multiset of the input). -/
theorem convexHull_points_from_input (crs : Point K → Point K → Point K → K)
    (points : List (Point K)) :
    (∀ p ∈ convexHullWith crs points, p ∈ points) ∧
      convexHullWith cross points = convexHull points ∧
      (convexHull points).Subperm points := by
  refine ⟨?_, convexHullWith_cross points, (hull_subperm_input points).2⟩
  intro p hp
  have hperm := sortPoints_perm points
  unfold convexHullWith at hp
  rcases List.mem_append.mp hp with h | h
  · have h1 := List.mem_reverse.mp (List.mem_of_mem_dropLast h)
    have h2 := (chainRevWith_sublist crs (sortPoints points)).subset h1
    exact hperm.mem_iff.mp (List.mem_reverse.mp h2)
  · have h1 := List.mem_reverse.mp (List.mem_of_mem_dropLast h)
    have h2 := (chainRevWith_sublist crs (sortPoints points).reverse).subset h1
    exact hperm.mem_iff.mp (List.mem_reverse.mp (List.mem_reverse.mp h2))

end HullDouble

end AreaCalculator
